import Mathlib

/-!
# Verification of the `webexp` Webflow exporter

Shallow embedding of the export pipeline of `src/webexp/cli.py` and of the
job orchestration layer of `src/webexp/api.py`, together with proofs about
the properties stated in the design document.

Strings are modelled as `List Char` (named `Str` below); every Python string
primitive used by the code (`str.strip`, `str.split`, `str.rstrip`,
`os.path.basename`, `urllib.parse.urlparse`, ...) is given an executable
Lean counterpart translated from its CPython implementation (the full
Python whitespace set for `str.strip`, `urlparse` with its left-only strip,
tab/CR/LF removal, `;params` splitting and its `Invalid IPv6 URL`
`ValueError`).
-/

namespace Webexp

/-- Python strings, modelled as lists of characters. -/
abbrev Str := List Char

/-- The characters Python's `str.strip()` removes: the Unicode whitespace
set (`str.isspace()`) — ASCII `\t\n\x0b\x0c\r`, the file/group/record/unit
separators `\x1c`-`\x1f`, space, NEL `\x85`, NBSP `\xa0`, Ogham space mark
`\u1680`, the en-quad..hair-space block `\u2000`-`\u200a`, line and
paragraph separators `\u2028`/`\u2029`, `\u202f`, `\u205f` and ideographic
space `\u3000`. -/
def isPySpace (c : Char) : Bool :=
  c = ' ' || c = '\t' || c = '\n' || c = '\r' || c = '\x0b' || c = '\x0c' ||
    c = '\x1c' || c = '\x1d' || c = '\x1e' || c = '\x1f' ||
    c = '\x85' || c = '\xa0' || c = '\u1680' ||
    (0x2000 ≤ c.toNat && c.toNat ≤ 0x200a) ||
    c = '\u2028' || c = '\u2029' || c = '\u202f' || c = '\u205f' || c = '\u3000'

/-- `str.lstrip()`. -/
def pyLStrip (s : Str) : Str := s.dropWhile isPySpace

/-- `str.rstrip()`. -/
def pyRStrip (s : Str) : Str := (s.reverse.dropWhile isPySpace).reverse

/-- `str.strip()` (left strip then right strip; the order is immaterial). -/
def pyStrip (s : Str) : Str := pyRStrip (pyLStrip s)

/-- `str.rstrip(chars)` for a single character, as in `url.rstrip("/")`. -/
def pyRStripChar (c : Char) (s : Str) : Str :=
  (s.reverse.dropWhile (· = c)).reverse

/-- `str.split(sep)` for a one-character separator: splits at every
occurrence, keeping empty fields (`"a,,b".split(',') = ["a","","b"]`). -/
def splitOnChar (c : Char) : Str → List Str
  | [] => [[]]
  | x :: xs =>
    if x = c then [] :: splitOnChar c xs
    else
      match splitOnChar c xs with
      | [] => [[x]]
      | h :: t => (x :: h) :: t

/-- Split a string at the first occurrence of `c`; `none` when `c` is absent
(the pair omits the separator itself, like `str.split(c, 1)` when it hits). -/
def splitFirst (c : Char) (s : Str) : Option (Str × Str) :=
  if s.contains c then some (s.takeWhile (· ≠ c), ((s.dropWhile (· ≠ c)).drop 1)) else none

/-- `str.lower()` (ASCII). -/
def lowerStr (s : Str) : Str := s.map Char.toLower

/-- `os.path.basename` on a URL path: the part after the last `/`. -/
def basenameStr (s : Str) : Str := (s.reverse.takeWhile (· ≠ '/')).reverse

/-- Characters admissible in a URL scheme after the leading letter
(CPython's `scheme_chars`). -/
def isSchemeChar (c : Char) : Bool :=
  c.isAlpha || c.isDigit || c = '+' || c = '-' || c = '.'

/-- The bytes `urllib.parse.urlsplit` deletes anywhere in the URL
(`_UNSAFE_URL_BYTES_TO_REMOVE`): tab, carriage return, newline. -/
def isUnsafeUrlChar (c : Char) : Bool := c = '\t' || c = '\r' || c = '\n'

/-- The leading/trailing characters `urlsplit` strips
(WHATWG C0 controls and space). -/
def isC0OrSpace (c : Char) : Bool := c.toNat ≤ 0x20

/-- Result of `urllib.parse.urlparse` (a `ParseResult`): `scheme`,
`netloc`, `path`, `params`, `query`, `fragment`.  The exporter reads
`scheme`, `netloc` and `path`; `params`, `query` and `fragment` are split
off so that they do not leak into `path`. -/
structure UrlParts where
  scheme : Str
  netloc : Str
  path : Str
  params : Str
  query : Str
  fragment : Str
  deriving Repr, DecidableEq

/-- Scheme extraction of `urlsplit`: the text before the first `:` is the
scheme when it is nonempty, starts with an ASCII letter and consists of
scheme characters only; the scheme is lowercased. -/
def splitScheme (u : Str) : Str × Str :=
  match splitFirst ':' u with
  | none => ([], u)
  | some (before, after) =>
    if (match before.head? with | some c => c.isAlpha | none => false)
        && before.all isSchemeChar
    then (lowerStr before, after)
    else ([], u)

/-- Netloc extraction of `urlsplit`: after a leading `//`, up to the first
`/`, `?` or `#`. -/
def splitNetlocStr (u : Str) : Str × Str :=
  if ['/', '/'].isPrefixOf u then
    let rest := u.drop 2
    (rest.takeWhile (fun c => ¬(c = '/' || c = '?' || c = '#')),
     rest.dropWhile (fun c => ¬(c = '/' || c = '?' || c = '#')))
  else ([], u)

/-- trailing strip of C0 controls and space -/
def pyRStripC0 (s : Str) : Str := (s.reverse.dropWhile isC0OrSpace).reverse

/-- The input cleanup `urlsplit` performs before splitting: left-strip C0
controls/space (only the left end — CPython keeps trailing characters,
`url.lstrip(_WHATWG_C0_CONTROL_OR_SPACE)`), then delete tab/CR/LF
anywhere. -/
def urlPreprocess (url : Str) : Str :=
  (url.dropWhile isC0OrSpace).filter (fun c => !isUnsafeUrlChar c)

/-- `_splitparams` (CPython `urllib/parse.py`): split `;params` off the
path — at the first `;` after the last `/` when the path has a `/`, at the
first `;` otherwise.  (`urlparse` only calls it when a `;` is present; the
`none` branches make the Lean function total.) -/
def splitParams (p : Str) : Str × Str :=
  if p.contains '/' then
    match splitFirst ';' ((p.reverse.takeWhile (fun c => ¬c = '/')).reverse) with
    | some (a, b) => ((p.reverse.dropWhile (fun c => ¬c = '/')).reverse ++ a, b)
    | none => (p, [])
  else
    match splitFirst ';' p with
    | some (a, b) => (a, b)
    | none => (p, [])

/-- `uses_params` (CPython `urllib/parse.py`): the schemes for which
`urlparse` splits `;params` off the path. -/
def uses_params : List Str :=
  [[], "ftp".data, "hdl".data, "prospero".data, "http".data, "imap".data,
   "https".data, "shttp".data, "rtsp".data, "rtsps".data, "rtspu".data,
   "sip".data, "sips".data, "mms".data, "sftp".data, "tel".data]

/-- `urllib.parse.urlparse`, the no-`ValueError` core: clean up the input,
split off scheme, netloc, fragment (at the first `#`), query (at the first
`?`) and — for the `uses_params` schemes — `;params`. -/
def pyUrlParseVal (url : Str) : UrlParts :=
  let u := urlPreprocess url
  let su := splitScheme u
  let nu := splitNetlocStr su.2
  let uf :=
    match splitFirst '#' nu.2 with
    | some (a, b) => (a, b)
    | none => (nu.2, ([] : Str))
  let pq :=
    match splitFirst '?' uf.1 with
    | some (a, b) => (a, b)
    | none => (uf.1, ([] : Str))
  let pp :=
    if uses_params.contains su.1 && pq.1.contains ';' then splitParams pq.1
    else (pq.1, ([] : Str))
  ⟨su.1, nu.1, pp.1, pp.2, pq.2, uf.2⟩

/-! ## `cli.py` — URL classifier (lines 96-187) -/

/-- `WEBFLOW_ASSET_HOST_SUFFIXES` (cli.py line 96). -/
def WEBFLOW_ASSET_HOST_SUFFIXES : List Str :=
  ["website-files.com".data, "webflow.io".data, "webflow.com".data]

/-- `WEBFLOW_ASSET_HOSTS` (cli.py line 102). -/
def WEBFLOW_ASSET_HOSTS : List Str :=
  ["d3e54v103j8qbb.cloudfront.net".data]

/-- `normalize_asset_url` (cli.py line 118): falsy input unchanged, strip
whitespace, prefix protocol-relative URLs with `https:`. -/
def normalize_asset_url (url : Str) : Str :=
  if url = [] then url
  else
    let u := pyStrip url
    if ['/', '/'].isPrefixOf u then "https:".data ++ u else u

/-- `is_webflow_asset_urlVal` (cli.py line 129). -/
def is_webflow_asset_urlVal (url : Str) : Bool :=
  if url = [] then false
  else
    let parsed := pyUrlParseVal (normalize_asset_url url)
    if ¬(parsed.scheme = "http".data || parsed.scheme = "https".data) then false
    else
      let host := lowerStr parsed.netloc
      if WEBFLOW_ASSET_HOSTS.contains host then true
      else WEBFLOW_ASSET_HOST_SUFFIXES.any (fun suffx => suffx.isSuffixOf host)

/-- `local_asset_pathVal` (cli.py line 147): `none` models Python's `None`
("no mapping", silent skip). -/
def local_asset_pathVal (asset_type : Str) (url : Str) : Option Str :=
  let parsed := pyUrlParseVal (normalize_asset_url url)
  let filename := basenameStr parsed.path
  if filename = [] then none
  else some (asset_type ++ '/' :: filename)

/-- The first-space split of a srcset entry (cli.py lines 170-174):
`piece.split(' ', 1)` with the descriptor stripped, or `(piece, "")` when
there is no space. -/
def split1Space (p : Str) : Str × Str :=
  if p.contains ' ' then
    (p.takeWhile (· ≠ ' '), pyStrip ((p.dropWhile (· ≠ ' ')).drop 1))
  else (p, [])

/-- The URL substitution shared by `rewrite_srcsetVal` (cli.py lines 176-180)
and `process_htmlVal.rewrite_attributeVal` (cli.py lines 606-610): normalize, and
when the URL classifies as a Webflow asset and has a local mapping,
substitute the mapping; otherwise keep the original text. -/
def rewriteUrlPart (asset_type : Str) (u : Str) : Str :=
  let normalized := normalize_asset_url u
  if is_webflow_asset_urlVal normalized then
    match local_asset_pathVal asset_type normalized with
    | some lp => lp
    | none => u
  else u

/-- The body of `rewrite_srcsetVal`'s loop for one already-stripped nonempty
piece (cli.py lines 170-185): split URL/descriptor, substitute the local
path when the URL classifies and has a mapping, re-join with one space. -/
def rewritePiece (asset_type : Str) (piece : Str) : Str :=
  let ud := split1Space piece
  let url_out := rewriteUrlPart asset_type ud.1
  if ud.2 = [] then url_out else url_out ++ ' ' :: ud.2

/-- One iteration of `rewrite_srcsetVal`'s loop (cli.py lines 165-185):
strip the item; skip it entirely when blank. -/
def processPiece (asset_type : Str) (item : Str) : Option Str :=
  let piece := pyStrip item
  if piece = [] then none else some (rewritePiece asset_type piece)

/-- `rewrite_srcsetVal` (cli.py line 158): falsy value unchanged; otherwise
split on `,`, process each entry, re-join with `", "`. -/
def rewrite_srcsetVal (value : Str) (asset_type : Str) : Str :=
  if value = [] then value
  else List.intercalate ", ".data ((splitOnChar ',' value).filterMap (processPiece asset_type))

/-! ## The `ValueError` surface of `urllib.parse.urlparse`

CPython's `urlsplit` raises `ValueError("Invalid IPv6 URL")` when the
netloc contains `[` without `]` or `]` without `[`; since CPython 3.11 it
also validates a balanced bracketed host against `ipaddress` (raising
unless it is a valid IPv6 or IPvFuture literal), and on every path
`_checknetloc` rejects some non-ASCII netlocs after NFKC normalization.
The exporter calls `urlparse` unguarded from `is_webflow_asset_url`,
`local_asset_path`, `rewrite_srcset`, `process_html` and
`download_assets`, so a raise aborts those functions.  `PyRes` makes this
explicit: `ok` is a normal return; `raises` marks inputs on which every
supported interpreter raises (unbalanced brackets in the netloc);
`unmodeled` marks inputs whose outcome is interpreter-version-dependent
(balanced bracketed hosts, validated only since 3.11) or outside this
embedding (the NFKC check, which can only fire on a non-ASCII netloc).  No
theorem below asserts anything about an `unmodeled` input. -/

inductive PyRes (α : Type) where
  | ok (a : α)
  | raises
  | unmodeled
  deriving Repr, DecidableEq

def PyRes.bind {α β : Type} (r : PyRes α) (f : α → PyRes β) : PyRes β :=
  match r with
  | .ok a => f a
  | .raises => .raises
  | .unmodeled => .unmodeled

/-- The netloc `urlsplit` extracts and inspects with its bracket checks
(raising happens before the fragment/query/params splits, which cannot
affect it). -/
def urlNetloc (url : Str) : Str :=
  (splitNetlocStr (splitScheme (urlPreprocess url)).2).1

/-- `urllib.parse.urlparse` with its error surface. -/
def pyUrlParse (url : Str) : PyRes UrlParts :=
  if (urlNetloc url).contains '[' && !(urlNetloc url).contains ']' then .raises
  else if (urlNetloc url).contains ']' && !(urlNetloc url).contains '[' then .raises
  else if (urlNetloc url).contains '[' then .unmodeled
  else if !(urlNetloc url).all (fun c => c.toNat < 128) then .unmodeled
  else .ok (pyUrlParseVal url)

/-- `is_webflow_asset_url` (cli.py line 129) with the `urlparse` error
surface: the falsy guard returns before any parse; otherwise the outcome
of `urlparse(normalize_asset_url(url))` decides. -/
def is_webflow_asset_url (url : Str) : PyRes Bool :=
  if url = [] then .ok false
  else (pyUrlParse (normalize_asset_url url)).bind
    (fun _ => .ok (is_webflow_asset_urlVal url))

/-- `local_asset_path` (cli.py line 147) with the `urlparse` error
surface. -/
def local_asset_path (asset_type url : Str) : PyRes (Option Str) :=
  (pyUrlParse (normalize_asset_url url)).bind
    (fun _ => .ok (local_asset_pathVal asset_type url))

/-- The srcset loop body's URL substitution with the error surface:
`is_webflow_asset_url(normalized)` parses `normalize(normalized)` and may
raise; when it returns `True`, `local_asset_path(asset_type, normalized)`
parses the same cleaned string again, so its outcome is the same and the
`ok` value is the total substitution `rewriteUrlPart`. -/
def rewriteUrlPartE (asset_type u : Str) : PyRes Str :=
  (is_webflow_asset_url (normalize_asset_url u)).bind
    (fun _ => PyRes.ok (rewriteUrlPart asset_type u))

/-- One iteration of `rewrite_srcset`'s loop with the error surface:
blank entries are skipped before any parse. -/
def processPieceE (asset_type item : Str) : PyRes (Option Str) :=
  if pyStrip item = [] then .ok none
  else (rewriteUrlPartE asset_type (split1Space (pyStrip item)).1).bind
    (fun _ => PyRes.ok (processPiece asset_type item))

/-- The loop of `rewrite_srcset` (cli.py lines 164-185) with the error
surface: the first raising entry aborts the whole call, later entries are
not evaluated. -/
def collectPiecesE (asset_type : Str) : List Str → PyRes (List Str)
  | [] => .ok []
  | item :: rest =>
    (processPieceE asset_type item).bind (fun op =>
      match op with
      | none => collectPiecesE asset_type rest
      | some p => (collectPiecesE asset_type rest).bind (fun ps => PyRes.ok (p :: ps)))

/-- `rewrite_srcset` (cli.py line 158) with the `urlparse` error surface. -/
def rewrite_srcset (value asset_type : Str) : PyRes Str :=
  if value = [] then .ok value
  else (collectPiecesE asset_type (splitOnChar ',' value)).bind
    (fun _ => PyRes.ok (rewrite_srcsetVal value asset_type))

/-! ## Lemmas about the string primitives -/

theorem dropWhile_append_neg {p : Char → Bool} {m : Char} (hm : ¬p m = true) :
    ∀ (x y : Str), List.dropWhile p (x ++ m :: y) = List.dropWhile p x ++ m :: y := by
  intro x y
  induction x with
  | nil => simp [List.dropWhile, hm]
  | cons a t ih =>
    by_cases ha : p a = true
    · simp [List.dropWhile, ha, ih]
    · simp [List.dropWhile, ha]

theorem dropWhile_append_all {p : Char → Bool} :
    ∀ (x : Str), (∀ c ∈ x, p c = true) → ∀ y, List.dropWhile p (x ++ y) = List.dropWhile p y := by
  intro x
  induction x with
  | nil => intro _ y; rfl
  | cons a t ih =>
    intro h y
    have ha : p a = true := h a (by simp)
    simp only [List.cons_append, List.dropWhile]
    rw [ha]
    exact ih (fun c hc => h c (by simp [hc])) y

theorem takeWhile_append_all {p : Char → Bool} {m : Char} (hm : ¬p m = true) :
    ∀ (x y : Str), (∀ c ∈ x, p c = true) → List.takeWhile p (x ++ m :: y) = x := by
  intro x y hx
  rw [List.takeWhile_append_of_pos hx]
  simp [List.takeWhile, hm]

theorem head_dropWhile_neg {p : Char → Bool} :
    ∀ (l : Str) (c : Char) (t : Str), List.dropWhile p l = c :: t → p c = false := by
  intro l
  induction l with
  | nil => intro c t h; simp [List.dropWhile] at h
  | cons a r ih =>
    intro c t h
    by_cases ha : p a = true
    · simp [List.dropWhile, ha] at h
      exact ih c t h
    · simp [List.dropWhile, ha] at h
      rcases h with ⟨h1, _⟩
      subst h1
      simpa using ha

theorem pyLStrip_sublist (s : Str) : List.Sublist (pyLStrip s) s :=
  List.dropWhile_sublist isPySpace

theorem pyRStrip_sublist (s : Str) : List.Sublist (pyRStrip s) s := by
  have h := (@List.dropWhile_sublist Char s.reverse isPySpace).reverse
  simpa [pyRStrip] using h

theorem pyStrip_sublist (s : Str) : List.Sublist (pyStrip s) s :=
  (pyRStrip_sublist (pyLStrip s)).trans (pyLStrip_sublist s)

theorem mem_pyStrip {c : Char} {s : Str} (h : c ∈ pyStrip s) : c ∈ s :=
  (pyStrip_sublist s).mem h

theorem pyLStrip_cons_pos {x : Char} (hx : isPySpace x = true) (s : Str) :
    pyLStrip (x :: s) = pyLStrip s := by
  simp [pyLStrip, List.dropWhile, hx]

theorem pyLStrip_cons_neg {x : Char} (hx : isPySpace x = false) (s : Str) :
    pyLStrip (x :: s) = x :: s := by
  simp [pyLStrip, List.dropWhile, hx]

theorem pyStrip_cons_pos {x : Char} (hx : isPySpace x = true) (s : Str) :
    pyStrip (x :: s) = pyStrip s := by
  simp [pyStrip, pyLStrip_cons_pos hx]

theorem pyRStrip_append_cons {m : Char} (hm : isPySpace m = false) (a b : Str) :
    pyRStrip (a ++ m :: b) = a ++ m :: pyRStrip b := by
  unfold pyRStrip
  rw [List.reverse_append]
  have : (m :: b).reverse = b.reverse ++ [m] := by simp
  rw [show (m :: b).reverse ++ a.reverse = b.reverse ++ m :: a.reverse by simp]
  rw [dropWhile_append_neg (by simp [hm]) b.reverse a.reverse]
  simp [pyRStrip]

theorem pyLStrip_head {c : Char} {t s : Str} (h : pyLStrip s = c :: t) : isPySpace c = false :=
  head_dropWhile_neg s c t h

theorem pyRStrip_getLast {s l : Str} {c : Char} (h : pyRStrip s = l)
    (hc : l.getLast? = some c) : isPySpace c = false := by
  subst h
  unfold pyRStrip at hc
  rw [← List.head?_reverse, List.reverse_reverse] at hc
  rcases hd : List.dropWhile isPySpace s.reverse with _ | ⟨x, xs⟩
  · rw [hd] at hc; simp at hc
  · rw [hd] at hc
    simp only [List.head?] at hc
    have := head_dropWhile_neg s.reverse x xs hd
    cases hc
    exact this

theorem pyRStrip_eq_self {s : Str} (h : ∀ c, s.getLast? = some c → isPySpace c = false) :
    pyRStrip s = s := by
  unfold pyRStrip
  rcases hs : s.reverse with _ | ⟨x, xs⟩
  · have : s = [] := by simpa using congrArg List.reverse hs
    simp [this]
  · have hx : s.getLast? = some x := by
      rw [← List.head?_reverse, hs]; rfl
    rw [List.dropWhile_cons_of_neg (by simp [h x hx])]
    rw [← hs, List.reverse_reverse]

theorem pyLStrip_eq_self {s : Str} (h : ∀ c, s.head? = some c → isPySpace c = false) :
    pyLStrip s = s := by
  rcases s with _ | ⟨x, xs⟩
  · rfl
  · exact pyLStrip_cons_neg (h x rfl) xs

/-- A string whose first and last characters are not whitespace is unchanged
by `str.strip()`. -/
theorem pyStrip_eq_self {s : Str}
    (h1 : ∀ c, s.head? = some c → isPySpace c = false)
    (h2 : ∀ c, s.getLast? = some c → isPySpace c = false) :
    pyStrip s = s := by
  unfold pyStrip
  rw [pyLStrip_eq_self h1]
  exact pyRStrip_eq_self h2

theorem pyStrip_head {c : Char} {t s : Str} (h : pyStrip s = c :: t) : isPySpace c = false := by
  unfold pyStrip at h
  rcases hl : pyLStrip s with _ | ⟨x, xs⟩
  · rw [hl] at h; simp [pyRStrip] at h
  · rw [hl] at h
    have hx : isPySpace x = false := pyLStrip_head hl
    have hr := pyRStrip_append_cons hx [] xs
    simp only [List.nil_append] at hr
    rw [hr] at h
    rcases h with ⟨⟩
    exact hx

theorem pyStrip_getLast {s : Str} {c : Char} (hc : (pyStrip s).getLast? = some c) :
    isPySpace c = false :=
  pyRStrip_getLast rfl hc

/-- `str.strip()` is idempotent. -/
theorem pyStrip_idem (s : Str) : pyStrip (pyStrip s) = pyStrip s := by
  apply pyStrip_eq_self
  · intro c hc
    rcases hs : pyStrip s with _ | ⟨x, xs⟩
    · rw [hs] at hc; simp at hc
    · rw [hs] at hc
      cases hc
      exact pyStrip_head hs
  · intro c hc
    exact pyStrip_getLast hc

theorem splitOnChar_ne_nil (c : Char) (s : Str) : splitOnChar c s ≠ [] := by
  induction s with
  | nil => simp [splitOnChar]
  | cons x xs ih =>
    by_cases hx : x = c
    · simp [splitOnChar, hx]
    · simp only [splitOnChar, if_neg hx]
      rcases h : splitOnChar c xs with _ | ⟨a, b⟩
      · simp
      · simp

theorem not_mem_of_mem_splitOnChar {c : Char} {s p : Str} (hmem : p ∈ splitOnChar c s) :
    c ∉ p := by
  induction s generalizing p with
  | nil =>
    simp [splitOnChar] at hmem
    subst hmem; simp
  | cons x xs ih =>
    by_cases hx : x = c
    · simp only [splitOnChar, if_pos hx] at hmem
      rcases List.mem_cons.mp hmem with h | h
      · subst h; simp
      · exact ih h
    · simp only [splitOnChar, if_neg hx] at hmem
      rcases hs : splitOnChar c xs with _ | ⟨a, b⟩
      · exact absurd hs (splitOnChar_ne_nil c xs)
      · rw [hs] at hmem
        rcases List.mem_cons.mp hmem with h | h
        · subst h
          intro hc
          rcases List.mem_cons.mp hc with hc | hc
          · exact hx hc.symm
          · exact ih (by rw [hs]; exact List.mem_cons_self a b) hc
        · exact ih (by rw [hs]; exact List.mem_cons_of_mem a h)

theorem mem_of_mem_splitOnChar {c x : Char} {s p : Str}
    (hmem : p ∈ splitOnChar c s) (hx : x ∈ p) : x ∈ s := by
  induction s generalizing p with
  | nil =>
    simp [splitOnChar] at hmem
    subst hmem; simp at hx
  | cons a xs ih =>
    by_cases ha : a = c
    · simp only [splitOnChar, if_pos ha] at hmem
      rcases List.mem_cons.mp hmem with h | h
      · subst h; simp at hx
      · exact List.mem_cons_of_mem a (ih h hx)
    · simp only [splitOnChar, if_neg ha] at hmem
      rcases hs : splitOnChar c xs with _ | ⟨q, b⟩
      · exact absurd hs (splitOnChar_ne_nil c xs)
      · rw [hs] at hmem
        rcases List.mem_cons.mp hmem with h | h
        · subst h
          rcases List.mem_cons.mp hx with hx | hx
          · simp [hx]
          · exact List.mem_cons_of_mem a
              (ih (by rw [hs]; exact List.mem_cons_self q b) hx)
        · exact List.mem_cons_of_mem a (ih (by rw [hs]; exact List.mem_cons_of_mem q h) hx)

theorem splitOnChar_nomem {c : Char} {s : Str} (h : c ∉ s) : splitOnChar c s = [s] := by
  induction s with
  | nil => rfl
  | cons x xs ih =>
    have hx : ¬x = c := fun he => h (by simp [he])
    have hxs : c ∉ xs := fun hm => h (List.mem_cons_of_mem x hm)
    simp only [splitOnChar, if_neg hx, ih hxs]

theorem splitOnChar_append_cons {c : Char} {a : Str} (h : c ∉ a) (b : Str) :
    splitOnChar c (a ++ c :: b) = a :: splitOnChar c b := by
  induction a with
  | nil => simp [splitOnChar]
  | cons x xs ih =>
    have hx : ¬x = c := fun he => h (by simp [he])
    have hxs : c ∉ xs := fun hm => h (List.mem_cons_of_mem x hm)
    simp only [List.cons_append, splitOnChar, if_neg hx, List.append_eq, ih hxs]

theorem intercalate_nil (sep : List Char) : List.intercalate sep [] = [] := by
  simp [List.intercalate]

theorem intercalate_single (sep x : List Char) : List.intercalate sep [x] = x := by
  simp [List.intercalate]

theorem intercalate_cons₂ (sep x y : List Char) (t : List (List Char)) :
    List.intercalate sep (x :: y :: t) = x ++ sep ++ List.intercalate sep (y :: t) := by
  simp [List.intercalate, List.intersperse]

/-- Splitting a `", "`-join (first separator character `c`, second `d ≠ c`)
of comma-free parts recovers the parts, the second and later parts prefixed
with `d`. -/
theorem splitOnChar_intercalate {c d : Char} (hdc : d ≠ c) :
    ∀ (q : Str) (qs : List Str), (∀ p ∈ q :: qs, c ∉ p) →
      splitOnChar c (List.intercalate [c, d] (q :: qs)) = q :: qs.map (d :: ·) := by
  intro q qs
  induction qs generalizing q with
  | nil =>
    intro h
    rw [intercalate_single]
    exact splitOnChar_nomem (h q (by simp))
  | cons r rs ih =>
    intro h
    rw [intercalate_cons₂]
    have hq : c ∉ q := h q (by simp)
    rw [show q ++ [c, d] ++ List.intercalate [c, d] (r :: rs) =
        q ++ c :: (d :: List.intercalate [c, d] (r :: rs)) by simp]
    rw [splitOnChar_append_cons hq]
    have hrec := ih r (fun p hp => h p (List.mem_cons_of_mem q hp))
    have : splitOnChar c (d :: List.intercalate [c, d] (r :: rs)) =
        (d :: r) :: rs.map (d :: ·) := by
      have hd : ¬d = c := hdc
      simp only [splitOnChar, if_neg hd, hrec]
    rw [this]
    simp

theorem contains_iff_mem {α : Type} [BEq α] [LawfulBEq α] (c : α) (s : List α) :
    s.contains c = true ↔ c ∈ s := by
  simp [List.contains, List.elem_iff]

/-! ## Lemmas about the URL parser and classifier -/

/-- A category prefix for which `"{category}/{filename}"` can never classify
as a Webflow asset: nonempty, printable non-whitespace first character, and
free of the characters that could produce a scheme or survive into one. -/
def GoodCat (ty : Str) : Bool :=
  match ty with
  | [] => false
  | c :: _ =>
    !isC0OrSpace c && !isPySpace c &&
      ty.all (fun x => !isUnsafeUrlChar x && !(x = ':') && !(x = '/') && !(x = ' '))

/-- The asset categories used by the exporter. -/
def assetCategories : List Str := ["css".data, "js".data, "images".data, "media".data]

theorem assetCategories_good : ∀ ty ∈ assetCategories, GoodCat ty = true := by decide

/-- `splitScheme` yields no scheme on a string that contains `/` before any
`:` (a `/` is not a scheme character). -/
theorem splitScheme_slash (a : Str) (ha : ':' ∉ a) (b : Str) :
    splitScheme (a ++ '/' :: b) = ([], a ++ '/' :: b) := by
  unfold splitScheme splitFirst
  by_cases hc : (a ++ '/' :: b).contains ':' = true
  · rw [if_pos hc]
    have htake : (a ++ '/' :: b).takeWhile (· ≠ ':') = a ++ '/' :: b.takeWhile (· ≠ ':') := by
      rw [List.takeWhile_append_of_pos (by
        intro x hx
        simp only [ne_eq, decide_eq_true_eq]
        intro he
        exact ha (he ▸ hx))]
      simp [List.takeWhile]
    have hmem : '/' ∈ (a ++ '/' :: b).takeWhile (· ≠ ':') := by
      rw [htake]; simp
    have hall : ((a ++ '/' :: b).takeWhile (· ≠ ':')).all isSchemeChar = false := by
      rcases hb : ((a ++ '/' :: b).takeWhile (· ≠ ':')).all isSchemeChar with _ | _
      · rfl
      · have := List.all_eq_true.mp hb '/' hmem
        simp [isSchemeChar] at this
    simp only [hall, Bool.and_false, if_neg (by simp : ¬(false = true))]
  · rw [if_neg hc]

theorem isPrefixOf_doubleSlash_cons {c : Char} (hc : ¬c = '/') (l : Str) :
    ['/', '/'].isPrefixOf (c :: l) = false := by
  simp only [List.isPrefixOf]
  have : ('/' == c) = false := by simpa using fun he => hc he.symm
  simp [this]

/-- Unpacked form of `GoodCat`. -/
theorem goodCat_props {ty : Str} (hty : GoodCat ty = true) :
    ty ≠ [] ∧ (∀ c, ty.head? = some c → isC0OrSpace c = false ∧ isPySpace c = false) ∧
      ∀ x ∈ ty, isUnsafeUrlChar x = false ∧ x ≠ ':' ∧ x ≠ '/' ∧ x ≠ ' ' := by
  rcases ty with _ | ⟨c, rest⟩
  · cases hty
  · unfold GoodCat at hty
    rcases Bool.and_eq_true_iff.mp hty with ⟨h1, h2⟩
    rcases Bool.and_eq_true_iff.mp h1 with ⟨h1a, h1b⟩
    refine ⟨by simp, ?_, ?_⟩
    · intro d hd
      simp only [List.head?] at hd
      cases hd
      exact ⟨by simpa using h1a, by simpa using h1b⟩
    · intro x hx
      have hxall := List.all_eq_true.mp h2 x hx
      rcases Bool.and_eq_true_iff.mp hxall with ⟨h3, h6⟩
      rcases Bool.and_eq_true_iff.mp h3 with ⟨h4, h5⟩
      rcases Bool.and_eq_true_iff.mp h4 with ⟨hu, hcol⟩
      refine ⟨by simpa using hu, ?_, ?_, ?_⟩
      · exact of_decide_eq_false (by simpa using hcol)
      · exact of_decide_eq_false (by simpa using h5)
      · exact of_decide_eq_false (by simpa using h6)

/-- `normalize_asset_url` on a category-prefixed relative path only
right-strips the filename part. -/
theorem normalize_cat_path {ty : Str} (hty : GoodCat ty = true) (fn : Str) :
    normalize_asset_url (ty ++ '/' :: fn) = ty ++ '/' :: pyRStrip fn := by
  obtain ⟨hne, hhead, hall⟩ := goodCat_props hty
  rcases ty with _ | ⟨c, rest⟩
  · exact absurd rfl hne
  have hcps : isPySpace c = false := (hhead c rfl).2
  have hlstrip : pyLStrip ((c :: rest) ++ '/' :: fn) = (c :: rest) ++ '/' :: fn := by
    simpa using pyLStrip_cons_neg hcps (rest ++ '/' :: fn)
  have hstrip : pyStrip ((c :: rest) ++ '/' :: fn) = (c :: rest) ++ '/' :: pyRStrip fn := by
    unfold pyStrip
    rw [hlstrip]
    exact pyRStrip_append_cons (by decide) (c :: rest) fn
  have hpre : ['/', '/'].isPrefixOf ((c :: rest) ++ '/' :: pyRStrip fn) = false := by
    have hc := (hall c (by simp)).2.2.1
    simpa using isPrefixOf_doubleSlash_cons hc (rest ++ '/' :: pyRStrip fn)
  unfold normalize_asset_url
  rw [if_neg (by simp : ¬((c :: rest) ++ '/' :: fn = []))]
  simp only [hstrip, hpre]
  simp

theorem reverse_dropWhile_append_cons {p : Char → Bool} {m : Char} (hm : p m = false)
    (a b : Str) :
    ((a ++ m :: b).reverse.dropWhile p).reverse = a ++ m :: (b.reverse.dropWhile p).reverse := by
  rw [List.reverse_append]
  rw [show (m :: b).reverse ++ a.reverse = b.reverse ++ m :: a.reverse by simp]
  rw [dropWhile_append_neg (by simp [hm]) b.reverse a.reverse]
  simp

theorem pyRStripC0_append_cons {m : Char} (hm : isC0OrSpace m = false) (a b : Str) :
    pyRStripC0 (a ++ m :: b) = a ++ m :: pyRStripC0 b :=
  reverse_dropWhile_append_cons hm a b

/-- `urlsplit`'s input cleanup keeps a good category prefix intact. -/
theorem urlPreprocess_cat {ty : Str} (hty : GoodCat ty = true) (g : Str) :
    urlPreprocess (ty ++ '/' :: g) =
      ty ++ '/' :: g.filter (fun c => !isUnsafeUrlChar c) := by
  obtain ⟨hne, hhead, hall⟩ := goodCat_props hty
  unfold urlPreprocess
  rcases ty with _ | ⟨c, rest⟩
  · exact absurd rfl hne
  rw [show (c :: rest) ++ '/' :: g = c :: (rest ++ '/' :: g) by simp]
  rw [List.dropWhile_cons_of_neg (by simp [(hhead c rfl).1])]
  rw [show c :: (rest ++ '/' :: g) = (c :: rest) ++ '/' :: g by simp]
  rw [List.filter_append]
  have hfil : (c :: rest).filter (fun x => !isUnsafeUrlChar x) = c :: rest := by
    apply List.filter_eq_self.mpr
    intro x hx
    simp [(hall x hx).1]
  rw [hfil]
  rw [List.filter_cons_of_pos (by decide)]

theorem pyUrlParseVal_scheme_eq (url : Str) :
    (pyUrlParseVal url).scheme = (splitScheme (urlPreprocess url)).1 := rfl

/-- The classifier rejects every `"{category}/{filename}"` string produced
by `local_asset_pathVal` for a good category: such a string never parses with
a scheme. -/
theorem is_webflow_cat_path_false {ty : Str} (hty : GoodCat ty = true) (fn : Str) :
    is_webflow_asset_urlVal (ty ++ '/' :: fn) = false := by
  obtain ⟨hne, hhead, hall⟩ := goodCat_props hty
  have hnormal := normalize_cat_path hty fn
  have hcolon : ':' ∉ ty := fun hm => (hall ':' hm).2.1 rfl
  have hscheme : (pyUrlParseVal (ty ++ '/' :: pyRStrip fn)).scheme = [] := by
    rw [pyUrlParseVal_scheme_eq, urlPreprocess_cat hty (pyRStrip fn),
      splitScheme_slash ty hcolon]
  unfold is_webflow_asset_urlVal
  rw [if_neg (by
    rcases ty with _ | ⟨c, rest⟩
    · exact absurd rfl hne
    · simp)]
  rw [hnormal]
  rw [if_pos (by
    rw [hscheme]
    simp [String.data])]

theorem local_asset_pathVal_none_iff (asset_type u : Str) :
    local_asset_pathVal asset_type u = none ↔
      basenameStr (pyUrlParseVal (normalize_asset_url u)).path = [] := by
  unfold local_asset_pathVal
  by_cases h : basenameStr (pyUrlParseVal (normalize_asset_url u)).path = []
  · simp [h]
  · simp [h]

theorem local_asset_pathVal_some_shape {asset_type u lp : Str}
    (h : local_asset_pathVal asset_type u = some lp) :
    ∃ fn, fn ≠ [] ∧ fn = basenameStr (pyUrlParseVal (normalize_asset_url u)).path ∧
      lp = asset_type ++ '/' :: fn := by
  unfold local_asset_pathVal at h
  by_cases hb : basenameStr (pyUrlParseVal (normalize_asset_url u)).path = []
  · simp [hb] at h
  · simp only [if_neg hb] at h
    exact ⟨basenameStr (pyUrlParseVal (normalize_asset_url u)).path, hb, rfl,
      (Option.some.inj h).symm⟩

/-- Applying the URL substitution a second time (with any category) to its
own output changes nothing: a substituted local path never classifies, a
kept URL is kept again. -/
theorem rewriteUrlPart_second {ty : Str} (hty : GoodCat ty = true) (ty' u : Str) :
    rewriteUrlPart ty' (rewriteUrlPart ty u) = rewriteUrlPart ty u := by
  by_cases hw : is_webflow_asset_urlVal (normalize_asset_url u) = true
  · rcases hlp : local_asset_pathVal ty (normalize_asset_url u) with _ | lp
    · have h1 : rewriteUrlPart ty u = u := by
        unfold rewriteUrlPart
        simp [hw, hlp]
      rw [h1]
      have hlp' : local_asset_pathVal ty' (normalize_asset_url u) = none := by
        rw [local_asset_pathVal_none_iff]
        exact (local_asset_pathVal_none_iff ty (normalize_asset_url u)).mp hlp
      unfold rewriteUrlPart
      simp [hw, hlp']
    · have h1 : rewriteUrlPart ty u = lp := by
        unfold rewriteUrlPart
        simp [hw, hlp]
      rw [h1]
      obtain ⟨fn, _, _, hshape⟩ := local_asset_pathVal_some_shape hlp
      subst hshape
      have hfalse : is_webflow_asset_urlVal (normalize_asset_url (ty ++ '/' :: fn)) = false := by
        rw [normalize_cat_path hty fn]
        exact is_webflow_cat_path_false hty (pyRStrip fn)
      unfold rewriteUrlPart
      simp [hfalse]
  · have h1 : rewriteUrlPart ty u = u := by
      unfold rewriteUrlPart
      simp [hw]
    rw [h1]
    unfold rewriteUrlPart
    simp [hw]

/-! ## Claim C7 — the classifier's accept condition -/

/-- The acceptance condition as the specification words it (section 4.1 and
section 8): after normalization the URL parses with an `http` or `https`
scheme, and the lowercased host matches the allow-list exactly or ends with
one of the platform suffixes. -/
def specIsPlatformAsset (url : Str) : Prop :=
  let parsed := pyUrlParseVal (normalize_asset_url url)
  (parsed.scheme = "http".data ∨ parsed.scheme = "https".data) ∧
    (lowerStr parsed.netloc ∈ WEBFLOW_ASSET_HOSTS ∨
      ∃ suffx ∈ WEBFLOW_ASSET_HOST_SUFFIXES, suffx.isSuffixOf (lowerStr parsed.netloc) = true)

/-- The total classifier matches the spec's predicate on every input. -/
theorem classifier_accepts_iff_val (url : Str) :
    is_webflow_asset_urlVal url = true ↔ specIsPlatformAsset url := by
  by_cases hnil : url = []
  · subst hnil
    constructor
    · intro h; simp [is_webflow_asset_urlVal] at h
    · intro h
      rcases h with ⟨hs, _⟩
      rcases hs with hs | hs <;> simp [pyUrlParseVal, urlPreprocess, pyRStripC0,
        normalize_asset_url, splitScheme, splitFirst, String.data] at hs
  · unfold is_webflow_asset_urlVal specIsPlatformAsset
    rw [if_neg hnil]
    by_cases hs : ((pyUrlParseVal (normalize_asset_url url)).scheme = "http".data ∨
        (pyUrlParseVal (normalize_asset_url url)).scheme = "https".data)
    · have hsb : ((pyUrlParseVal (normalize_asset_url url)).scheme == "http".data ||
          (pyUrlParseVal (normalize_asset_url url)).scheme == "https".data) = true := by
        rcases hs with hs | hs <;> simp [hs]
      rw [if_neg (by simp_all)]
      by_cases hh : lowerStr (pyUrlParseVal (normalize_asset_url url)).netloc ∈ WEBFLOW_ASSET_HOSTS
      · rw [if_pos (by
          rw [contains_iff_mem]
          exact hh)]
        simp [hh, hs]
      · rw [if_neg (by
          rw [contains_iff_mem]
          exact hh)]
        constructor
        · intro hany
          refine ⟨hs, Or.inr ?_⟩
          rcases List.any_eq_true.mp hany with ⟨sf, hsf, hsfx⟩
          exact ⟨sf, hsf, hsfx⟩
        · intro hcon
          rcases hcon with ⟨_, hc⟩
          rcases hc with hc | hc
          · exact absurd hc hh
          · rcases hc with ⟨sf, hsf, hsfx⟩
            exact List.any_eq_true.mpr ⟨sf, hsf, hsfx⟩
    · rw [if_pos (by
        intro hb
        rcases Bool.or_eq_true_iff.mp hb with hb | hb
        · exact hs (Or.inl (by simpa using hb))
        · exact hs (Or.inr (by simpa using hb)))]
      constructor
      · intro h; cases h
      · intro h
        exact absurd h.1 hs

/-! ## Claim C10 — basename determines the on-disk location -/

/-- Relative on-disk path that `download_assets` computes for a non-HTML
asset (cli.py lines 584-589): `{asset_type}/{basename}`, or a skip (`none`)
when the filename is empty; the manifest URL is parsed unnormalized. -/
def asset_relative_pathVal (asset_type url : Str) : Option Str :=
  let parsed := pyUrlParseVal url
  let filename := basenameStr parsed.path
  if filename = [] then none else some (asset_type ++ '/' :: filename)

/-- The same computation with `urlparse`'s error surface: the manifest URL
is parsed once (cli.py line 584), and a raise propagates out of
`download_assets`. -/
def asset_relative_path (asset_type url : Str) : PyRes (Option Str) :=
  (pyUrlParse url).bind (fun _ => PyRes.ok (asset_relative_pathVal asset_type url))

/-- Sequential file writes: each `(path, contents)` pair overwrites the
previous contents at `path` (the effect of `download_assets`'s in-order
`open(output_path, 'wb')` writes). -/
def runWrites (writes : List (Str × Str)) : Str → Option Str :=
  writes.foldl (fun disk pu => fun q => if q = pu.1 then some pu.2 else disk q)
    (fun _ => none)

theorem runWrites_untouched {p : Str} :
    ∀ (w : List (Str × Str)) (st : Str → Option Str), (∀ q ∈ w, q.1 ≠ p) →
      (w.foldl (fun disk pu => fun q => if q = pu.1 then some pu.2 else disk q) st) p = st p := by
  intro w
  induction w with
  | nil => intro st _; rfl
  | cons e rest ih =>
    intro st hw
    simp only [List.foldl]
    rw [ih _ (fun q hq => hw q (List.mem_cons_of_mem e hq))]
    have : ¬p = e.1 := fun he => hw e (by simp) he.symm
    simp [this]

/-- The collision core over the total functions. -/
theorem basename_collision_val (ty u1 u2 : Str)
    (hb : basenameStr (pyUrlParseVal (normalize_asset_url u1)).path =
      basenameStr (pyUrlParseVal (normalize_asset_url u2)).path)
    (hd : basenameStr (pyUrlParseVal u1).path = basenameStr (pyUrlParseVal u2).path) :
    local_asset_pathVal ty u1 = local_asset_pathVal ty u2 ∧
      asset_relative_pathVal ty u1 = asset_relative_pathVal ty u2 ∧
      (∀ pth x y pre mid post,
        (∀ q ∈ post, q.1 ≠ pth) →
        runWrites (pre ++ (pth, x) :: mid ++ (pth, y) :: post) pth = some y) := by
  refine ⟨?_, ?_, ?_⟩
  · simp only [local_asset_pathVal, hb]
  · simp only [asset_relative_pathVal, hd]
  · intro pth x y pre mid post hpost
    unfold runWrites
    rw [show pre ++ (pth, x) :: mid ++ (pth, y) :: post =
      ((pre ++ (pth, x) :: mid) ++ [(pth, y)]) ++ post by simp]
    rw [List.foldl_append, List.foldl_append]
    simp only [List.foldl]
    rw [runWrites_untouched post _ hpost]
    simp

/-! ## Claim C1 — `run_export` and the `scan_html` call signature -/

/-- A Python function's positional parameter list. -/
structure PyCallSig where
  params : List Str
  deriving Repr, DecidableEq

/-- A call site: how many positional arguments and which keyword names. -/
structure PyCall where
  positional : Nat
  keywords : List Str
  deriving Repr, DecidableEq

/-- Python call binding: a call raises `TypeError` unless the positional
arguments fit and every keyword names a parameter that is not already bound
positionally. -/
def call_accepted (sig : PyCallSig) (call : PyCall) : Bool :=
  decide (call.positional ≤ sig.params.length) &&
    call.keywords.all (fun kw => sig.params.contains kw) &&
    call.keywords.all (fun kw => !(sig.params.take call.positional).contains kw)

/-- `def scan_html(url):` — cli.py line 388 declares a single parameter and
no `follow_internal_links`. -/
def scan_html_sig : PyCallSig := ⟨["url".data]⟩

/-- The call `scan_html(url, follow_internal_links=not single_page)` that
`run_export` makes — cli.py line 242: one positional argument plus the
keyword `follow_internal_links` (whose value, `not single_page`, is
irrelevant to binding). -/
def run_export_scan_call (_single_page : Bool) : PyCall :=
  ⟨1, ["follow_internal_links".data]⟩

/-- Outcomes of `run_export` (cli.py lines 204-270) relevant to claim C1. -/
inductive RunExportOutcome
  | config_error
  | validation_error
  | type_error (kw : Str)
  | completed
  deriving Repr, DecidableEq

/-- `run_export` up to and including its call into the crawler: flag
validation (line 219), `check_url` (line 233), the output-path check
(line 236), then the `scan_html` call (line 242), which binds the keyword
arguments against `scan_html`'s signature. The crawl never starts, so the
remaining pipeline steps are unreachable from here. -/
def run_export_model (debug silent url_ok output_ok single_page : Bool) : RunExportOutcome :=
  if debug && silent then .config_error
  else if !url_ok then .validation_error
  else if !output_ok then .validation_error
  else if !(call_accepted scan_html_sig (run_export_scan_call single_page)) then
    .type_error "follow_internal_links".data
  else .completed

/-- C1 evidence: for a valid seed and output path, `run_export` raises
`TypeError` at the `scan_html` call whichever way `--single-page` is set,
and no combination of flags ever completes — `scan_html` has no
`follow_internal_links` parameter, yet `run_export` always passes one. -/
theorem claim_C1_run_export_type_error :
    (∀ single_page : Bool,
      run_export_model false false true true single_page =
        .type_error "follow_internal_links".data) ∧
    ∀ debug silent url_ok output_ok single_page : Bool,
      run_export_model debug silent url_ok output_ok single_page ≠ .completed := by
  constructor
  · intro single_page
    rcases single_page <;> rfl
  · intro debug silent url_ok output_ok single_page
    rcases debug <;> rcases silent <;> rcases url_ok <;> rcases output_ok <;>
      rcases single_page <;> decide

/-! ## HTML tags (shared by `check_url` and `process_htmlVal`) -/

/-- A parsed HTML tag: element name, the element name of its parent (empty
at the root) and its attribute dictionary. BeautifulSoup attribute
dictionaries have unique keys; parsing and re-serialisation
(`soup.prettify()`) preserve this structure, only formatting changes. -/
structure Tag where
  name : Str
  parent : Str
  attrs : List (Str × Str)
  deriving Repr, DecidableEq

/-- `tag.get(attribute)`. -/
def getAttr (t : Tag) (a : Str) : Option Str :=
  (t.attrs.find? (fun pr => pr.1 = a)).map (·.2)

/-- `tag[attribute] = v` on an existing attribute. -/
def setAttr (t : Tag) (a v : Str) : Tag :=
  { t with attrs := t.attrs.map (fun pr => if pr.1 = a then (a, v) else pr) }

/-- Attribute presence, the meaning of `find_all(..., attr=True)`. -/
def hasAttr (t : Tag) (a : Str) : Bool := (getAttr t a).isSome

/-- Python's substring test `needle in hay`. -/
def containsSubstr (needle hay : Str) : Bool :=
  needle.isPrefixOf hay ||
    match hay with
    | [] => false
    | _ :: t => containsSubstr needle t

/-! ## Claim C5 — seed validation (`check_url`, cli.py lines 319-362) -/

/-- An HTTP response as `check_url` consumes it: status code and the parsed
document's tags. -/
structure HttpResponse where
  status_code : Nat
  tags : List Tag
  deriving Repr, DecidableEq

/-- Check 1 (cli.py lines 335-338): some `<link href>` mentions
`website-files.com`. -/
def has_webflow_links (tags : List Tag) : Bool :=
  (tags.filter (fun t => t.name = "link".data && hasAttr t "href".data)).any
    (fun t => containsSubstr "website-files.com".data ((getAttr t "href".data).getD []))

/-- Check 2 (cli.py lines 341-344): some `<script src>` mentions
`website-files.com`. -/
def has_webflow_scripts (tags : List Tag) : Bool :=
  (tags.filter (fun t => t.name = "script".data && hasAttr t "src".data)).any
    (fun t => containsSubstr "website-files.com".data ((getAttr t "src".data).getD []))

/-- Check 3 (cli.py lines 347-349): the first
`<meta name="generator" content=...>` has `webflow` in its lowercased
content. -/
def has_webflow_meta (tags : List Tag) : Bool :=
  match tags.find? (fun t => t.name = "meta".data &&
      decide (getAttr t "name".data = some "generator".data) && hasAttr t "content".data) with
  | some t => containsSubstr "webflow".data (lowerStr ((getAttr t "content".data).getD []))
  | none => false

/-- The indicator list `check_url` accumulates (cli.py lines 332-351). -/
def webflow_indicators (tags : List Tag) : List Str :=
  (if has_webflow_links tags then ["website-files.com links".data] else []) ++
    (if has_webflow_scripts tags then ["website-files.com scripts".data] else []) ++
    (if has_webflow_meta tags then ["Webflow meta generator".data] else [])

/-- `check_url` (cli.py lines 319-362): `none` models an unreachable seed
(`requests.RequestException`); error messages abbreviated to their first
words. -/
def check_url (resp : Option HttpResponse) : Except Str Bool :=
  match resp with
  | none => .error "Failed to reach the provided URL".data
  | some r =>
    if r.status_code ≠ 200 then
      .error "Invalid URL. Please provide a valid Webflow URL.".data
    else if webflow_indicators r.tags ≠ [] then .ok true
    else .error "The provided URL does not appear to be a Webflow site.".data

/-- Any single platform indicator suffices. -/
def hasWebflowIndicator (tags : List Tag) : Bool :=
  has_webflow_links tags || has_webflow_scripts tags || has_webflow_meta tags

theorem webflow_indicators_ne_nil_iff (tags : List Tag) :
    webflow_indicators tags ≠ [] ↔ hasWebflowIndicator tags = true := by
  unfold webflow_indicators hasWebflowIndicator
  by_cases h1 : has_webflow_links tags = true
  · simp [h1]
  · by_cases h2 : has_webflow_scripts tags = true
    · simp [h1, h2]
    · by_cases h3 : has_webflow_meta tags = true
      · simp [h1, h2, h3]
      · simp [h1, h2, h3]

/-- C5 as amended: validation passes exactly for a reachable seed whose
response has status code exactly 200 (not any 2xx) and carries at least one
Webflow indicator; every other case aborts. -/
theorem claim_C5_check_url_amended (resp : Option HttpResponse) :
    (check_url resp).isOk = true ↔
      ∃ r, resp = some r ∧ r.status_code = 200 ∧ hasWebflowIndicator r.tags = true := by
  rcases resp with _ | r
  · constructor
    · intro h; simp [check_url, Except.isOk, Except.toBool] at h
    · intro h; rcases h with ⟨r, hr, _⟩; cases hr
  · constructor
    · intro h
      refine ⟨r, rfl, ?_, ?_⟩
      · by_cases hc : r.status_code = 200
        · exact hc
        · simp [check_url, hc, Except.isOk, Except.toBool] at h
      · by_cases hc : r.status_code = 200
        · by_cases hi : webflow_indicators r.tags = []
          · simp [check_url, hc, hi, Except.isOk, Except.toBool] at h
          · exact (webflow_indicators_ne_nil_iff r.tags).mp hi
        · simp [check_url, hc, Except.isOk, Except.toBool] at h
    · intro h
      rcases h with ⟨r', hr, hcode, hind⟩
      have hrr : r = r' := Option.some.inj hr
      subst hrr
      have hne := (webflow_indicators_ne_nil_iff r.tags).mpr hind
      simp [check_url, hcode, hne, Except.isOk, Except.toBool]

/-- A concrete response: status 201 (a 2xx success) with a
`website-files.com` stylesheet link, a clear platform indicator. -/
def c5_response : HttpResponse :=
  ⟨201, [⟨"link".data, "head".data,
    [("rel".data, "stylesheet".data),
     ("href".data, "https://assets.website-files.com/site.css".data)]⟩]⟩

/-- C5 counterexample: the claim says every reachable seed with a 2xx
status and an indicator passes validation, but `check_url` tests
`status_code != 200` and so aborts on this 201 response. -/
theorem claim_C5_counterexample :
    (check_url (some c5_response)).isOk = false ∧
      200 ≤ c5_response.status_code ∧ c5_response.status_code < 300 ∧
      hasWebflowIndicator c5_response.tags = true := by decide

/-! ## Claim C8 — the crawler's visited set (cli.py lines 391-428) -/

/-- One fetchable page: whether its `Content-Type` indicates HTML, and the
crawl targets its anchors yield. The `urljoin` resolution, same-domain
filter and scheme+host+path normalization of cli.py lines 420-428 are
folded into the `links` field (`recursive_scan` re-applies the trailing
slash strip at entry, as line 398 does); the visited-set property holds for
every choice of resolved targets. -/
structure CrawlPage where
  contentTypeHtml : Bool
  links : List Str

/-- The crawler's mutable state: the `visited` set, the pages actually
fetched (each `requests.get` issued, cli.py line 404), and the collected
HTML page list. -/
structure ScanState where
  visited : List Str
  fetched : List Str
  htmlPages : List Str
  deriving Repr

/-- `recursive_scan` (cli.py lines 397-428): strip trailing slashes, bail
out on a visited URL, otherwise mark visited, fetch, and — for an HTML
response — record the page and recurse through its links. `web` abstracts
the network (`none` = request failure or non-2xx status); `fuel` bounds the
recursion depth purely for termination and never changes what is visited
within the explored region. -/
def recursive_scan (web : Str → Option CrawlPage) : Nat → Str → ScanState → ScanState
  | 0, _, st => st
  | Nat.succ fuel, currentUrl, st =>
    let current := pyRStripChar '/' currentUrl
    if current ∈ st.visited then st
    else
      let st1 : ScanState := ⟨current :: st.visited, current :: st.fetched, st.htmlPages⟩
      match web current with
      | none => st1
      | some page =>
        if page.contentTypeHtml then
          let st2 : ScanState := ⟨st1.visited, st1.fetched, current :: st1.htmlPages⟩
          page.links.foldl (fun s u => recursive_scan web fuel u s) st2
        else st1

/-- Invariant: no URL is ever fetched twice, and every fetched URL is in
the visited set. -/
def ScanInv (st : ScanState) : Prop :=
  st.fetched.Nodup ∧ ∀ u ∈ st.fetched, u ∈ st.visited

theorem foldl_scan_inv {f : ScanState → Str → ScanState}
    (hf : ∀ s u, ScanInv s → ScanInv (f s u)) :
    ∀ (l : List Str) (st : ScanState), ScanInv st → ScanInv (l.foldl f st) := by
  intro l
  induction l with
  | nil => intro st h; exact h
  | cons x xs ih => intro st h; exact ih (f st x) (hf st x h)

theorem recursive_scan_inv (web : Str → Option CrawlPage) :
    ∀ fuel url st, ScanInv st → ScanInv (recursive_scan web fuel url st) := by
  intro fuel
  induction fuel with
  | zero => intro url st h; exact h
  | succ n ih =>
    intro url st h
    unfold recursive_scan
    by_cases hv : pyRStripChar '/' url ∈ st.visited
    · simp only [if_pos hv]; exact h
    · simp only [if_neg hv]
      have h1 : ScanInv ⟨pyRStripChar '/' url :: st.visited,
          pyRStripChar '/' url :: st.fetched, st.htmlPages⟩ := by
        constructor
        · exact List.nodup_cons.mpr ⟨fun hm => hv (h.2 _ hm), h.1⟩
        · intro u hu
          rcases List.mem_cons.mp hu with hu | hu
          · simp [hu]
          · exact List.mem_cons_of_mem _ (h.2 u hu)
      split
      · exact h1
      · split
        · exact foldl_scan_inv (fun s u hs => ih u s hs) _ _ ⟨h1.1, h1.2⟩
        · exact h1

/-- The crawl `scan_html` performs (cli.py line 546): `recursive_scan` from
the seed with empty state. Asset extraction (lines 431-544) reads the
fetched pages but never fetches or visits, so it is omitted here. -/
def scan_html_crawl (web : Str → Option CrawlPage) (fuel : Nat) (url : Str) : ScanState :=
  recursive_scan web fuel url ⟨[], [], []⟩

/-- C8: during one crawl, every normalized URL is fetched at most once —
the fetch log of the crawl contains no duplicates, for every network
behaviour, recursion budget and seed. -/
theorem claim_C8_crawler_visits_once (web : Str → Option CrawlPage) (fuel : Nat) (seed : Str) :
    (scan_html_crawl web fuel seed).fetched.Nodup ∧
      ∀ u ∈ (scan_html_crawl web fuel seed).fetched,
        u ∈ (scan_html_crawl web fuel seed).visited := by
  have h := recursive_scan_inv web fuel seed ⟨[], [], []⟩ ⟨List.nodup_nil, by intro u hu; cases hu⟩
  exact ⟨h.1, h.2⟩

/-! ## Claims C2, C3, C6 — the job orchestration layer (api.py)

`_run_export_job` (api.py lines 280-333) mutates its `ExportJob` through a
fixed sequence of primitive, individually-locked operations: appending an
event (stage / log / download), `set_status`, `set_archive`, `set_error`.
A progress query (`snapshot`, api.py lines 129-140) can observe the state
after any prefix of that sequence.  The model below fixes the success-path
operation sequence exactly as the code orders it, lets arbitrary log /
download events stand in for the forwarded downloader diagnostics, and lets
an exception cut the sequence after any prefix, followed by the `except`
block's fixed tail (api.py lines 326-331).  Event payloads (timestamps,
counts, sources) are irrelevant to the claims and omitted. -/

/-- Job status values (api.py line 98 and transitions). -/
inductive JStatus
  | queued
  | running
  | complete
  | error
  deriving Repr, DecidableEq

/-- An observable progress event, by type (payloads omitted; stage events
keep their `name`). -/
inductive JEvent
  | stage (name : Str)
  | log
  | download
  deriving Repr, DecidableEq

/-- One primitive, individually-locked job mutation. -/
inductive JOp
  | emitStage (name : Str)
  | emitLog
  | emitDownload
  | setStatus (s : JStatus)
  | setArchive (size : Nat)
  | setError
  deriving Repr, DecidableEq

/-- The job fields claims C2/C3/C6 read: `status`, whether `error` is set,
the `archive` descriptor (`some size` iff `archive_path`/`archive_size`
are non-null — `set_archive` sets both together, api.py lines 123-127),
and the appended `events`. -/
structure JobState where
  status : JStatus
  errorSet : Bool
  archive : Option Nat
  events : List JEvent
  deriving Repr, DecidableEq

/-- A job as created (api.py lines 91-103). -/
def initialJob : JobState := ⟨.queued, false, none, []⟩

/-- Effect of one primitive mutation. -/
def applyOp (st : JobState) : JOp → JobState
  | .emitStage n => { st with events := st.events ++ [.stage n] }
  | .emitLog => { st with events := st.events ++ [.log] }
  | .emitDownload => { st with events := st.events ++ [.download] }
  | .setStatus s => { st with status := s }
  | .setArchive sz => { st with archive := some sz }
  | .setError => { st with errorSet := true }

def applyOps (st : JobState) (l : List JOp) : JobState := l.foldl applyOp st

/-- The event a mutation appends, if any. -/
def opEvent : JOp → Option JEvent
  | .emitStage n => some (.stage n)
  | .emitLog => some .log
  | .emitDownload => some .download
  | _ => none

/-- Operations that can stand in for forwarded downloader/logger
diagnostics: log and download events only. -/
def PassiveOps (l : List JOp) : Prop :=
  ∀ op ∈ l, op = JOp.emitLog ∨ op = JOp.emitDownload

/-- The archive-building tail of `_run_export_job` (api.py lines 306-325):
`zipping` stage, zip build, `set_archive`, `zipped` and `complete` stages,
`progress.json` append, `set_status("complete")`. -/
def archiveTailOps : List JOp :=
  [.emitStage "ready_for_archive".data,
   .emitStage "zipping".data,
   .setArchive 1,
   .emitStage "zipped".data,
   .emitStage "complete".data,
   .setStatus .complete]

/-- The success-path mutations before the archive-building tail:
`set_status("running")`, the `start` stage (api.py lines 288-289), then
`_execute_export_with_progress`'s stages (lines 366-406) with the
forwarded log/download events.  `pre` holds log events emitted before
validation (debug banner), `dl` the download-phase log/download events,
`bo`/`so` the badge/sitemap phase logs. -/
def preTailOps (rb cs : Bool) (pre dl bo so : List JOp) : List JOp :=
  [.setStatus .running, .emitStage "start".data] ++ pre ++
    [.emitStage "validate_url".data,
     .emitStage "clear_output".data,
     .emitStage "scanning".data,
     .emitStage "scanned".data,
     .emitStage "downloading".data] ++ dl ++
    [.emitStage "downloaded".data] ++
    (if rb then [.emitStage "removing_badge".data] ++ bo ++
      [.emitStage "badge_removed".data] else []) ++
    (if cs then [.emitStage "generating_sitemap".data] ++ so ++
      [.emitStage "sitemap_generated".data] else [])

/-- The whole success-path mutation sequence of `_run_export_job` together
with `_execute_export_with_progress` (api.py lines 280-325 and 366-406),
in program order. -/
def successOps (rb cs : Bool) (pre dl bo so : List JOp) : List JOp :=
  preTailOps rb cs pre dl bo so ++ archiveTailOps

/-- The `except` block (api.py lines 326-331): error log event, `error`
stage event, `set_error`, `set_status("error")`. -/
def errorOps : List JOp :=
  [.emitLog, .emitStage "error".data, .setError, .setStatus .error]

/-- A complete job run: the success sequence, or — when an exception
interrupts it after `failAfter` primitive operations — the executed prefix
followed by the `except` block's tail. -/
def jobOps (rb cs : Bool) (pre dl bo so : List JOp) (failAfter : Option Nat) : List JOp :=
  match failAfter with
  | none => successOps rb cs pre dl bo so
  | some k => (successOps rb cs pre dl bo so).take k ++ errorOps

/-- The job state a progress query observes after `k` of the run's
mutations. -/
def jobSnapshot (rb cs : Bool) (pre dl bo so : List JOp) (failAfter : Option Nat)
    (k : Nat) : JobState :=
  applyOps initialJob ((jobOps rb cs pre dl bo so failAfter).take k)

/-- The job's final state. -/
def runJob (rb cs : Bool) (pre dl bo so : List JOp) (failAfter : Option Nat) : JobState :=
  applyOps initialJob (jobOps rb cs pre dl bo so failAfter)

theorem applyOps_append (st : JobState) (l₁ l₂ : List JOp) :
    applyOps st (l₁ ++ l₂) = applyOps (applyOps st l₁) l₂ :=
  List.foldl_append applyOp st l₁ l₂

theorem applyOp_events (st : JobState) (op : JOp) :
    (applyOp st op).events = st.events ++ (opEvent op).toList := by
  cases op <;> simp [applyOp, opEvent]

/-- Events accumulate in exactly the order the operations execute. -/
theorem applyOps_events (l : List JOp) :
    ∀ st : JobState, (applyOps st l).events = st.events ++ l.filterMap opEvent := by
  induction l with
  | nil => intro st; simp [applyOps]
  | cons op rest ih =>
    intro st
    show (applyOps (applyOp st op) rest).events = _
    rw [ih (applyOp st op), applyOp_events]
    rw [List.filterMap_cons]
    cases h : opEvent op <;> simp [h, List.append_assoc]

theorem applyOps_status_skip (l : List JOp) :
    ∀ st : JobState, (∀ op ∈ l, ∀ s, op ≠ JOp.setStatus s) →
      (applyOps st l).status = st.status := by
  induction l with
  | nil => intro st _; rfl
  | cons op rest ih =>
    intro st h
    show (applyOps (applyOp st op) rest).status = st.status
    rw [ih (applyOp st op) (fun o ho s => h o (List.mem_cons_of_mem op ho) s)]
    cases op with
    | setStatus s => exact absurd rfl (h (JOp.setStatus s) (by simp) s)
    | emitStage n => rfl
    | emitLog => rfl
    | emitDownload => rfl
    | setArchive sz => rfl
    | setError => rfl

theorem applyOps_archive_mono (l : List JOp) :
    ∀ st : JobState, st.archive.isSome = true → (applyOps st l).archive.isSome = true := by
  induction l with
  | nil => intro st h; exact h
  | cons op rest ih =>
    intro st h
    show (applyOps (applyOp st op) rest).archive.isSome = true
    apply ih
    cases op <;> simp [applyOp] <;> try exact h

theorem applyOps_events_mono {e : JEvent} (l : List JOp) (st : JobState)
    (h : e ∈ st.events) : e ∈ (applyOps st l).events := by
  rw [applyOps_events]
  exact List.mem_append_left _ h

/-- The contextual conditions under which `_run_export_job` issues each
mutation: an archive is only attached after the `zipping` stage on a
running/failed job, and `complete` is only entered with the archive
attached; no operation ever re-enters `queued`. -/
def okOp (st : JobState) : JOp → Prop
  | .setArchive _ => JEvent.stage "zipping".data ∈ st.events ∧ st.status ≠ JStatus.queued
  | .setStatus s => s ≠ JStatus.queued ∧ (s = JStatus.complete → st.archive.isSome = true)
  | _ => True

def WFOps : JobState → List JOp → Prop
  | _, [] => True
  | st, op :: rest => okOp st op ∧ WFOps (applyOp st op) rest

theorem wfOps_append (l₁ : List JOp) :
    ∀ (st : JobState) (l₂ : List JOp),
      WFOps st (l₁ ++ l₂) ↔ WFOps st l₁ ∧ WFOps (applyOps st l₁) l₂ := by
  induction l₁ with
  | nil => intro st l₂; simp [WFOps, applyOps]
  | cons op rest ih =>
    intro st l₂
    simp only [List.cons_append, WFOps, List.append_eq]
    rw [ih (applyOp st op) l₂]
    show _ ↔ (okOp st op ∧ WFOps (applyOp st op) rest) ∧
      WFOps (applyOps (applyOp st op) rest) l₂
    constructor
    · rintro ⟨h1, h2, h3⟩; exact ⟨⟨h1, h2⟩, h3⟩
    · rintro ⟨⟨h1, h2⟩, h3⟩; exact ⟨h1, h2, h3⟩

theorem wfOps_take (k : Nat) : ∀ (l : List JOp) (st : JobState), WFOps st l →
    WFOps st (l.take k) := by
  induction k with
  | zero => intro l st _; simp [WFOps]
  | succ n ih =>
    intro l st h
    cases l with
    | nil => simp [WFOps]
    | cons op rest =>
      simp only [List.take, WFOps] at h ⊢
      exact ⟨h.1, ih rest (applyOp st op) h.2⟩

theorem wfOps_passive {l : List JOp} (hp : PassiveOps l) :
    ∀ st : JobState, WFOps st l := by
  induction l with
  | nil => intro st; trivial
  | cons op rest ih =>
    intro st
    have hop := hp op (by simp)
    refine ⟨?_, ih (fun o ho => hp o (List.mem_cons_of_mem op ho)) (applyOp st op)⟩
    rcases hop with h | h <;> subst h <;> trivial

theorem wfOps_errorOps (st : JobState) : WFOps st errorOps := by
  refine ⟨trivial, trivial, trivial, ⟨?_, ?_⟩, trivial⟩
  · intro h; cases h
  · intro h; cases h

theorem wfOps_stages :
    ∀ (l : List JOp), (∀ op ∈ l, ∃ n, op = JOp.emitStage n) → ∀ st, WFOps st l := by
  intro l
  induction l with
  | nil => intro _ st; trivial
  | cons op rest ih =>
    intro h st
    refine ⟨?_, ih (fun o ho => h o (List.mem_cons_of_mem op ho)) (applyOp st op)⟩
    obtain ⟨n, hn⟩ := h op (by simp)
    subst hn; trivial

/-- C2's correctness core: the invariant a snapshot can rely on. -/
def C2Inv (st : JobState) : Prop :=
  (st.status = JStatus.complete → st.archive.isSome = true) ∧
    (st.archive.isSome = true →
      JEvent.stage "zipping".data ∈ st.events ∧ st.status ≠ JStatus.queued)

theorem c2inv_step {st : JobState} {op : JOp} (hinv : C2Inv st) (hok : okOp st op) :
    C2Inv (applyOp st op) := by
  cases op with
  | emitStage n =>
    refine ⟨fun h => hinv.1 h, fun h => ⟨?_, (hinv.2 h).2⟩⟩
    exact List.mem_append_left _ ((hinv.2 h).1)
  | emitLog =>
    refine ⟨fun h => hinv.1 h, fun h => ⟨?_, (hinv.2 h).2⟩⟩
    exact List.mem_append_left _ ((hinv.2 h).1)
  | emitDownload =>
    refine ⟨fun h => hinv.1 h, fun h => ⟨?_, (hinv.2 h).2⟩⟩
    exact List.mem_append_left _ ((hinv.2 h).1)
  | setStatus s =>
    refine ⟨fun h => hok.2 h, fun h => ⟨(hinv.2 h).1, hok.1⟩⟩
  | setArchive sz =>
    exact ⟨fun _ => rfl, fun _ => hok⟩
  | setError =>
    exact ⟨fun h => hinv.1 h, fun h => hinv.2 h⟩

theorem c2inv_take : ∀ (l : List JOp) (st : JobState), C2Inv st → WFOps st l →
    ∀ k, C2Inv (applyOps st (l.take k)) := by
  intro l
  induction l with
  | nil => intro st hinv _ k; simpa [applyOps] using hinv
  | cons op rest ih =>
    intro st hinv hwf k
    cases k with
    | zero => simpa [applyOps] using hinv
    | succ n =>
      simp only [List.take]
      show C2Inv (applyOps (applyOp st op) (rest.take n))
      exact ih (applyOp st op) (c2inv_step hinv hwf.1) hwf.2 n

/-- Membership in a boolean-guarded chunk. -/
theorem mem_ite_ops {b : Bool} {X : List JOp} {op : JOp}
    (h : op ∈ (if b then X else ([] : List JOp))) : b = true ∧ op ∈ X := by
  rcases b with _ | _
  · exact (List.not_mem_nil op h).elim
  · exact ⟨rfl, h⟩

/-- Every operation before the archive tail is permissible in any state:
stage/log/download events always, and `set_status("running")` because
`running` is neither `queued` nor `complete`. -/
theorem preTailOps_alwaysOk {rb cs : Bool} {pre dl bo so : List JOp}
    (hpre : PassiveOps pre) (hdl : PassiveOps dl) (hbo : PassiveOps bo)
    (hso : PassiveOps so) :
    ∀ op ∈ preTailOps rb cs pre dl bo so, ∀ st, okOp st op := by
  intro op hop st
  have hpass : ∀ {l : List JOp}, PassiveOps l → op ∈ l → okOp st op := by
    intro l hl hm
    rcases hl op hm with h | h <;> subst h <;> trivial
  have hstage : ∀ {l : List JOp}, (∀ o ∈ l, ∃ n, o = JOp.emitStage n) → op ∈ l →
      okOp st op := by
    intro l hl hm
    obtain ⟨n, hn⟩ := hl op hm
    subst hn; trivial
  unfold preTailOps at hop
  simp only [List.mem_append] at hop
  rcases hop with ((((((h | h) | h) | h) | h) | h) | h)
  · rcases List.mem_cons.mp h with h | h
    · subst h
      exact ⟨by decide, fun hc => absurd hc (by decide)⟩
    · rcases List.mem_cons.mp h with h | h
      · subst h; trivial
      · cases h
  · exact hpass hpre h
  · refine hstage ?_ h
    intro o ho
    rcases List.mem_cons.mp ho with ho | ho
    · exact ⟨_, ho⟩
    rcases List.mem_cons.mp ho with ho | ho
    · exact ⟨_, ho⟩
    rcases List.mem_cons.mp ho with ho | ho
    · exact ⟨_, ho⟩
    rcases List.mem_cons.mp ho with ho | ho
    · exact ⟨_, ho⟩
    rcases List.mem_cons.mp ho with ho | ho
    · exact ⟨_, ho⟩
    · cases ho
  · exact hpass hdl h
  · rcases List.mem_cons.mp h with h | h
    · subst h; trivial
    · cases h
  · obtain ⟨_, h⟩ := mem_ite_ops h
    rcases List.mem_append.mp h with h | h
    · rcases List.mem_append.mp h with h | h
      · rcases List.mem_cons.mp h with h | h
        · subst h; trivial
        · cases h
      · exact hpass hbo h
    · rcases List.mem_cons.mp h with h | h
      · subst h; trivial
      · cases h
  · obtain ⟨_, h⟩ := mem_ite_ops h
    rcases List.mem_append.mp h with h | h
    · rcases List.mem_append.mp h with h | h
      · rcases List.mem_cons.mp h with h | h
        · subst h; trivial
        · cases h
      · exact hpass hso h
    · rcases List.mem_cons.mp h with h | h
      · subst h; trivial
      · cases h

theorem wfOps_of_alwaysOk : ∀ (l : List JOp), (∀ op ∈ l, ∀ st, okOp st op) →
    ∀ st, WFOps st l := by
  intro l
  induction l with
  | nil => intro _ st; trivial
  | cons op rest ih =>
    intro h st
    exact ⟨h op (by simp) st,
      ih (fun o ho s => h o (List.mem_cons_of_mem op ho) s) (applyOp st op)⟩

/-- The status a sequence of mutations leaves behind, as a fold. -/
def statusStep (s : JStatus) : JOp → JStatus
  | .setStatus s2 => s2
  | _ => s

def isSetStatus : JOp → Bool
  | .setStatus _ => true
  | _ => false

theorem applyOps_status (l : List JOp) :
    ∀ st : JobState, (applyOps st l).status = l.foldl statusStep st.status := by
  induction l with
  | nil => intro st; rfl
  | cons op rest ih =>
    intro st
    show (applyOps (applyOp st op) rest).status = _
    rw [ih (applyOp st op)]
    cases op <;> rfl

theorem foldl_statusStep_skip (l : List JOp) (h : l.all (fun op => !isSetStatus op) = true) :
    ∀ x, l.foldl statusStep x = x := by
  induction l with
  | nil => intro x; rfl
  | cons op rest ih =>
    intro x
    have hop := List.all_eq_true.mp h op (by simp)
    have hrest : rest.all (fun op => !isSetStatus op) = true :=
      List.all_eq_true.mpr (fun o ho => List.all_eq_true.mp h o (List.mem_cons_of_mem op ho))
    cases op with
    | setStatus s => simp [isSetStatus] at hop
    | emitStage n => exact ih hrest x
    | emitLog => exact ih hrest x
    | emitDownload => exact ih hrest x
    | setArchive sz => exact ih hrest x
    | setError => exact ih hrest x

theorem passive_no_setStatus {l : List JOp} (hp : PassiveOps l) :
    l.all (fun op => !isSetStatus op) = true := by
  apply List.all_eq_true.mpr
  intro op hop
  rcases hp op hop with h | h <;> subst h <;> rfl

/-- A boolean-guarded stage chunk contains no status change. -/
theorem ite_chunk_no_setStatus {b : Bool} {A B mid : List JOp}
    (hA : A.all (fun op => !isSetStatus op) = true)
    (hB : B.all (fun op => !isSetStatus op) = true)
    (hmid : PassiveOps mid) :
    ((if b then A ++ mid ++ B else []) : List JOp).all (fun op => !isSetStatus op) = true := by
  rcases b with _ | _
  · rfl
  · show ((A ++ mid ++ B).all fun op => !isSetStatus op) = true
    rw [List.all_append, List.all_append]
    simp [hA, hB, passive_no_setStatus hmid]

/-- No operation before the archive tail changes `status` once `running`
is entered. -/
theorem preTailOps_status {rb cs : Bool} {pre dl bo so : List JOp}
    (hpre : PassiveOps pre) (hdl : PassiveOps dl) (hbo : PassiveOps bo)
    (hso : PassiveOps so) :
    (applyOps initialJob (preTailOps rb cs pre dl bo so)).status = JStatus.running := by
  rw [applyOps_status]
  unfold preTailOps
  rw [List.foldl_append, List.foldl_append, List.foldl_append, List.foldl_append,
    List.foldl_append, List.foldl_append]
  rw [foldl_statusStep_skip _ (ite_chunk_no_setStatus (by rfl) (by rfl) hso)]
  rw [foldl_statusStep_skip _ (ite_chunk_no_setStatus (by rfl) (by rfl) hbo)]
  rw [foldl_statusStep_skip _ (by rfl)]
  rw [foldl_statusStep_skip _ (passive_no_setStatus hdl)]
  rw [foldl_statusStep_skip _ (by rfl)]
  rw [foldl_statusStep_skip _ (passive_no_setStatus hpre)]
  rfl

theorem wfOps_archiveTail {rb cs : Bool} {pre dl bo so : List JOp}
    (hpre : PassiveOps pre) (hdl : PassiveOps dl) (hbo : PassiveOps bo)
    (hso : PassiveOps so) :
    WFOps (applyOps initialJob (preTailOps rb cs pre dl bo so)) archiveTailOps := by
  have hst : (applyOps initialJob (preTailOps rb cs pre dl bo so)).status = JStatus.running :=
    preTailOps_status hpre hdl hbo hso
  refine ⟨trivial, trivial, ⟨?_, ?_⟩, trivial, trivial, ⟨?_, ?_⟩, trivial⟩
  · simp [applyOp]
  · show (applyOps initialJob (preTailOps rb cs pre dl bo so)).status ≠ JStatus.queued
    rw [hst]
    decide
  · decide
  · intro _
    rfl

theorem wfOps_jobOps {rb cs : Bool} {pre dl bo so : List JOp}
    (hpre : PassiveOps pre) (hdl : PassiveOps dl) (hbo : PassiveOps bo)
    (hso : PassiveOps so) (failAfter : Option Nat) :
    WFOps initialJob (jobOps rb cs pre dl bo so failAfter) := by
  have hsucc : WFOps initialJob (successOps rb cs pre dl bo so) := by
    unfold successOps
    refine (wfOps_append _ _ _).mpr ⟨?_, ?_⟩
    · exact wfOps_of_alwaysOk _ (preTailOps_alwaysOk hpre hdl hbo hso) _
    · exact wfOps_archiveTail hpre hdl hbo hso
  rcases failAfter with _ | k
  · exact hsucc
  · exact (wfOps_append _ _ _).mpr
      ⟨wfOps_take k _ _ hsucc, wfOps_errorOps _⟩

/-- C2 as amended: in every observable snapshot of a job run, a `complete`
status guarantees a non-null archive, while a non-null archive guarantees
that the `zipping` stage has already been emitted and the job has left
`queued` — but the archive may be non-null while the status is still
`running` (between archive creation and completion) or `error` (when
archive finalisation fails). -/
theorem claim_C2_archive_amended (rb cs : Bool) (pre dl bo so : List JOp)
    (failAfter : Option Nat) (k : Nat)
    (hpre : PassiveOps pre) (hdl : PassiveOps dl) (hbo : PassiveOps bo)
    (hso : PassiveOps so) :
    ((jobSnapshot rb cs pre dl bo so failAfter k).status = JStatus.complete →
      (jobSnapshot rb cs pre dl bo so failAfter k).archive.isSome = true) ∧
    ((jobSnapshot rb cs pre dl bo so failAfter k).archive.isSome = true →
      JEvent.stage "zipping".data ∈ (jobSnapshot rb cs pre dl bo so failAfter k).events ∧
        (jobSnapshot rb cs pre dl bo so failAfter k).status ≠ JStatus.queued) :=
  c2inv_take (jobOps rb cs pre dl bo so failAfter) initialJob
    ⟨fun h => absurd h (by decide), fun h => by simp [initialJob] at h⟩
    (wfOps_jobOps hpre hdl hbo hso failAfter) k

/-- Witness for the amended C2 at a concrete run. -/
theorem claim_C2_archive_amended_witness :
    ((jobSnapshot true true [JOp.emitLog] [JOp.emitDownload] [] [] (some 20) 9).status =
        JStatus.complete →
      (jobSnapshot true true [JOp.emitLog] [JOp.emitDownload] [] [] (some 20) 9).archive.isSome =
        true) ∧
    ((jobSnapshot true true [JOp.emitLog] [JOp.emitDownload] [] [] (some 20) 9).archive.isSome =
        true →
      JEvent.stage "zipping".data ∈
          (jobSnapshot true true [JOp.emitLog] [JOp.emitDownload] [] [] (some 20) 9).events ∧
        (jobSnapshot true true [JOp.emitLog] [JOp.emitDownload] [] [] (some 20) 9).status ≠
          JStatus.queued) :=
  claim_C2_archive_amended true true [JOp.emitLog] [JOp.emitDownload] [] [] (some 20) 9
    (by intro op hop; rcases List.mem_cons.mp hop with h | h
        · exact Or.inl h
        · cases h)
    (by intro op hop; rcases List.mem_cons.mp hop with h | h
        · exact Or.inr h
        · cases h)
    (by intro op hop; cases hop)
    (by intro op hop; cases hop)

/-- C2 counterexample: in the failure-free no-flag run, the snapshot after
the 11th mutation — `set_archive` has run (api.py line 319) but
`set_status("complete")` (line 325) has not — shows a non-null archive
descriptor together with status `running`, which the claim asserts can
never be observed. -/
theorem claim_C2_counterexample :
    (jobSnapshot false false [] [] [] [] none 11).archive.isSome = true ∧
      (jobSnapshot false false [] [] [] [] none 11).status = JStatus.running := by decide

/-! ## Claim C3 — the milestone set of stage events -/

/-- The fifteen stage names the specification lists. -/
def claimedStageNames : List Str :=
  ["start", "validate_url", "clear_output", "scanning", "scanned", "downloading",
   "downloaded", "removing_badge", "badge_removed", "generating_sitemap",
   "sitemap_generated", "zipping", "zipped", "complete", "error"].map String.data

/-- The stage names the code actually emits: the claimed set plus
`ready_for_archive` (api.py line 406). -/
def amendedStageNames : List Str := claimedStageNames ++ ["ready_for_archive".data]

theorem stage_mem_of_events {n : Str} (l : List JOp) (st : JobState)
    (h : JEvent.stage n ∈ (applyOps st l).events) :
    JEvent.stage n ∈ st.events ∨ JOp.emitStage n ∈ l := by
  rw [applyOps_events] at h
  rcases List.mem_append.mp h with h | h
  · exact Or.inl h
  · right
    obtain ⟨op, hop, hope⟩ := List.mem_filterMap.mp h
    cases op with
    | emitStage m =>
      have : m = n := by
        have := Option.some.inj hope
        cases this
        rfl
      subst this
      exact hop
    | emitLog => exact absurd hope (by simp [opEvent])
    | emitDownload => exact absurd hope (by simp [opEvent])
    | setStatus s => exact absurd hope (by simp [opEvent])
    | setArchive sz => exact absurd hope (by simp [opEvent])
    | setError => exact absurd hope (by simp [opEvent])

theorem passive_no_stage {l : List JOp} (hp : PassiveOps l) {n : Str}
    (h : JOp.emitStage n ∈ l) : False := by
  rcases hp _ h with he | he <;> cases he

theorem successOps_stage_names {rb cs : Bool} {pre dl bo so : List JOp}
    (hpre : PassiveOps pre) (hdl : PassiveOps dl) (hbo : PassiveOps bo)
    (hso : PassiveOps so) {n : Str}
    (h : JOp.emitStage n ∈ successOps rb cs pre dl bo so) :
    n ∈ amendedStageNames := by
  unfold successOps preTailOps at h
  simp only [List.mem_append] at h
  rcases h with (((((((h | h) | h) | h) | h) | h) | h) | h)
  · rcases List.mem_cons.mp h with h | h
    · cases h
    rcases List.mem_cons.mp h with h | h
    · cases h; decide
    · cases h
  · exact absurd h (passive_no_stage hpre)
  · rcases List.mem_cons.mp h with h | h
    · cases h; decide
    rcases List.mem_cons.mp h with h | h
    · cases h; decide
    rcases List.mem_cons.mp h with h | h
    · cases h; decide
    rcases List.mem_cons.mp h with h | h
    · cases h; decide
    rcases List.mem_cons.mp h with h | h
    · cases h; decide
    · cases h
  · exact absurd h (passive_no_stage hdl)
  · rcases List.mem_cons.mp h with h | h
    · cases h; decide
    · cases h
  · obtain ⟨_, h⟩ := mem_ite_ops h
    rcases List.mem_append.mp h with h | h
    · rcases List.mem_append.mp h with h | h
      · rcases List.mem_cons.mp h with h | h
        · cases h; decide
        · cases h
      · exact absurd h (passive_no_stage hbo)
    · rcases List.mem_cons.mp h with h | h
      · cases h; decide
      · cases h
  · obtain ⟨_, h⟩ := mem_ite_ops h
    rcases List.mem_append.mp h with h | h
    · rcases List.mem_append.mp h with h | h
      · rcases List.mem_cons.mp h with h | h
        · cases h; decide
        · cases h
      · exact absurd h (passive_no_stage hso)
    · rcases List.mem_cons.mp h with h | h
      · cases h; decide
      · cases h
  · rcases List.mem_cons.mp h with h | h
    · cases h; decide
    rcases List.mem_cons.mp h with h | h
    · cases h; decide
    rcases List.mem_cons.mp h with h | h
    · cases h
    rcases List.mem_cons.mp h with h | h
    · cases h; decide
    rcases List.mem_cons.mp h with h | h
    · cases h; decide
    rcases List.mem_cons.mp h with h | h
    · cases h
    · cases h

/-- C3 as amended: every stage event any job run ever appends has a name in
the fixed milestone set extended with `ready_for_archive`. -/
theorem claim_C3_stage_names_amended (rb cs : Bool) (pre dl bo so : List JOp)
    (failAfter : Option Nat)
    (hpre : PassiveOps pre) (hdl : PassiveOps dl) (hbo : PassiveOps bo)
    (hso : PassiveOps so) :
    ∀ n, JEvent.stage n ∈ (runJob rb cs pre dl bo so failAfter).events →
      n ∈ amendedStageNames := by
  intro n h
  rcases stage_mem_of_events _ _ h with h | h
  · cases h
  · rcases failAfter with _ | k
    · exact successOps_stage_names hpre hdl hbo hso h
    · unfold jobOps at h
      rcases List.mem_append.mp h with h | h
      · exact successOps_stage_names hpre hdl hbo hso (List.take_subset k _ h)
      · rcases List.mem_cons.mp h with h | h
        · cases h
        rcases List.mem_cons.mp h with h | h
        · cases h; decide
        rcases List.mem_cons.mp h with h | h
        · cases h
        rcases List.mem_cons.mp h with h | h
        · cases h
        · cases h

/-- Witness for the amended C3 at a concrete run: the successful run with
no extra operations emits the `ready_for_archive` stage, and that name is
in the amended set. -/
theorem claim_C3_stage_names_amended_witness :
    "ready_for_archive".data ∈ amendedStageNames :=
  claim_C3_stage_names_amended false false [] [] [] [] none
    (by intro op hop; cases hop)
    (by intro op hop; cases hop)
    (by intro op hop; cases hop)
    (by intro op hop; cases hop)
    ("ready_for_archive".data) (by decide)

/-- C3 counterexample: the successful run emits a stage event named
`ready_for_archive` (api.py line 406), which is not among the fifteen
names the claim allows. -/
theorem claim_C3_counterexample :
    JEvent.stage "ready_for_archive".data ∈ (runJob false false [] [] [] [] none).events ∧
      "ready_for_archive".data ∉ claimedStageNames := by decide

/-! ## Claim C6 — event order and the terminal event -/

theorem applyOps_archiveTail_status (st : JobState) :
    (applyOps st archiveTailOps).status = JStatus.complete := rfl

theorem applyOps_errorOps_status (st : JobState) :
    (applyOps st errorOps).status = JStatus.error := rfl

/-- The terminal-event facts of the run's own operation sequence, handler
removal aside. -/
theorem runJob_terminal_event (rb cs : Bool) (pre dl bo so : List JOp) :
    (∀ fa, (runJob rb cs pre dl bo so fa).events =
      (jobOps rb cs pre dl bo so fa).filterMap opEvent) ∧
    ((runJob rb cs pre dl bo so none).events.getLast? =
        some (JEvent.stage "complete".data) ∧
      (runJob rb cs pre dl bo so none).status = JStatus.complete) ∧
    (∀ k, (runJob rb cs pre dl bo so (some k)).events.getLast? =
        some (JEvent.stage "error".data) ∧
      (runJob rb cs pre dl bo so (some k)).status = JStatus.error) := by
  refine ⟨?_, ⟨?_, ?_⟩, ?_⟩
  · intro fa
    unfold runJob
    rw [applyOps_events]
    rfl
  · unfold runJob jobOps successOps
    rw [applyOps_events]
    show (List.filterMap opEvent (preTailOps rb cs pre dl bo so ++ archiveTailOps)).getLast? = _
    rw [List.filterMap_append, List.getLast?_append]
    rfl
  · unfold runJob jobOps successOps
    rw [applyOps_append]
    exact applyOps_archiveTail_status _
  · intro k
    constructor
    · unfold runJob jobOps
      rw [applyOps_events]
      show (List.filterMap opEvent
        ((successOps rb cs pre dl bo so).take k ++ errorOps)).getLast? = _
      rw [List.filterMap_append, List.getLast?_append]
      rfl
    · unfold runJob jobOps
      rw [applyOps_append]
      exact applyOps_errorOps_status _

/-- A run with the shared-logger window: the handler `_run_export_job`
attaches to the module-wide `exporter_logger` (api.py line 286) stays
registered until the `finally` at line 333, so INFO records another
thread's job emits between this job's terminal stage event (line 322, or
line 329 on the error path) and the `removeHandler` are still forwarded to
this job's recorder.  `post` holds those foreign deliveries; they append
events but touch no other field, so placing them after the run's own
operations captures every interleaving of the window. -/
def jobOpsC (rb cs : Bool) (pre dl bo so : List JOp) (failAfter : Option Nat)
    (post : List JOp) : List JOp :=
  jobOps rb cs pre dl bo so failAfter ++ post

/-- The job's final state with the shared-logger window. -/
def runJobC (rb cs : Bool) (pre dl bo so : List JOp) (failAfter : Option Nat)
    (post : List JOp) : JobState :=
  applyOps initialJob (jobOpsC rb cs pre dl bo so failAfter post)

/-- With nothing delivered during the window the two models agree. -/
theorem runJobC_nil (rb cs : Bool) (pre dl bo so : List JOp) (failAfter : Option Nat) :
    runJobC rb cs pre dl bo so failAfter [] = runJob rb cs pre dl bo so failAfter := by
  unfold runJobC jobOpsC
  rw [List.append_nil]
  rfl

theorem applyOps_passive_status {l : List JOp} (hp : PassiveOps l) :
    ∀ st : JobState, (applyOps st l).status = st.status := by
  induction l with
  | nil => intro _; rfl
  | cons op rest ih =>
    intro st
    have hrest : PassiveOps rest := fun x hx => hp x (List.mem_cons_of_mem op hx)
    show (applyOps (applyOp st op) rest).status = st.status
    rw [ih hrest]
    rcases hp op (by simp) with h | h <;> subst h <;> rfl

/-- C6 as amended: within one job the events appear in exactly the order
the operations execute, and the run's own sequence ends in the terminal
stage event — `complete` with final status `complete` on success, `error`
with final status `error` on failure.  But the terminal stage event need
not be the job's last event: anything the still-registered shared-logger
handler delivers before `removeHandler` lands after it, and such trailing
events are log or download diagnostics only, changing no other job
field. -/
theorem claim_C6_terminal_event_amended (rb cs : Bool) (pre dl bo so post : List JOp)
    (hpost : PassiveOps post) :
    (∀ fa, (runJobC rb cs pre dl bo so fa post).events =
        (jobOpsC rb cs pre dl bo so fa post).filterMap opEvent) ∧
    (∀ fa, (runJobC rb cs pre dl bo so fa post).events =
        (runJob rb cs pre dl bo so fa).events ++ post.filterMap opEvent ∧
      (runJobC rb cs pre dl bo so fa post).status = (runJob rb cs pre dl bo so fa).status ∧
      ∀ e ∈ post.filterMap opEvent, e = JEvent.log ∨ e = JEvent.download) ∧
    ((runJob rb cs pre dl bo so none).events.getLast? =
        some (JEvent.stage "complete".data) ∧
      (runJob rb cs pre dl bo so none).status = JStatus.complete) ∧
    (∀ k, (runJob rb cs pre dl bo so (some k)).events.getLast? =
        some (JEvent.stage "error".data) ∧
      (runJob rb cs pre dl bo so (some k)).status = JStatus.error) := by
  refine ⟨?_, ?_, (runJob_terminal_event rb cs pre dl bo so).2.1,
    (runJob_terminal_event rb cs pre dl bo so).2.2⟩
  · intro fa
    unfold runJobC
    rw [applyOps_events]
    rfl
  · intro fa
    refine ⟨?_, ?_, ?_⟩
    · unfold runJobC jobOpsC
      rw [applyOps_append, applyOps_events]
      rfl
    · unfold runJobC jobOpsC
      rw [applyOps_append]
      exact applyOps_passive_status hpost _
    · intro e he
      obtain ⟨op, hop, hope⟩ := List.mem_filterMap.mp he
      rcases hpost op hop with h | h <;> subst h
      · exact Or.inl (Option.some.inj hope).symm
      · exact Or.inr (Option.some.inj hope).symm

/-- The amended C6 at a concrete run: one foreign log record delivered
during the window. -/
theorem claim_C6_terminal_event_amended_witness :
    PassiveOps [JOp.emitLog] ∧
      ((∀ fa, (runJobC false false [] [] [] [] fa [JOp.emitLog]).events =
          (jobOpsC false false [] [] [] [] fa [JOp.emitLog]).filterMap opEvent) ∧
        (∀ fa, (runJobC false false [] [] [] [] fa [JOp.emitLog]).events =
            (runJob false false [] [] [] [] fa).events ++
              [JOp.emitLog].filterMap opEvent ∧
          (runJobC false false [] [] [] [] fa [JOp.emitLog]).status =
            (runJob false false [] [] [] [] fa).status ∧
          ∀ e ∈ [JOp.emitLog].filterMap opEvent,
            e = JEvent.log ∨ e = JEvent.download) ∧
        ((runJob false false [] [] [] [] none).events.getLast? =
            some (JEvent.stage "complete".data) ∧
          (runJob false false [] [] [] [] none).status = JStatus.complete) ∧
        (∀ k, (runJob false false [] [] [] [] (some k)).events.getLast? =
            some (JEvent.stage "error".data) ∧
          (runJob false false [] [] [] [] (some k)).status = JStatus.error)) :=
  ⟨fun _ hop => Or.inl (List.mem_singleton.mp hop),
    claim_C6_terminal_event_amended false false [] [] [] [] [JOp.emitLog]
      (fun _ hop => Or.inl (List.mem_singleton.mp hop))⟩

/-- C6 as claimed is false of the code: a foreign INFO record forwarded
through the still-registered handler after api.py line 322 appends a log
event after the `complete` stage event, so the job's last event is not the
terminal stage event. -/
theorem claim_C6_counterexample :
    PassiveOps [JOp.emitLog] ∧
      (runJobC false false [] [] [] [] none [JOp.emitLog]).events.getLast? =
        some JEvent.log ∧
      (runJobC false false [] [] [] [] none [JOp.emitLog]).status = JStatus.complete :=
  ⟨fun _ hop => Or.inl (List.mem_singleton.mp hop), by decide, by decide⟩

/-! ## Character-transfer lemmas: every character of a parsed path comes
from the parser's input, every character of a basename from its string. -/

theorem basenameStr_sublist (s : Str) : List.Sublist (basenameStr s) s := by
  unfold basenameStr
  have h := (@List.takeWhile_sublist Char s.reverse (fun c => decide (c ≠ '/'))).reverse
  simpa using h

theorem pyRStripC0_sublist (s : Str) : List.Sublist (pyRStripC0 s) s := by
  have h := (@List.dropWhile_sublist Char s.reverse isC0OrSpace).reverse
  simpa [pyRStripC0] using h

theorem urlPreprocess_sublist (s : Str) : List.Sublist (urlPreprocess s) s := by
  unfold urlPreprocess
  exact (List.filter_sublist _).trans (List.dropWhile_sublist _)

theorem splitFirst_fst_sublist (c : Char) (u : Str) :
    ∀ a b, splitFirst c u = some (a, b) → List.Sublist a u := by
  intro a b h
  unfold splitFirst at h
  by_cases hc : u.contains c = true
  · rw [if_pos hc] at h
    have := (Prod.mk.injEq _ _ _ _).mp (Option.some.inj h)
    rw [← this.1]
    exact List.takeWhile_sublist _
  · rw [if_neg hc] at h
    cases h

theorem splitFirst_snd_sublist (c : Char) (u : Str) :
    ∀ a b, splitFirst c u = some (a, b) → List.Sublist b u := by
  intro a b h
  unfold splitFirst at h
  by_cases hc : u.contains c = true
  · rw [if_pos hc] at h
    have := (Prod.mk.injEq _ _ _ _).mp (Option.some.inj h)
    rw [← this.2]
    exact (List.drop_sublist 1 _).trans (List.dropWhile_sublist _)
  · rw [if_neg hc] at h
    cases h

theorem splitScheme_snd_sublist (u : Str) : List.Sublist (splitScheme u).2 u := by
  unfold splitScheme
  rcases hs : splitFirst ':' u with _ | ⟨a, b⟩
  · exact List.Sublist.refl u
  · simp only []
    by_cases hcond : ((match a.head? with
        | some c => c.isAlpha
        | none => false) && a.all isSchemeChar) = true
    · rw [if_pos hcond]
      exact splitFirst_snd_sublist ':' u a b hs
    · rw [if_neg hcond]

theorem splitNetlocStr_snd_sublist (u : Str) : List.Sublist (splitNetlocStr u).2 u := by
  unfold splitNetlocStr
  by_cases hp : ['/', '/'].isPrefixOf u = true
  · rw [if_pos hp]
    exact (List.dropWhile_sublist _).trans (List.drop_sublist 2 u)
  · rw [if_neg hp]

theorem splitNetlocStr_fst_sublist (u : Str) : List.Sublist (splitNetlocStr u).1 u := by
  unfold splitNetlocStr
  by_cases hp : ['/', '/'].isPrefixOf u = true
  · rw [if_pos hp]
    exact (List.takeWhile_sublist _).trans (List.drop_sublist 2 u)
  · rw [if_neg hp]
    exact List.nil_sublist u

theorem urlNetloc_sublist (u : Str) : List.Sublist (urlNetloc u) u := by
  unfold urlNetloc
  exact ((splitNetlocStr_fst_sublist _).trans (splitScheme_snd_sublist _)).trans
    (urlPreprocess_sublist u)

/-- On a netloc free of brackets and of non-ASCII characters, `urlparse`
returns normally. -/
theorem pyUrlParse_ok_of_netloc {u : Str}
    (hb1 : (urlNetloc u).contains '[' = false)
    (hb2 : (urlNetloc u).contains ']' = false)
    (ha : (urlNetloc u).all (fun c => c.toNat < 128) = true) :
    pyUrlParse u = PyRes.ok (pyUrlParseVal u) := by
  have h1 : '[' ∉ urlNetloc u := fun hm => by
    rw [(contains_iff_mem _ _).mpr hm] at hb1
    cases hb1
  have h2 : ']' ∉ urlNetloc u := fun hm => by
    rw [(contains_iff_mem _ _).mpr hm] at hb2
    cases hb2
  unfold pyUrlParse
  simp [hb1, hb2, ha, h1, h2]

theorem pyUrlParse_ok_val {u : Str} {p : UrlParts} (h : pyUrlParse u = PyRes.ok p) :
    p = pyUrlParseVal u := by
  unfold pyUrlParse at h
  by_cases h1 : ((urlNetloc u).contains '[' && !(urlNetloc u).contains ']') = true
  · rw [if_pos h1] at h
    cases h
  · rw [if_neg h1] at h
    by_cases h2 : ((urlNetloc u).contains ']' && !(urlNetloc u).contains '[') = true
    · rw [if_pos h2] at h
      cases h
    · rw [if_neg h2] at h
      by_cases h3 : (urlNetloc u).contains '[' = true
      · rw [if_pos h3] at h
        cases h
      · rw [if_neg h3] at h
        by_cases h4 : (!(urlNetloc u).all (fun c => c.toNat < 128)) = true
        · rw [if_pos h4] at h
          cases h
        · rw [if_neg h4] at h
          exact (PyRes.ok.inj h).symm

theorem is_webflow_asset_url_ok {u : Str} {b : Bool}
    (h : is_webflow_asset_url u = PyRes.ok b) : b = is_webflow_asset_urlVal u := by
  unfold is_webflow_asset_url at h
  by_cases h0 : u = []
  · rw [if_pos h0] at h
    have hb : false = b := PyRes.ok.inj h
    rw [← hb, h0]
    rfl
  · rw [if_neg h0] at h
    rcases hp : pyUrlParse (normalize_asset_url u) with p | _ | _ <;> rw [hp] at h
    · exact (PyRes.ok.inj h).symm
    · cases h
    · cases h

theorem local_asset_path_ok {ty u : Str} {o : Option Str}
    (h : local_asset_path ty u = PyRes.ok o) : o = local_asset_pathVal ty u := by
  unfold local_asset_path at h
  rcases hp : pyUrlParse (normalize_asset_url u) with p | _ | _ <;> rw [hp] at h
  · exact (PyRes.ok.inj h).symm
  · cases h
  · cases h

theorem rewrite_srcset_ok {v ty r : Str} (h : rewrite_srcset v ty = PyRes.ok r) :
    r = rewrite_srcsetVal v ty := by
  unfold rewrite_srcset at h
  by_cases h0 : v = []
  · rw [if_pos h0] at h
    have := PyRes.ok.inj h
    rw [← this, h0]
    unfold rewrite_srcsetVal
    rw [if_pos rfl]
  · rw [if_neg h0] at h
    rcases hc : collectPiecesE ty (splitOnChar ',' v) with ps | _ | _ <;> rw [hc] at h
    · exact (PyRes.ok.inj h).symm
    · cases h
    · cases h

theorem asset_relative_path_ok {ty u : Str} {o : Option Str}
    (h : asset_relative_path ty u = PyRes.ok o) : o = asset_relative_pathVal ty u := by
  unfold asset_relative_path at h
  rcases hp : pyUrlParse u with p | _ | _ <;> rw [hp] at h
  · exact (PyRes.ok.inj h).symm
  · cases h
  · cases h

/-- C7 corrected: whenever the classifier returns a verdict at all —
`urlparse` can instead raise a `ValueError` on a bracketed host — it
accepts exactly the URLs that, after normalization, parse with an http(s)
scheme and whose lowercased host is in the fixed allow-list or ends with
one of the fixed suffixes; every other URL — non-http(s) schemes and the
empty string included — is rejected. -/
theorem claim_C7_classifier_accepts_iff (url : Str) (b : Bool)
    (h : is_webflow_asset_url url = PyRes.ok b) :
    b = true ↔ specIsPlatformAsset url := by
  rw [is_webflow_asset_url_ok h]
  exact classifier_accepts_iff_val url

/-- The corrected C7 at a concrete accepted URL. -/
theorem claim_C7_classifier_accepts_iff_witness :
    is_webflow_asset_url ("https://a.webflow.io/x/pic.png".data) = PyRes.ok true ∧
      specIsPlatformAsset ("https://a.webflow.io/x/pic.png".data) :=
  ⟨by decide,
    (claim_C7_classifier_accepts_iff ("https://a.webflow.io/x/pic.png".data) true
      (by decide)).mp rfl⟩

/-- C7 as claimed is false of the code path: on a netloc with an unmatched
open bracket the classifier returns no verdict at all — `urlparse` raises
`ValueError("Invalid IPv6 URL")` — so acceptance is not an
input-independent equivalence with the spec's predicate. -/
theorem claim_C7_counterexample :
    is_webflow_asset_url ("http://[a.webflow.com/x".data) = PyRes.raises := by
  decide

/-- C10: when the two parses return (no `ValueError`), the local path of an
asset depends only on the category and the final segment of the URL's
parsed path — scheme, host, query and fragment are immaterial — so two
platform assets sharing a basename land at the same on-disk location, and a
later sequential download overwrites an earlier one at that shared path. -/
theorem claim_C10_basename_collision (ty u1 u2 : Str) (l1 l2 r1 r2 : Option Str)
    (hl1 : local_asset_path ty u1 = PyRes.ok l1)
    (hl2 : local_asset_path ty u2 = PyRes.ok l2)
    (hr1 : asset_relative_path ty u1 = PyRes.ok r1)
    (hr2 : asset_relative_path ty u2 = PyRes.ok r2)
    (hb : basenameStr (pyUrlParseVal (normalize_asset_url u1)).path =
      basenameStr (pyUrlParseVal (normalize_asset_url u2)).path)
    (hd : basenameStr (pyUrlParseVal u1).path = basenameStr (pyUrlParseVal u2).path) :
    l1 = l2 ∧ r1 = r2 ∧
      (∀ pth x y pre mid post,
        (∀ q ∈ post, q.1 ≠ pth) →
        runWrites (pre ++ (pth, x) :: mid ++ (pth, y) :: post) pth = some y) := by
  have hcore := basename_collision_val ty u1 u2 hb hd
  rw [local_asset_path_ok hl1, local_asset_path_ok hl2,
    asset_relative_path_ok hr1, asset_relative_path_ok hr2]
  exact hcore

/-- Witness for C10 at concrete URLs sharing the basename `pic.png`. -/
theorem claim_C10_basename_collision_witness :
    (local_asset_path "images".data "https://a.webflow.io/x/pic.png?v=1".data =
        PyRes.ok (some ("images/pic.png".data)) ∧
      local_asset_path "images".data "http://cdn.website-files.com/y/z/pic.png#frag".data =
        PyRes.ok (some ("images/pic.png".data))) ∧
      ((some ("images/pic.png".data) : Option Str) = some ("images/pic.png".data) ∧
        (some ("images/pic.png".data) : Option Str) = some ("images/pic.png".data) ∧
        (∀ pth x y pre mid post,
          (∀ q ∈ post, q.1 ≠ pth) →
          runWrites (pre ++ (pth, x) :: mid ++ (pth, y) :: post) pth = some y)) :=
  ⟨⟨by decide, by decide⟩,
    claim_C10_basename_collision "images".data
      "https://a.webflow.io/x/pic.png?v=1".data
      "http://cdn.website-files.com/y/z/pic.png#frag".data
      (some ("images/pic.png".data)) (some ("images/pic.png".data))
      (some ("images/pic.png".data)) (some ("images/pic.png".data))
      (by decide) (by decide) (by decide) (by decide) (by decide) (by decide)⟩

/-- `url[:i]` of `_splitparams` is a prefix of its input. -/
theorem splitParams_fst_sublist (p : Str) : List.Sublist (splitParams p).1 p := by
  unfold splitParams
  by_cases hc : p.contains '/' = true
  · rw [if_pos hc]
    rcases hs : splitFirst ';' ((p.reverse.takeWhile (fun c => ¬c = '/')).reverse) with _ | ab
    · exact List.Sublist.refl p
    · rcases ab with ⟨a, b⟩
      simp only []
      have hdecomp : (p.reverse.dropWhile (fun c => ¬c = '/')).reverse ++
          (p.reverse.takeWhile (fun c => ¬c = '/')).reverse = p := by
        rw [← List.reverse_append, List.takeWhile_append_dropWhile, List.reverse_reverse]
      have ha : List.Sublist a ((p.reverse.takeWhile (fun c => ¬c = '/')).reverse) :=
        splitFirst_fst_sublist ';' _ a b hs
      have := ha.append_left ((p.reverse.dropWhile (fun c => ¬c = '/')).reverse)
      rw [hdecomp] at this
      exact this
  · rw [if_neg hc]
    rcases hs : splitFirst ';' p with _ | ab
    · exact List.Sublist.refl p
    · rcases ab with ⟨a, b⟩
      exact splitFirst_fst_sublist ';' p a b hs

theorem params_fst_sublist_of (b : Bool) (x : Str) {u : Str} (h : List.Sublist x u) :
    List.Sublist (if b then splitParams x else (x, ([] : Str))).1 u := by
  rcases b with _ | _
  · simpa using h
  · simpa using (splitParams_fst_sublist x).trans h

/-- The `path` field of a parsed URL is a subsequence of the parser's
input. -/
theorem pyUrlParseVal_path_sublist (u : Str) : List.Sublist (pyUrlParseVal u).path u := by
  unfold pyUrlParseVal
  have h1 : List.Sublist (splitScheme (urlPreprocess u)).2 u :=
    (splitScheme_snd_sublist _).trans (urlPreprocess_sublist u)
  have h2 : List.Sublist (splitNetlocStr (splitScheme (urlPreprocess u)).2).2 u :=
    (splitNetlocStr_snd_sublist _).trans h1
  rcases hf : splitFirst '#' (splitNetlocStr (splitScheme (urlPreprocess u)).2).2 with _ | af
  · rcases hq : splitFirst '?'
        (splitNetlocStr (splitScheme (urlPreprocess u)).2).2 with _ | aq
    · simp only [hf, hq]
      exact params_fst_sublist_of _ _ h2
    · simp only [hf, hq]
      rcases aq with ⟨a, b⟩
      exact params_fst_sublist_of _ _ ((splitFirst_fst_sublist '?' _ a b hq).trans h2)
  · rcases af with ⟨a1, b1⟩
    have ha1 : List.Sublist a1 u := (splitFirst_fst_sublist '#' _ a1 b1 hf).trans h2
    rcases hq : splitFirst '?' a1 with _ | aq
    · simp only [hf, hq]
      exact params_fst_sublist_of _ _ ha1
    · simp only [hf, hq]
      rcases aq with ⟨a, b⟩
      exact params_fst_sublist_of _ _ ((splitFirst_fst_sublist '?' a1 a b hq).trans ha1)

/-- Characters of `normalize_asset_url u` come from `u` or from the
`https:` prefix. -/
theorem mem_normalize {c : Char} {u : Str} (h : c ∈ normalize_asset_url u) :
    c ∈ u ∨ c ∈ "https:".data := by
  unfold normalize_asset_url at h
  by_cases hu : u = []
  · rw [if_pos hu] at h
    subst hu
    cases h
  · rw [if_neg hu] at h
    by_cases hp : ['/', '/'].isPrefixOf (pyStrip u) = true
    · rw [if_pos hp] at h
      rcases List.mem_append.mp h with h | h
      · exact Or.inr h
      · exact Or.inl (mem_pyStrip h)
    · rw [if_neg hp] at h
      exact Or.inl (mem_pyStrip h)

/-- A space never survives into the basename of a parsed, normalized,
space-free URL. -/
theorem no_space_in_local_basename {u : Str} (hu : ' ' ∉ u) :
    ' ' ∉ basenameStr (pyUrlParseVal (normalize_asset_url u)).path := by
  intro hmem
  have h1 : ' ' ∈ (pyUrlParseVal (normalize_asset_url u)).path :=
    (basenameStr_sublist _).mem hmem
  have h2 : ' ' ∈ normalize_asset_url u :=
    (pyUrlParseVal_path_sublist _).mem h1
  rcases mem_normalize h2 with h | h
  · exact hu h
  · simp [String.data] at h

theorem no_comma_in_local_basename {u : Str} (hu : ',' ∉ u) :
    ',' ∉ basenameStr (pyUrlParseVal (normalize_asset_url u)).path := by
  intro hmem
  have h1 : ',' ∈ normalize_asset_url u :=
    (pyUrlParseVal_path_sublist _).mem ((basenameStr_sublist _).mem hmem)
  rcases mem_normalize h1 with h | h
  · exact hu h
  · simp [String.data] at h

/-! ## Structure of `rewrite_srcsetVal`'s output (claims C4, C9) -/

theorem split1Space_url_no_space (p : Str) : ' ' ∉ (split1Space p).1 := by
  unfold split1Space
  by_cases hc : p.contains ' ' = true
  · rw [if_pos hc]
    intro hmem
    have := List.mem_takeWhile_imp hmem
    simp at this
  · rw [if_neg hc]
    intro hmem
    exact hc ((contains_iff_mem ' ' p).mpr hmem)

theorem split1Space_desc_trimmed (p : Str) : pyStrip (split1Space p).2 = (split1Space p).2 := by
  unfold split1Space
  by_cases hc : p.contains ' ' = true
  · rw [if_pos hc]
    exact pyStrip_idem _
  · rw [if_neg hc]
    rfl

/-- On a left-trimmed nonempty string, the URL part of the first-space split
is nonempty and starts with the string's head. -/
theorem split1Space_url_head {c : Char} {rest : Str} (hc : ¬c = ' ') :
    (split1Space (c :: rest)).1 = c :: (split1Space (c :: rest)).1.tail ∧
      (split1Space (c :: rest)).1 ≠ [] := by
  unfold split1Space
  by_cases hcon : (c :: rest).contains ' ' = true
  · rw [if_pos hcon]
    simp only [List.takeWhile]
    have : (decide (c ≠ ' ')) = true := by simpa using hc
    rw [this]
    simp
  · rw [if_neg hcon]
    simp

theorem assetCategories_cases {ty : Str} (hty : ty ∈ assetCategories) :
    ty = "css".data ∨ ty = "js".data ∨ ty = "images".data ∨ ty = "media".data := by
  simpa [assetCategories] using hty

/-- The rewritten URL part contains no space when the original did not
(a local path is built from the four space-free category names and a
basename of the space-free URL). -/
theorem rewriteUrlPart_no_space {ty u : Str} (hty : ty ∈ assetCategories)
    (hu : ' ' ∉ u) : ' ' ∉ rewriteUrlPart ty u := by
  unfold rewriteUrlPart
  by_cases hw : is_webflow_asset_urlVal (normalize_asset_url u) = true
  · rw [if_pos hw]
    rcases hlp : local_asset_pathVal ty (normalize_asset_url u) with _ | lp
    · exact hu
    · obtain ⟨fn, hfn, hfneq, hshape⟩ := local_asset_pathVal_some_shape hlp
      subst hshape
      intro hmem
      rcases List.mem_append.mp hmem with h | h
      · rcases assetCategories_cases hty with h' | h' | h' | h' <;> subst h' <;>
          simp [String.data] at h
      · rcases List.mem_cons.mp h with h | h
        · cases h
        · subst hfneq
          have hnn : ' ' ∉ normalize_asset_url u := by
            intro hn
            rcases mem_normalize hn with hn | hn
            · exact hu hn
            · simp [String.data] at hn
          exact no_space_in_local_basename hnn h
  · rw [if_neg hw]
    exact hu

theorem rewriteUrlPart_no_comma {ty u : Str} (hty : ty ∈ assetCategories)
    (hu : ',' ∉ u) : ',' ∉ rewriteUrlPart ty u := by
  unfold rewriteUrlPart
  by_cases hw : is_webflow_asset_urlVal (normalize_asset_url u) = true
  · rw [if_pos hw]
    rcases hlp : local_asset_pathVal ty (normalize_asset_url u) with _ | lp
    · exact hu
    · obtain ⟨fn, hfn, hfneq, hshape⟩ := local_asset_pathVal_some_shape hlp
      subst hshape
      intro hmem
      rcases List.mem_append.mp hmem with h | h
      · rcases assetCategories_cases hty with h' | h' | h' | h' <;> subst h' <;>
          simp [String.data] at h
      · rcases List.mem_cons.mp h with h | h
        · cases h
        · subst hfneq
          have hnn : ',' ∉ normalize_asset_url u := by
            intro hn
            rcases mem_normalize hn with hn | hn
            · exact hu hn
            · simp [String.data] at hn
          exact no_comma_in_local_basename hnn h
  · rw [if_neg hw]
    exact hu

/-- The URL substitution either keeps the URL or replaces it by its local
asset path, and it does the latter exactly when the normalized URL
classifies and has a mapping. -/
theorem rewriteUrlPart_cases (ty u : Str) :
    rewriteUrlPart ty u = u ∨
      (is_webflow_asset_urlVal (normalize_asset_url u) = true ∧
        local_asset_pathVal ty (normalize_asset_url u) = some (rewriteUrlPart ty u)) := by
  unfold rewriteUrlPart
  by_cases hw : is_webflow_asset_urlVal (normalize_asset_url u) = true
  · rw [if_pos hw]
    rcases hlp : local_asset_pathVal ty (normalize_asset_url u) with _ | lp
    · exact Or.inl rfl
    · exact Or.inr ⟨hw, rfl⟩
  · rw [if_neg hw]
    exact Or.inl rfl

/-- Splitting `"{url}"` or `"{url} {descriptor}"` back at the first space
recovers the pair, provided the URL is space-free and the descriptor
trimmed. -/
theorem split1Space_recombine {w d : Str} (hw : ' ' ∉ w) (hd : pyStrip d = d) :
    split1Space (if d = [] then w else w ++ ' ' :: d) = (w, d) := by
  by_cases hdn : d = []
  · rw [if_pos hdn]
    subst hdn
    unfold split1Space
    rw [if_neg (by
      intro hcon
      exact hw ((contains_iff_mem ' ' _).mp hcon))]
  · rw [if_neg hdn]
    unfold split1Space
    rw [if_pos (by
      apply (contains_iff_mem ' ' _).mpr
      exact List.mem_append_right _ (by simp))]
    have hall : ∀ c ∈ w, (fun x => decide (x ≠ ' ')) c = true := by
      intro c hc
      simp only [ne_eq, decide_eq_true_eq]
      intro he
      subst he
      exact hw hc
    rw [takeWhile_append_all (by simp) w d hall]
    rw [dropWhile_append_all w hall]
    rw [List.dropWhile_cons_of_neg (by simp)]
    simp only [List.drop_succ_cons, List.drop_zero]
    rw [hd]

/-- Splitting a rewritten piece at its first space recovers exactly the
rewritten URL and the original trimmed descriptor. -/
theorem rewritePiece_split1 {ty : Str} (hty : ty ∈ assetCategories) (p : Str) :
    split1Space (rewritePiece ty p) =
      (rewriteUrlPart ty (split1Space p).1, (split1Space p).2) := by
  have hu_nospace : ' ' ∉ (split1Space p).1 := split1Space_url_no_space p
  have hw_nospace : ' ' ∉ rewriteUrlPart ty (split1Space p).1 :=
    rewriteUrlPart_no_space hty hu_nospace
  have hd : pyStrip (split1Space p).2 = (split1Space p).2 := split1Space_desc_trimmed p
  have := split1Space_recombine hw_nospace hd
  exact this

/-- The nonblank, stripped entries of a srcset attribute value. -/
def srcsetPieces (value : Str) : List Str :=
  ((splitOnChar ',' value).map pyStrip).filter (fun p => !p.isEmpty)

theorem filterMap_processPiece (ty : Str) :
    ∀ l : List Str, l.filterMap (processPiece ty) =
      ((l.map pyStrip).filter (fun p => !p.isEmpty)).map (rewritePiece ty) := by
  intro l
  induction l with
  | nil => rfl
  | cons x xs ih =>
    rw [List.filterMap_cons, List.map_cons, List.filter_cons]
    by_cases hx : pyStrip x = []
    · have h1 : processPiece ty x = none := by
        unfold processPiece
        rw [if_pos hx]
      rw [h1, hx]
      simp only [List.isEmpty_nil, Bool.not_true, Bool.false_eq_true, if_neg
        (by simp : ¬(false = true))]
      exact ih
    · have h1 : processPiece ty x = some (rewritePiece ty (pyStrip x)) := by
        unfold processPiece
        rw [if_neg hx]
      rw [h1]
      rw [if_pos (by
        simp only [Bool.not_eq_true']
        exact (List.isEmpty_eq_false_iff_exists_mem.mpr
          (by rcases hs : pyStrip x with _ | ⟨c, t⟩
              · exact absurd hs hx
              · exact ⟨c, by simp⟩)))]
      rw [List.map_cons, ih]

/-- `rewrite_srcsetVal` is the `", "`-join of the per-entry rewrites of the
nonblank stripped entries, in order. -/
theorem rewrite_srcsetVal_eq_join (v ty : Str) (hv : v ≠ []) :
    rewrite_srcsetVal v ty =
      List.intercalate ", ".data ((srcsetPieces v).map (rewritePiece ty)) := by
  unfold rewrite_srcsetVal
  rw [if_neg hv, filterMap_processPiece]
  rfl

theorem mem_srcsetPieces {v p : Str} (h : p ∈ srcsetPieces v) :
    p ≠ [] ∧ pyStrip p = p ∧ ',' ∉ p := by
  unfold srcsetPieces at h
  have h1 := List.mem_filter.mp h
  obtain ⟨q, hq, hpq⟩ := List.mem_map.mp h1.1
  have hne : p ≠ [] := by
    intro he
    rw [he] at h1
    simp at h1
  refine ⟨hne, ?_, ?_⟩
  · rw [← hpq]
    exact pyStrip_idem q
  · intro hmem
    exact not_mem_of_mem_splitOnChar hq (mem_pyStrip (hpq ▸ hmem))

/-- The join shape of the total rewrite, the value an `ok` run returns. -/
theorem srcset_join_spec_val (v ty : Str) (hv : v ≠ []) (hty : ty ∈ assetCategories) :
    rewrite_srcsetVal v ty =
      List.intercalate ", ".data ((srcsetPieces v).map (rewritePiece ty)) ∧
    ((srcsetPieces v).map (rewritePiece ty)).length = (srcsetPieces v).length ∧
    ∀ p ∈ srcsetPieces v,
      (split1Space (rewritePiece ty p)).2 = (split1Space p).2 ∧
      ((split1Space (rewritePiece ty p)).1 = (split1Space p).1 ∨
        (is_webflow_asset_urlVal (normalize_asset_url (split1Space p).1) = true ∧
          local_asset_pathVal ty (normalize_asset_url (split1Space p).1) =
            some (split1Space (rewritePiece ty p)).1)) := by
  refine ⟨rewrite_srcsetVal_eq_join v ty hv, List.length_map _ _, ?_⟩
  intro p _
  rw [rewritePiece_split1 hty p]
  refine ⟨rfl, ?_⟩
  rcases rewriteUrlPart_cases ty (split1Space p).1 with h | h
  · exact Or.inl h
  · exact Or.inr ⟨h.1, h.2⟩

/-- C4 as amended: for a nonempty value and one of the exporter's
categories, whenever `rewrite_srcset` returns (no entry's `urlparse` call
raises), the returned value re-joins the per-entry rewrites of the
stripped, nonblank comma-separated entries (blank entries are dropped, the
others keep their count and order), each surviving entry keeps its trimmed
descriptor verbatim, and an entry's URL part changes only when it
classifies as a platform asset and has a local mapping — in which case it
becomes exactly that mapping. -/
theorem claim_C4_srcset_amended (v ty r : Str) (hv : v ≠ []) (hty : ty ∈ assetCategories)
    (hr : rewrite_srcset v ty = PyRes.ok r) :
    r = List.intercalate ", ".data ((srcsetPieces v).map (rewritePiece ty)) ∧
    ((srcsetPieces v).map (rewritePiece ty)).length = (srcsetPieces v).length ∧
    ∀ p ∈ srcsetPieces v,
      (split1Space (rewritePiece ty p)).2 = (split1Space p).2 ∧
      ((split1Space (rewritePiece ty p)).1 = (split1Space p).1 ∨
        (is_webflow_asset_urlVal (normalize_asset_url (split1Space p).1) = true ∧
          local_asset_pathVal ty (normalize_asset_url (split1Space p).1) =
            some (split1Space (rewritePiece ty p)).1)) := by
  have hrv := rewrite_srcset_ok hr
  rw [hrv]
  exact srcset_join_spec_val v ty hv hty

/-- Witness for the amended C4 at a concrete srcset value. -/
theorem claim_C4_srcset_amended_witness :
    rewrite_srcset "https://assets.website-files.com/a/b.png 2x, c.png".data "images".data =
      PyRes.ok ("images/b.png 2x, c.png".data) ∧
    ("images/b.png 2x, c.png".data =
      List.intercalate ", ".data
        ((srcsetPieces "https://assets.website-files.com/a/b.png 2x, c.png".data).map
          (rewritePiece "images".data)) ∧
    ((srcsetPieces "https://assets.website-files.com/a/b.png 2x, c.png".data).map
        (rewritePiece "images".data)).length =
      (srcsetPieces "https://assets.website-files.com/a/b.png 2x, c.png".data).length ∧
    ∀ p ∈ srcsetPieces "https://assets.website-files.com/a/b.png 2x, c.png".data,
      (split1Space (rewritePiece "images".data p)).2 = (split1Space p).2 ∧
      ((split1Space (rewritePiece "images".data p)).1 = (split1Space p).1 ∨
        (is_webflow_asset_urlVal (normalize_asset_url (split1Space p).1) = true ∧
          local_asset_pathVal "images".data (normalize_asset_url (split1Space p).1) =
            some (split1Space (rewritePiece "images".data p)).1))) :=
  ⟨by decide,
    claim_C4_srcset_amended "https://assets.website-files.com/a/b.png 2x, c.png".data
      "images".data ("images/b.png 2x, c.png".data) (by decide) (by decide) (by decide)⟩

/-- C4 counterexample: the input `"a,,b"` has three comma-separated entries,
the middle one empty; the claim says the count is preserved and empty-URL
entries keep their URL, but `rewrite_srcsetVal` drops the blank entry and
returns a two-entry value. -/
theorem claim_C4_counterexample :
    (splitOnChar ',' (rewrite_srcsetVal "a,,b".data "images".data)).length ≠
        (splitOnChar ',' "a,,b".data).length ∧
      (splitOnChar ',' "a,,b".data).get? 1 = some [] := by decide

/-! ## Claim C9 — idempotence of the HTML rewriter

`rewrite_srcsetVal` re-splits its own output, and the per-piece `strip`
can remove a trailing `str.strip()`-whitespace character (`\x0b`, `\x0c`,
`\x1c`-`\x1f`, `\x85`, `\xa0`, or one of the Unicode spaces) that survived
into a local path's basename — those are the whitespace characters the URL
parser does not delete and that cannot be a space, which never reaches a
basename.  On values free of them the rewrite is a fixpoint of itself; the
counterexample below exercises exactly that gap. -/

/-- None of the `str.strip()`-whitespace characters that `urlsplit` keeps:
every Python-space character of the string is a tab, newline, carriage
return (all deleted by `urlsplit`) or a plain space. -/
def stripSafe (s : Str) : Bool :=
  s.all (fun c => !isPySpace c || c = '\t' || c = '\n' || c = '\r' || c = ' ')

theorem stripSafe_mono {s t : Str} (h : List.Sublist s t) (ht : stripSafe t = true) :
    stripSafe s = true :=
  List.all_eq_true.mpr (fun c hc => List.all_eq_true.mp ht c (h.mem hc))

theorem stripSafe_spec {s : Str} (h : stripSafe s = true) {c : Char} (hc : c ∈ s)
    (hps : isPySpace c = true) : c = '\t' ∨ c = '\n' ∨ c = '\r' ∨ c = ' ' := by
  have hall := List.all_eq_true.mp h c hc
  rcases Bool.or_eq_true_iff.mp hall with hx | hx
  · rcases Bool.or_eq_true_iff.mp hx with hx | hx
    · rcases Bool.or_eq_true_iff.mp hx with hx | hx
      · rcases Bool.or_eq_true_iff.mp hx with hx | hx
        · rw [hps] at hx
          cases hx
        · exact Or.inl (by simpa using hx)
      · exact Or.inr (Or.inl (by simpa using hx))
    · exact Or.inr (Or.inr (Or.inl (by simpa using hx)))
  · exact Or.inr (Or.inr (Or.inr (by simpa using hx)))

/-- Characters that survive `urlsplit`'s cleanup are not tab/CR/LF. -/
theorem mem_urlPreprocess_not_unsafe {c : Char} {u : Str}
    (h : c ∈ urlPreprocess u) : isUnsafeUrlChar c = false := by
  unfold urlPreprocess at h
  have := List.of_mem_filter h
  simpa using this

theorem pyUrlParseVal_path_sublist_pre (u : Str) :
    List.Sublist (pyUrlParseVal u).path (urlPreprocess u) := by
  unfold pyUrlParseVal
  have h1 : List.Sublist (splitScheme (urlPreprocess u)).2 (urlPreprocess u) :=
    splitScheme_snd_sublist _
  have h2 : List.Sublist (splitNetlocStr (splitScheme (urlPreprocess u)).2).2
      (urlPreprocess u) :=
    (splitNetlocStr_snd_sublist _).trans h1
  rcases hf : splitFirst '#' (splitNetlocStr (splitScheme (urlPreprocess u)).2).2 with _ | af
  · rcases hq : splitFirst '?'
        (splitNetlocStr (splitScheme (urlPreprocess u)).2).2 with _ | aq
    · simp only [hf, hq]
      exact params_fst_sublist_of _ _ h2
    · simp only [hf, hq]
      rcases aq with ⟨a, b⟩
      exact params_fst_sublist_of _ _ ((splitFirst_fst_sublist '?' _ a b hq).trans h2)
  · rcases af with ⟨a1, b1⟩
    have ha1 : List.Sublist a1 (urlPreprocess u) :=
      (splitFirst_fst_sublist '#' _ a1 b1 hf).trans h2
    rcases hq : splitFirst '?' a1 with _ | aq
    · simp only [hf, hq]
      exact params_fst_sublist_of _ _ ha1
    · simp only [hf, hq]
      rcases aq with ⟨a, b⟩
      exact params_fst_sublist_of _ _ ((splitFirst_fst_sublist '?' a1 a b hq).trans ha1)

/-- No whitespace character at all survives into the basename of the
parsed path of a normalized URL that is space-free and `\x0b`/`\x0c`-free:
spaces are excluded by hypothesis, tab/CR/LF are deleted by the parser and
the remaining two by `stripSafe`. -/
theorem no_pyspace_in_local_basename {u : Str} (hsp : ' ' ∉ u) (hvt : stripSafe u = true) :
    ∀ c ∈ basenameStr (pyUrlParseVal (normalize_asset_url u)).path, isPySpace c = false := by
  intro c hc
  have hpath : c ∈ (pyUrlParseVal (normalize_asset_url u)).path :=
    (basenameStr_sublist _).mem hc
  have hnu : c ∈ normalize_asset_url u := (pyUrlParseVal_path_sublist _).mem hpath
  have hunsafe : isUnsafeUrlChar c = false :=
    mem_urlPreprocess_not_unsafe ((pyUrlParseVal_path_sublist_pre _).mem hpath)
  have hmem : c ∈ u ∨ c ∈ "https:".data := mem_normalize hnu
  rcases hps : isPySpace c with _ | _
  · rfl
  · exfalso
    have hcu : c ∈ u := by
      rcases hmem with h | h
      · exact h
      · exfalso
        unfold isPySpace at hps
        fin_cases h <;> simp_all
    rcases stripSafe_spec hvt hcu hps with h | h | h | h
    · subst h
      simp [isUnsafeUrlChar] at hunsafe
    · subst h
      simp [isUnsafeUrlChar] at hunsafe
    · subst h
      simp [isUnsafeUrlChar] at hunsafe
    · subst h
      exact hsp hcu

theorem getLast?_mem : ∀ {l : Str} {a : Char}, l.getLast? = some a → a ∈ l := by
  intro l
  induction l with
  | nil => intro a h; cases h
  | cons x xs ih =>
    intro a h
    rcases xs with _ | ⟨y, t⟩
    · have : a = x := by
        simp [List.getLast?] at h
        exact h.symm
      simp [this]
    · rw [List.getLast?_cons_cons] at h
      exact List.mem_cons_of_mem x (ih h)

theorem split1Space_url_sublist (p : Str) : List.Sublist (split1Space p).1 p := by
  unfold split1Space
  by_cases hc : p.contains ' ' = true
  · rw [if_pos hc]
    exact List.takeWhile_sublist _
  · rw [if_neg hc]

theorem split1Space_desc_sublist (p : Str) : List.Sublist (split1Space p).2 p := by
  unfold split1Space
  by_cases hc : p.contains ' ' = true
  · rw [if_pos hc]
    exact ((pyStrip_sublist _).trans (List.drop_sublist 1 _)).trans (List.dropWhile_sublist _)
  · rw [if_neg hc]
    exact List.nil_sublist p

theorem mem_srcsetPieces_chars {v p : Str} (h : p ∈ srcsetPieces v) :
    ∀ c ∈ p, c ∈ v := by
  unfold srcsetPieces at h
  have h1 := List.mem_filter.mp h
  obtain ⟨q, hq, hpq⟩ := List.mem_map.mp h1.1
  intro c hc
  exact mem_of_mem_splitOnChar hq (mem_pyStrip (hpq ▸ hc))

/-- The character-level hypothesis under which the embedding is exact and
the rewrite is idempotent: ASCII (which also rules out `_checknetloc`'s
NFKC rejection and the non-ASCII whitespace `str.strip()` removes), no
brackets (no `Invalid IPv6 URL` and no version-dependent bracketed-host
validation), and none of the six ASCII whitespace characters that
`str.strip()` removes but `urlsplit` keeps: `\x0b`, `\x0c`,
`\x1c`-`\x1f`. -/
def tameChar (c : Char) : Bool :=
  c.toNat < 128 && !(c = '[') && !(c = ']') &&
    !(c = '\x0b' || c = '\x0c' || c = '\x1c' || c = '\x1d' || c = '\x1e' || c = '\x1f')

def tame (s : Str) : Bool := s.all tameChar

theorem tame_mono {s t : Str} (h : List.Sublist s t) (ht : tame t = true) :
    tame s = true :=
  List.all_eq_true.mpr (fun c hc => List.all_eq_true.mp ht c (h.mem hc))

theorem tameChar_spec {c : Char} (h : tameChar c = true) :
    c.toNat < 128 ∧ ¬c = '[' ∧ ¬c = ']' ∧ ¬c = '\x0b' ∧ ¬c = '\x0c' ∧
      ¬c = '\x1c' ∧ ¬c = '\x1d' ∧ ¬c = '\x1e' ∧ ¬c = '\x1f' := by
  unfold tameChar at h
  simp only [Bool.and_eq_true, Bool.not_eq_true', Bool.or_eq_false_iff,
    decide_eq_true_eq, decide_eq_false_iff_not] at h
  obtain ⟨⟨⟨hlt, hb1⟩, hb2⟩, ⟨⟨⟨⟨h0b, h0c⟩, h1c⟩, h1d⟩, h1e⟩, h1f⟩ := h
  exact ⟨hlt, hb1, hb2, h0b, h0c, h1c, h1d, h1e, h1f⟩

/-- The only ASCII characters in Python's whitespace set are tab, LF, CR,
`\x0b`, `\x0c`, `\x1c`-`\x1f` and space. -/
theorem isPySpace_ascii_cases {c : Char} (hps : isPySpace c = true)
    (hlt : c.toNat < 128) :
    c = ' ' ∨ c = '\t' ∨ c = '\n' ∨ c = '\r' ∨ c = '\x0b' ∨ c = '\x0c' ∨
      c = '\x1c' ∨ c = '\x1d' ∨ c = '\x1e' ∨ c = '\x1f' := by
  unfold isPySpace at hps
  simp only [Bool.or_eq_true, decide_eq_true_eq, Bool.and_eq_true] at hps
  rcases hps with ((((((((((((((((((h|h)|h)|h)|h)|h)|h)|h)|h)|h)|h)|h)|h)|h)|h)|h)|h)|h)|h)
  all_goals first
    | (subst h; decide)
    | (subst h; exact absurd hlt (by decide))
    | omega

/-- A tame string is strip-safe. -/
theorem tame_stripSafe {s : Str} (h : tame s = true) : stripSafe s = true := by
  apply List.all_eq_true.mpr
  intro c hc
  obtain ⟨hlt, _, _, h0b, h0c, h1c, h1d, h1e, h1f⟩ :=
    tameChar_spec (List.all_eq_true.mp h c hc)
  by_cases hps : isPySpace c = true
  · rcases isPySpace_ascii_cases hps hlt with h0|h0|h0|h0|h0|h0|h0|h0|h0|h0
    · subst h0; decide
    · subst h0; decide
    · subst h0; decide
    · subst h0; decide
    · exact absurd h0 h0b
    · exact absurd h0 h0c
    · exact absurd h0 h1c
    · exact absurd h0 h1d
    · exact absurd h0 h1e
    · exact absurd h0 h1f
  · simp [hps]

/-- `normalize_asset_url` preserves tameness (its added prefix `https:` is
tame). -/
theorem tame_normalize {u : Str} (h : tame u = true) :
    tame (normalize_asset_url u) = true := by
  apply List.all_eq_true.mpr
  intro c hc
  rcases mem_normalize hc with h1 | h1
  · exact List.all_eq_true.mp h c h1
  · fin_cases h1 <;> decide

/-- On a tame input, `urlparse` returns normally. -/
theorem pyUrlParse_ok_of_tame {u : Str} (h : tame u = true) :
    pyUrlParse u = PyRes.ok (pyUrlParseVal u) := by
  have hn : tame (urlNetloc u) = true := tame_mono (urlNetloc_sublist u) h
  apply pyUrlParse_ok_of_netloc
  · rcases hb : (urlNetloc u).contains '[' with _ | _
    · rfl
    · have hm := (contains_iff_mem _ _).mp hb
      exact absurd rfl (tameChar_spec (List.all_eq_true.mp hn _ hm)).2.1
  · rcases hb : (urlNetloc u).contains ']' with _ | _
    · rfl
    · have hm := (contains_iff_mem _ _).mp hb
      exact absurd rfl (tameChar_spec (List.all_eq_true.mp hn _ hm)).2.2.1
  · apply List.all_eq_true.mpr
    intro c hc
    simpa using (tameChar_spec (List.all_eq_true.mp hn c hc)).1

theorem is_webflow_asset_url_ok_of_tame {u : Str} (h : tame u = true) :
    is_webflow_asset_url u = PyRes.ok (is_webflow_asset_urlVal u) := by
  unfold is_webflow_asset_url
  by_cases h0 : u = []
  · subst h0
    rfl
  · rw [if_neg h0, pyUrlParse_ok_of_tame (tame_normalize h)]
    rfl

theorem local_asset_path_ok_of_tame {ty u : Str} (h : tame u = true) :
    local_asset_path ty u = PyRes.ok (local_asset_pathVal ty u) := by
  unfold local_asset_path
  rw [pyUrlParse_ok_of_tame (tame_normalize h)]
  rfl

theorem rewriteUrlPartE_ok_of_tame {ty u : Str} (h : tame u = true) :
    rewriteUrlPartE ty u = PyRes.ok (rewriteUrlPart ty u) := by
  unfold rewriteUrlPartE
  rw [is_webflow_asset_url_ok_of_tame (tame_normalize h)]
  rfl

theorem processPieceE_ok_of_tame {ty item : Str} (h : tame item = true) :
    processPieceE ty item = PyRes.ok (processPiece ty item) := by
  unfold processPieceE
  by_cases h0 : pyStrip item = []
  · rw [if_pos h0]
    unfold processPiece
    rw [if_pos h0]
  · rw [if_neg h0]
    have htp : tame (split1Space (pyStrip item)).1 = true :=
      tame_mono ((split1Space_url_sublist _).trans (pyStrip_sublist _)) h
    rw [rewriteUrlPartE_ok_of_tame htp]
    rfl

theorem collectPiecesE_ok_of_tame {ty : Str} :
    ∀ items : List Str, (∀ it ∈ items, tame it = true) →
      collectPiecesE ty items = PyRes.ok (items.filterMap (processPiece ty)) := by
  intro items
  induction items with
  | nil => intro _; rfl
  | cons it rest ih =>
    intro h
    rw [List.filterMap_cons]
    unfold collectPiecesE
    rw [processPieceE_ok_of_tame (h it (by simp))]
    simp only [PyRes.bind]
    rcases hp : processPiece ty it with _ | p
    · exact ih (fun x hx => h x (List.mem_cons_of_mem it hx))
    · rw [ih (fun x hx => h x (List.mem_cons_of_mem it hx))]

theorem rewrite_srcset_ok_of_tame {v ty : Str} (h : tame v = true) :
    rewrite_srcset v ty = PyRes.ok (rewrite_srcsetVal v ty) := by
  unfold rewrite_srcset
  by_cases h0 : v = []
  · subst h0
    rfl
  · rw [if_neg h0, collectPiecesE_ok_of_tame (splitOnChar ',' v)
      (fun it hit => List.all_eq_true.mpr
        (fun c hc => List.all_eq_true.mp h c (mem_of_mem_splitOnChar hit hc)))]
    rfl

theorem stripSafe_of_mem {s t : Str} (hmem : ∀ c ∈ s, c ∈ t) (ht : stripSafe t = true) :
    stripSafe s = true :=
  List.all_eq_true.mpr (fun c hc => List.all_eq_true.mp ht c (hmem c hc))

theorem assetCategories_head {ty : Str} (hty : ty ∈ assetCategories) :
    ∃ c rest, ty = c :: rest ∧ isPySpace c = false := by
  rcases assetCategories_cases hty with h | h | h | h <;> subst h
  · exact ⟨'c', "ss".data, rfl, by decide⟩
  · exact ⟨'j', "s".data, rfl, by decide⟩
  · exact ⟨'i', "mages".data, rfl, by decide⟩
  · exact ⟨'m', "edia".data, rfl, by decide⟩

theorem goodCat_of_mem {ty : Str} (hty : ty ∈ assetCategories) : GoodCat ty = true :=
  assetCategories_good ty hty

theorem getLast?_isSome_of_ne_nil : ∀ (l : Str), l ≠ [] → ∃ a, l.getLast? = some a := by
  intro l
  induction l with
  | nil => intro h; exact absurd rfl h
  | cons x xs ih =>
    intro _
    rcases xs with _ | ⟨y, t⟩
    · exact ⟨x, rfl⟩
    · obtain ⟨a, ha⟩ := ih (by simp)
      exact ⟨a, by rw [List.getLast?_cons_cons]; exact ha⟩

/-- Stripping removes only whitespace characters. -/
theorem mem_pyStrip_of_not_space {c : Char} (hc : isPySpace c = false) :
    ∀ {s : Str}, c ∈ s → c ∈ pyStrip s := by
  have hdrop : ∀ (s : Str), c ∈ s → c ∈ s.dropWhile isPySpace := by
    intro s
    induction s with
    | nil => intro h; cases h
    | cons x xs ih =>
      intro h
      by_cases hx : isPySpace x = true
      · rw [List.dropWhile_cons_of_pos hx]
        rcases List.mem_cons.mp h with h | h
        · subst h; rw [hc] at hx; cases hx
        · exact ih h
      · rw [List.dropWhile_cons_of_neg hx]
        exact h
  intro s h
  unfold pyStrip pyRStrip pyLStrip
  have h1 : c ∈ s.dropWhile isPySpace := hdrop s h
  have h2 : c ∈ (s.dropWhile isPySpace).reverse := List.mem_reverse.mpr h1
  have h3 := hdrop _ h2
  exact List.mem_reverse.mpr h3

/-- When a trimmed nonempty piece contains a space, the stripped descriptor
after the first space is nonempty (the piece cannot end in whitespace). -/
theorem split1_desc_ne_nil_of_contains {p : Str} (hptrim : pyStrip p = p)
    (hc : p.contains ' ' = true) : (split1Space p).2 ≠ [] := by
  have hsplit : p = p.takeWhile (· ≠ ' ') ++ p.dropWhile (· ≠ ' ') :=
    (List.takeWhile_append_dropWhile (fun x => decide (x ≠ ' ')) p).symm
  have hdw_ne : p.dropWhile (· ≠ ' ') ≠ [] := by
    intro h0
    have hmem : ' ' ∈ p := (contains_iff_mem _ _).mp hc
    rw [hsplit] at hmem
    rcases List.mem_append.mp hmem with h | h
    · have := List.mem_takeWhile_imp h
      simp at this
    · rw [h0] at h
      cases h
  obtain ⟨rr, hrr⟩ : ∃ rr, p.dropWhile (· ≠ ' ') = ' ' :: rr := by
    rcases hdw : p.dropWhile (· ≠ ' ') with _ | ⟨x, xs⟩
    · exact absurd hdw hdw_ne
    · have hx := head_dropWhile_neg p x xs hdw
      have hx' : x = ' ' := by simpa using hx
      subst hx'
      exact ⟨xs, rfl⟩
  intro hd0
  have hd_eq : (split1Space p).2 = pyStrip rr := by
    unfold split1Space
    rw [if_pos hc, hrr]
    simp
  rw [hd_eq] at hd0
  have hplast : ∀ c, p.getLast? = some c → isPySpace c = false := fun c hcc =>
    pyStrip_getLast (by rw [hptrim]; exact hcc)
  rcases hrr0 : rr with _ | ⟨r0, rt⟩
  · subst hrr0
    have hlast : p.getLast? = some ' ' := by
      conv_lhs => rw [hsplit, hrr]
      rw [List.getLast?_append]
      rfl
    have := hplast ' ' hlast
    simp [isPySpace] at this
  · obtain ⟨a, ha⟩ := getLast?_isSome_of_ne_nil rr (by rw [hrr0]; simp)
    have hpa : p.getLast? = some a := by
      conv_lhs => rw [hsplit, hrr]
      rw [List.getLast?_append]
      have h1 : (' ' :: rr).getLast? = rr.getLast? := by
        rw [hrr0, List.getLast?_cons_cons]
      rw [h1, ha]
      rfl
    have hansp := hplast a hpa
    have hamem : a ∈ rr := getLast?_mem ha
    have hfinal : a ∈ pyStrip rr := mem_pyStrip_of_not_space hansp hamem
    rw [hd0] at hfinal
    cases hfinal

/-- The last character of a local path built from a space-free,
vertical-tab-free URL is not whitespace. -/
theorem local_path_getLast {ty u lp : Str}
    (hsp : ' ' ∉ u) (hvt : stripSafe u = true)
    (hlp : local_asset_pathVal ty (normalize_asset_url u) = some lp) :
    ∀ c, lp.getLast? = some c → isPySpace c = false := by
  obtain ⟨fn, hfn, hfneq, hshape⟩ := local_asset_pathVal_some_shape hlp
  subst hshape
  intro c hc
  have hnsp : ' ' ∉ normalize_asset_url u := by
    intro hn
    rcases mem_normalize hn with hn | hn
    · exact hsp hn
    · simp [String.data] at hn
  have hnvt : stripSafe (normalize_asset_url u) = true := by
    apply List.all_eq_true.mpr
    intro x hx
    rcases mem_normalize hx with hx | hx
    · exact List.all_eq_true.mp hvt x hx
    · fin_cases hx <;> decide
  obtain ⟨a, ha⟩ := getLast?_isSome_of_ne_nil fn hfn
  have h1 : ('/' :: fn).getLast? = fn.getLast? := by
    rcases fn with _ | ⟨y, t⟩
    · exact absurd rfl hfn
    · rw [List.getLast?_cons_cons]
  have hlast : (ty ++ '/' :: fn).getLast? = fn.getLast? := by
    rw [List.getLast?_append, h1, ha]
    rfl
  rw [hlast] at hc
  have hmemfn : c ∈ fn := getLast?_mem hc
  rw [hfneq] at hmemfn
  exact no_pyspace_in_local_basename hnsp hnvt c hmemfn

/-- Every entry of a rewritten srcset value (for an exporter category, on a
vertical-tab-free input) is nonempty, comma-free, already stripped, and a
fixpoint of the per-entry rewrite. -/
theorem rewritePiece_good {v ty p : Str} (hty : ty ∈ assetCategories)
    (hv : stripSafe v = true) (hp : p ∈ srcsetPieces v) :
    rewritePiece ty p ≠ [] ∧ ',' ∉ rewritePiece ty p ∧
      pyStrip (rewritePiece ty p) = rewritePiece ty p ∧
      rewritePiece ty (rewritePiece ty p) = rewritePiece ty p := by
  obtain ⟨hpne, hptrim, hpnc⟩ := mem_srcsetPieces hp
  have hvtp : stripSafe p = true := stripSafe_of_mem (mem_srcsetPieces_chars hp) hv
  have husub : List.Sublist (split1Space p).1 p := split1Space_url_sublist p
  have hdsub : List.Sublist (split1Space p).2 p := split1Space_desc_sublist p
  have hun_sp : ' ' ∉ (split1Space p).1 := split1Space_url_no_space p
  have hd_trim : pyStrip (split1Space p).2 = (split1Space p).2 := split1Space_desc_trimmed p
  have hu_nc : ',' ∉ (split1Space p).1 := fun hm => hpnc (husub.mem hm)
  have hd_nc : ',' ∉ (split1Space p).2 := fun hm => hpnc (hdsub.mem hm)
  have hu_vt : stripSafe (split1Space p).1 = true := stripSafe_mono husub hvtp
  have hphead : ∀ c, p.head? = some c → isPySpace c = false := by
    intro c hc
    rcases hp0 : p with _ | ⟨x, xs⟩
    · rw [hp0] at hc; cases hc
    · rw [hp0] at hc
      have hx : x = c := by
        simp only [List.head?] at hc
        exact Option.some.inj hc
      subst hx
      rw [hp0] at hptrim
      exact pyStrip_head hptrim
  have hu_facts : (split1Space p).1 ≠ [] ∧ (split1Space p).1.head? = p.head? := by
    rcases hp0 : p with _ | ⟨c0, rest⟩
    · exact absurd hp0 hpne
    · have hc0 : isPySpace c0 = false := by
        apply hphead
        rw [hp0]
        rfl
      have hc0' : ¬c0 = ' ' := by
        intro he
        rw [he] at hc0
        simp [isPySpace] at hc0
      have hsp1 := @split1Space_url_head c0 rest hc0'
      refine ⟨hsp1.2, ?_⟩
      rw [hsp1.1]
      rfl
  have hW_sp : ' ' ∉ rewriteUrlPart ty (split1Space p).1 :=
    rewriteUrlPart_no_space hty hun_sp
  have hW_nc : ',' ∉ rewriteUrlPart ty (split1Space p).1 :=
    rewriteUrlPart_no_comma hty hu_nc
  have hW_ne : rewriteUrlPart ty (split1Space p).1 ≠ [] := by
    rcases rewriteUrlPart_cases ty (split1Space p).1 with h | h
    · rw [h]; exact hu_facts.1
    · obtain ⟨fn, hfn, _, hshape⟩ := local_asset_pathVal_some_shape h.2
      rw [hshape]
      obtain ⟨tc, trest, hteq, _⟩ := assetCategories_head hty
      rw [hteq]
      simp
  have hW_head : ∀ c, (rewriteUrlPart ty (split1Space p).1).head? = some c →
      isPySpace c = false := by
    intro c hc
    rcases rewriteUrlPart_cases ty (split1Space p).1 with h | h
    · rw [h] at hc
      rw [hu_facts.2] at hc
      exact hphead c hc
    · obtain ⟨fn, hfn, _, hshape⟩ := local_asset_pathVal_some_shape h.2
      rw [hshape] at hc
      obtain ⟨tc, trest, hteq, htc⟩ := assetCategories_head hty
      rw [hteq] at hc
      have : tc = c := by
        simp only [List.cons_append, List.head?] at hc
        exact Option.some.inj hc
      subst this
      exact htc
  have hW_last : (split1Space p).2 = [] →
      ∀ c, (rewriteUrlPart ty (split1Space p).1).getLast? = some c → isPySpace c = false := by
    intro hdnil c hc
    have hcontains : p.contains ' ' = false := by
      rcases hcon : p.contains ' ' with _ | _
      · rfl
      · exact absurd hdnil (split1_desc_ne_nil_of_contains hptrim hcon)
    have hup : (split1Space p).1 = p := by
      unfold split1Space
      rw [if_neg (fun hm => by rw [hm] at hcontains; cases hcontains)]
    rcases rewriteUrlPart_cases ty (split1Space p).1 with h | h
    · rw [h, hup] at hc
      exact pyStrip_getLast (by rw [hptrim]; exact hc)
    · exact local_path_getLast hun_sp hu_vt h.2 c hc
  -- the rewritten piece in explicit form
  have hw_form : rewritePiece ty p =
      if (split1Space p).2 = [] then rewriteUrlPart ty (split1Space p).1
      else rewriteUrlPart ty (split1Space p).1 ++ ' ' :: (split1Space p).2 := rfl
  have hw_ne : rewritePiece ty p ≠ [] := by
    rw [hw_form]
    by_cases hd : (split1Space p).2 = []
    · rw [if_pos hd]; exact hW_ne
    · rw [if_neg hd]
      intro h0
      exact hW_ne (List.append_eq_nil.mp h0).1
  have hw_nc : ',' ∉ rewritePiece ty p := by
    rw [hw_form]
    by_cases hd : (split1Space p).2 = []
    · rw [if_pos hd]; exact hW_nc
    · rw [if_neg hd]
      intro hm
      rcases List.mem_append.mp hm with h | h
      · exact hW_nc h
      · rcases List.mem_cons.mp h with h | h
        · cases h
        · exact hd_nc h
  have hw_trim : pyStrip (rewritePiece ty p) = rewritePiece ty p := by
    apply pyStrip_eq_self
    · intro c hc
      rw [hw_form] at hc
      rcases hW : rewriteUrlPart ty (split1Space p).1 with _ | ⟨w0, wt⟩
      · exact absurd hW hW_ne
      · apply hW_head c
        rw [hW]
        by_cases hd : (split1Space p).2 = []
        · rw [if_pos hd, hW] at hc
          exact hc
        · rw [if_neg hd, hW] at hc
          simp only [List.cons_append, List.head?] at hc ⊢
          exact hc
    · intro c hc
      rw [hw_form] at hc
      by_cases hd : (split1Space p).2 = []
      · rw [if_pos hd] at hc
        exact hW_last hd c hc
      · rw [if_neg hd] at hc
        obtain ⟨a, ha⟩ := getLast?_isSome_of_ne_nil (split1Space p).2 hd
        have h1 : (' ' :: (split1Space p).2).getLast? = (split1Space p).2.getLast? := by
          rcases hd2 : (split1Space p).2 with _ | ⟨y, t⟩
          · exact absurd hd2 hd
          · rw [List.getLast?_cons_cons]
        rw [List.getLast?_append, h1, ha] at hc
        have hca : c = a := by
          have : (some a).or
              (List.getLast? (rewriteUrlPart ty (split1Space p).1)) = some a := rfl
          rw [this] at hc
          exact (Option.some.inj hc).symm
        subst hca
        exact pyStrip_getLast (by rw [hd_trim]; exact ha)
  have hw_fix : rewritePiece ty (rewritePiece ty p) = rewritePiece ty p := by
    have hsplitw : split1Space (rewritePiece ty p) =
        (rewriteUrlPart ty (split1Space p).1, (split1Space p).2) :=
      rewritePiece_split1 hty p
    show (fun ud => if ud.2 = [] then rewriteUrlPart ty ud.1
      else rewriteUrlPart ty ud.1 ++ ' ' :: ud.2) (split1Space (rewritePiece ty p)) =
        rewritePiece ty p
    rw [hsplitw]
    simp only []
    rw [rewriteUrlPart_second (goodCat_of_mem hty)]
    rw [hw_form]
  exact ⟨hw_ne, hw_nc, hw_trim, hw_fix⟩

/-- Space-prefixed fixpoint entries pass through `processPiece` unchanged:
the leading space strips off, the entry is nonblank, and the rewrite fixes
it, so the `filterMap` over them is the identity. -/
theorem filterMap_fixpoints (ty : Str) :
    ∀ ws : List Str, (∀ w ∈ ws, w ≠ [] ∧ pyStrip w = w ∧ rewritePiece ty w = w) →
      (ws.map (fun w => ' ' :: w)).filterMap (processPiece ty) = ws := by
  intro ws
  induction ws with
  | nil => intro _; rfl
  | cons w t ih =>
    intro h
    obtain ⟨hne, htrim, hfix⟩ := h w (by simp)
    rw [List.map_cons, List.filterMap_cons]
    have hstrip : pyStrip (' ' :: w) = w := by
      rw [pyStrip_cons_pos (by decide) w, htrim]
    have hpp : processPiece ty (' ' :: w) = some w := by
      unfold processPiece
      rw [hstrip, if_neg hne, hfix]
    rw [hpp, ih (fun x hx => h x (List.mem_cons_of_mem w hx))]

/-- `rewrite_srcsetVal` is idempotent for the exporter's categories on
strip-safe values: a second pass leaves the first pass's output
unchanged. -/
theorem rewrite_srcsetVal_idem (v ty : Str) (hty : ty ∈ assetCategories)
    (hv : stripSafe v = true) :
    rewrite_srcsetVal (rewrite_srcsetVal v ty) ty = rewrite_srcsetVal v ty := by
  by_cases hnil : v = []
  · subst hnil; rfl
  · rw [rewrite_srcsetVal_eq_join v ty hnil]
    rcases hps : srcsetPieces v with _ | ⟨p, ps⟩
    · rfl
    · have hgood : ∀ q ∈ p :: ps, rewritePiece ty q ≠ [] ∧ ',' ∉ rewritePiece ty q ∧
          pyStrip (rewritePiece ty q) = rewritePiece ty q ∧
          rewritePiece ty (rewritePiece ty q) = rewritePiece ty q := by
        intro q hq
        exact rewritePiece_good hty hv (by rw [hps]; exact hq)
      have hsep : (", ".data : Str) = [',', ' '] := rfl
      have hwne : rewritePiece ty p ≠ [] := (hgood p (by simp)).1
      have hLne : List.intercalate ", ".data
          (List.map (rewritePiece ty) (p :: ps)) ≠ [] := by
        rw [List.map_cons]
        rcases List.map (rewritePiece ty) ps with _ | ⟨y, t⟩
        · rw [intercalate_single]; exact hwne
        · rw [intercalate_cons₂]
          intro h0
          exact hwne (List.append_eq_nil.mp (List.append_eq_nil.mp h0).1).1
      have hnc : ∀ x ∈ List.map (rewritePiece ty) (p :: ps), ',' ∉ x := by
        intro x hx
        obtain ⟨q, hq, hxq⟩ := List.mem_map.mp hx
        rw [← hxq]
        exact (hgood q hq).2.1
      unfold rewrite_srcsetVal
      rw [if_neg hLne]
      rw [List.map_cons, hsep]
      rw [splitOnChar_intercalate (by decide) (rewritePiece ty p)
        (List.map (rewritePiece ty) ps) (by rw [← List.map_cons]; exact hnc)]
      rw [List.filterMap_cons]
      have hw := hgood p (by simp)
      have hppw : processPiece ty (rewritePiece ty p) = some (rewritePiece ty p) := by
        unfold processPiece
        rw [hw.2.2.1, if_neg hw.1, hw.2.2.2]
      rw [hppw]
      rw [filterMap_fixpoints ty (List.map (rewritePiece ty) ps)
        (fun x hx => by
          obtain ⟨q, hq, hxq⟩ := List.mem_map.mp hx
          have hg := hgood q (List.mem_cons_of_mem p hq)
          rw [← hxq]
          exact ⟨hg.1, hg.2.2.1, hg.2.2.2⟩)]

/-! ## Claim C9 — `process_htmlVal`'s attribute rewriting (cli.py lines 596-676) -/

/-- Python's `str.split()` with no argument, the tokenisation BeautifulSoup
applies to multi-valued attributes such as `rel`: split on runs of
whitespace, dropping empty tokens. -/
def splitWs : Str → List Str
  | [] => []
  | c :: cs =>
    if isPySpace c then splitWs cs
    else (c :: cs.takeWhile (fun x => !isPySpace x)) ::
      splitWs (cs.dropWhile (fun x => !isPySpace x))
termination_by s => s.length
decreasing_by
  · simp
  · simp only [List.length_cons]
    exact Nat.lt_succ_of_le (List.dropWhile_sublist _).length_le

/-- `tag.get('rel', [])`: BeautifulSoup's token list for the multi-valued
`rel` attribute, empty when the attribute is absent. -/
def relTokens (t : Tag) : List Str :=
  match getAttr t ("rel".data) with
  | none => []
  | some v => splitWs v

/-- BeautifulSoup's match of one wanted string against a multi-valued
attribute (as in `find_all('link', rel="stylesheet")`): the string matches
when it equals one of the tokens or the space-joined whole value. -/
def matchRel (want : Str) (t : Tag) : Bool :=
  (relTokens t).contains want ||
    decide (want = List.intercalate [' '] (relTokens t))

/-- `rewrite_attributeVal(tag, attribute, asset_type)` (cli.py lines 602-610):
nothing on a missing or empty value; otherwise normalize, and when the
value classifies as a Webflow asset with a local mapping, assign the
mapping to the attribute. -/
def rewrite_attributeVal (t : Tag) (a asset_type : Str) : Tag :=
  match getAttr t a with
  | none => t
  | some value =>
    if value = [] then t
    else if is_webflow_asset_urlVal (normalize_asset_url value) then
      match local_asset_pathVal asset_type (normalize_asset_url value) with
      | some lp => setAttr t a lp
      | none => t
    else t

/-- `rewrite_srcset_attributeVal(tag, attribute, asset_type)` (cli.py lines
612-618): nothing on a missing or empty value; otherwise assign the
rewritten srcset whenever it is nonempty. -/
def rewrite_srcset_attributeVal (t : Tag) (a asset_type : Str) : Tag :=
  match getAttr t a with
  | none => t
  | some value =>
    if value = [] then t
    else if rewrite_srcsetVal value asset_type = [] then t
    else setAttr t a (rewrite_srcsetVal value asset_type)

/-- The body of the meta pass (cli.py lines 670-676): rewrite `content`
when it classifies with a local mapping, bucket `images`. -/
def meta_rewriteVal (t : Tag) : Tag :=
  match getAttr t ("content".data) with
  | none => t
  | some content_value =>
    if is_webflow_asset_urlVal (normalize_asset_url content_value) then
      match local_asset_pathVal ("images".data) (normalize_asset_url content_value) with
      | some lp => setAttr t ("content".data) lp
      | none => t
    else t

/-- `bucket_map.get(tag.get('as', '').lower(), 'images')` (cli.py lines
637-643). -/
def preloadAs (t : Tag) : Str := lowerStr ((getAttr t ("as".data)).getD [])

def preloadBucket (t : Tag) : Str :=
  if preloadAs t = "style".data then "css".data
  else if preloadAs t = "script".data then "js".data
  else if preloadAs t = "font".data then "images".data
  else if preloadAs t = "image".data then "images".data
  else "images".data

/-- The `script` pass (cli.py lines 621-622). -/
def passScript (t : Tag) : Tag :=
  if t.name = "script".data then rewrite_attributeVal t ("src".data) ("js".data) else t

/-- The stylesheet pass (cli.py lines 625-626). -/
def passStylesheet (t : Tag) : Tag :=
  if t.name = "link".data ∧ matchRel ("stylesheet".data) t = true then
    rewrite_attributeVal t ("href".data) ("css".data)
  else t

/-- The favicon pass (cli.py lines 629-630). -/
def passIcon (t : Tag) : Tag :=
  if t.name = "link".data ∧
      (matchRel ("apple-touch-icon".data) t || matchRel ("shortcut icon".data) t) = true then
    rewrite_attributeVal t ("href".data) ("images".data)
  else t

/-- The preload pass (cli.py lines 633-644): `link` tags with an `href`
whose lowercased `rel` tokens include `preload`. -/
def passPreload (t : Tag) : Tag :=
  if t.name = "link".data ∧ hasAttr t ("href".data) = true ∧
      ("preload".data) ∈ (relTokens t).map lowerStr then
    rewrite_attributeVal t ("href".data) (preloadBucket t)
  else t

/-- The `img` pass (cli.py lines 647-651). -/
def passImg (t : Tag) : Tag :=
  if t.name = "img".data then
    rewrite_srcset_attributeVal
      (rewrite_attributeVal
        (rewrite_srcset_attributeVal
          (rewrite_attributeVal t ("src".data) ("images".data))
          ("srcset".data) ("images".data))
        ("data-src".data) ("images".data))
      ("data-srcset".data) ("images".data)
  else t

/-- The `video`/`audio` pass (cli.py lines 654-658). -/
def passMedia (t : Tag) : Tag :=
  if t.name = "video".data ∨ t.name = "audio".data then
    rewrite_srcset_attributeVal
      (rewrite_attributeVal
        (rewrite_srcset_attributeVal
          (rewrite_attributeVal t ("src".data) ("media".data))
          ("srcset".data) ("media".data))
        ("data-src".data) ("media".data))
      ("data-srcset".data) ("media".data)
  else t

/-- The bucket choice of the `source` pass (cli.py lines 662-663):
`media` inside `video`/`audio`, else `images`. -/
def sourceBucket (t : Tag) : Str :=
  if t.parent = "video".data ∨ t.parent = "audio".data then "media".data
  else "images".data

/-- The `source` pass (cli.py lines 661-667). -/
def passSource (t : Tag) : Tag :=
  if t.name = "source".data then
    rewrite_srcset_attributeVal
      (rewrite_attributeVal
        (rewrite_srcset_attributeVal
          (rewrite_attributeVal t ("src".data) (sourceBucket t))
          ("srcset".data) (sourceBucket t))
        ("data-src".data) (sourceBucket t))
      ("data-srcset".data) (sourceBucket t)
  else t

/-- The meta pass (cli.py lines 670-676): `meta` tags with `content`. -/
def passMeta (t : Tag) : Tag :=
  if t.name = "meta".data ∧ hasAttr t ("content".data) = true then meta_rewriteVal t
  else t

/-- The attribute-rewriting of `process_htmlVal` (cli.py lines 596-676) on a
parsed document, passes in source order; each pass edits each matching tag
in place, so it is a map over the document's tags. Formatting
(`soup.prettify`) is not modelled — the spec's claim is about reference
targets, not formatting. -/
def process_htmlVal (doc : List Tag) : List Tag :=
  ((((((((doc.map passScript).map passStylesheet).map passIcon).map
    passPreload).map passImg).map passMedia).map passSource).map passMeta)

/-- The whole per-tag pipeline, all eight passes in order. -/
def tagPass (t : Tag) : Tag :=
  passMeta (passSource (passMedia (passImg (passPreload (passIcon
    (passStylesheet (passScript t)))))))

theorem process_htmlVal_eq_map (doc : List Tag) :
    process_htmlVal doc = doc.map tagPass := by
  induction doc with
  | nil => rfl
  | cons t ts ih =>
    simp only [process_htmlVal, List.map_cons] at ih ⊢
    rw [ih, tagPass]

theorem tag_ext {t u : Tag} (hn : t.name = u.name) (hp : t.parent = u.parent)
    (ha : t.attrs = u.attrs) : t = u := by
  rcases t with ⟨n, p, l⟩
  rcases u with ⟨n', p', l'⟩
  cases hn
  cases hp
  cases ha
  rfl

theorem name_setAttr (t : Tag) (a v : Str) : (setAttr t a v).name = t.name := rfl

theorem parent_setAttr (t : Tag) (a v : Str) : (setAttr t a v).parent = t.parent := rfl

theorem find?_map_setAttr_ne {a b : Str} (hne : ¬b = a) (v : Str) :
    ∀ l : List (Str × Str),
      ((l.map (fun pr => if pr.1 = a then (a, v) else pr)).find?
          (fun pr => pr.1 = b)).map (fun pr => pr.2) =
        (l.find? (fun pr => pr.1 = b)).map (fun pr => pr.2) := by
  intro l
  induction l with
  | nil => rfl
  | cons pr l ih =>
    rw [List.map_cons]
    by_cases hpa : pr.1 = a
    · rw [if_pos hpa]
      rw [List.find?_cons_of_neg _ (by simp; intro hab; exact hne hab.symm)]
      rw [List.find?_cons_of_neg _ (by simp; intro hb; exact hne (hb ▸ hpa ▸ rfl))]
      exact ih
    · rw [if_neg hpa]
      by_cases hpb : pr.1 = b
      · rw [List.find?_cons_of_pos _ (by simp [hpb]), List.find?_cons_of_pos _ (by simp [hpb])]
      · rw [List.find?_cons_of_neg _ (by simp [hpb]), List.find?_cons_of_neg _ (by simp [hpb])]
        exact ih

theorem getAttr_setAttr_ne {b a : Str} (hne : ¬b = a) (t : Tag) (v : Str) :
    getAttr (setAttr t a v) b = getAttr t b :=
  find?_map_setAttr_ne hne v t.attrs

theorem find?_map_setAttr_eq {a : Str} (v : Str) :
    ∀ l : List (Str × Str),
      ((l.map (fun pr => if pr.1 = a then (a, v) else pr)).find?
          (fun pr => pr.1 = a)).map (fun pr => pr.2) =
        (l.find? (fun pr => pr.1 = a)).map (fun _ => v) := by
  intro l
  induction l with
  | nil => rfl
  | cons pr l ih =>
    rw [List.map_cons]
    by_cases hpa : pr.1 = a
    · rw [if_pos hpa]
      rw [List.find?_cons_of_pos _ (by simp), List.find?_cons_of_pos _ (by simp [hpa])]
      rfl
    · rw [if_neg hpa]
      rw [List.find?_cons_of_neg _ (by simp [hpa]), List.find?_cons_of_neg _ (by simp [hpa])]
      exact ih

theorem getAttr_setAttr_eq (t : Tag) (a v : Str) :
    getAttr (setAttr t a v) a = (getAttr t a).map (fun _ => v) := by
  calc getAttr (setAttr t a v) a
      = ((t.attrs.map (fun pr => if pr.1 = a then (a, v) else pr)).find?
          (fun pr => pr.1 = a)).map (fun pr => pr.2) := rfl
    _ = (t.attrs.find? (fun pr => pr.1 = a)).map (fun _ => v) :=
        find?_map_setAttr_eq v t.attrs
    _ = (getAttr t a).map (fun _ => v) := by
        unfold getAttr
        rw [Option.map_map]
        rfl

theorem hasAttr_setAttr (t : Tag) (a v b : Str) :
    hasAttr (setAttr t a v) b = hasAttr t b := by
  unfold hasAttr
  by_cases h : b = a
  · subst h
    rw [getAttr_setAttr_eq]
    cases getAttr t b <;> rfl
  · rw [getAttr_setAttr_ne h]

theorem setAttr_setAttr (t : Tag) (a w v : Str) :
    setAttr (setAttr t a w) a v = setAttr t a v := by
  refine tag_ext rfl rfl ?_
  show (t.attrs.map (fun pr => if pr.1 = a then (a, w) else pr)).map
      (fun pr => if pr.1 = a then (a, v) else pr) =
    t.attrs.map (fun pr => if pr.1 = a then (a, v) else pr)
  rw [List.map_map]
  apply List.map_congr_left
  intro pr _
  by_cases h : pr.1 = a
  · simp [Function.comp, h]
  · simp [Function.comp, h]

/-- All pairs of a given key hold a given value (what `tag[a] = v`
guarantees afterwards). -/
def attrValsEq (t : Tag) (a v : Str) : Prop :=
  ∀ pr ∈ t.attrs, pr.1 = a → pr.2 = v

theorem map_setAttrFn_eq_self {a v : Str} :
    ∀ l : List (Str × Str), (∀ pr ∈ l, pr.1 = a → pr.2 = v) →
      l.map (fun pr => if pr.1 = a then (a, v) else pr) = l := by
  intro l
  induction l with
  | nil => intro _; rfl
  | cons pr t ih =>
    intro h
    rw [List.map_cons, ih (fun q hq hqa => h q (List.mem_cons_of_mem pr hq) hqa)]
    by_cases hpr : pr.1 = a
    · rw [if_pos hpr]
      have hv := h pr (by simp) hpr
      rw [← hpr, ← hv]
    · rw [if_neg hpr]

theorem setAttr_eq_self_of_val {t : Tag} {a v : Str} (h : attrValsEq t a v) :
    setAttr t a v = t :=
  tag_ext rfl rfl (map_setAttrFn_eq_self t.attrs h)

theorem attrValsEq_setAttr (t : Tag) (a v : Str) : attrValsEq (setAttr t a v) a v := by
  intro pr hpr hpra
  obtain ⟨q, hq, hfq⟩ := List.mem_map.mp hpr
  by_cases hqa : q.1 = a
  · rw [if_pos hqa] at hfq
    rw [← hfq]
  · rw [if_neg hqa] at hfq
    rw [← hfq] at hpra
    exact absurd hpra hqa

theorem attrValsEq_setAttr_ne {t : Tag} {a v : Str} (h : attrValsEq t a v)
    {b : Str} (hne : ¬a = b) (w : Str) : attrValsEq (setAttr t b w) a v := by
  intro pr hpr hpra
  obtain ⟨q, hq, hfq⟩ := List.mem_map.mp hpr
  by_cases hqb : q.1 = b
  · rw [if_pos hqb] at hfq
    rw [← hfq] at hpra
    exact absurd hpra.symm hne
  · rw [if_neg hqb] at hfq
    rw [← hfq] at hpra ⊢
    exact h q hq hpra

/-- All attribute values of a tag are free of vertical tabs and form
feeds. -/
def TagStripSafe (t : Tag) : Prop := ∀ pr ∈ t.attrs, stripSafe pr.2 = true

theorem getAttr_stripSafe {t : Tag} (h : TagStripSafe t) {a v : Str}
    (hg : getAttr t a = some v) : stripSafe v = true := by
  unfold getAttr at hg
  rcases hf : t.attrs.find? (fun pr => pr.1 = a) with _ | pr
  · rw [hf] at hg
    cases hg
  · rw [hf] at hg
    have hv : pr.2 = v := Option.some.inj hg
    rw [← hv]
    exact h pr (List.mem_of_find?_eq_some hf)

theorem rewrite_attributeVal_none {t : Tag} {a : Str} (h : getAttr t a = none) (ty : Str) :
    rewrite_attributeVal t a ty = t := by
  unfold rewrite_attributeVal
  rw [h]

theorem rewrite_attributeVal_some {t : Tag} {a v : Str} (h : getAttr t a = some v) (ty : Str) :
    rewrite_attributeVal t a ty =
      (if v = [] then t
       else if is_webflow_asset_urlVal (normalize_asset_url v) then
         match local_asset_pathVal ty (normalize_asset_url v) with
         | some lp => setAttr t a lp
         | none => t
       else t) := by
  unfold rewrite_attributeVal
  rw [h]

theorem rewrite_srcset_attributeVal_none {t : Tag} {a : Str} (h : getAttr t a = none)
    (ty : Str) : rewrite_srcset_attributeVal t a ty = t := by
  unfold rewrite_srcset_attributeVal
  rw [h]

theorem rewrite_srcset_attributeVal_some {t : Tag} {a v : Str} (h : getAttr t a = some v)
    (ty : Str) :
    rewrite_srcset_attributeVal t a ty =
      (if v = [] then t
       else if rewrite_srcsetVal v ty = [] then t
       else setAttr t a (rewrite_srcsetVal v ty)) := by
  unfold rewrite_srcset_attributeVal
  rw [h]

theorem meta_rewriteVal_none {t : Tag} (h : getAttr t ("content".data) = none) :
    meta_rewriteVal t = t := by
  unfold meta_rewriteVal
  rw [h]

theorem meta_rewriteVal_some {t : Tag} {v : Str} (h : getAttr t ("content".data) = some v) :
    meta_rewriteVal t =
      (if is_webflow_asset_urlVal (normalize_asset_url v) then
        match local_asset_pathVal ("images".data) (normalize_asset_url v) with
        | some lp => setAttr t ("content".data) lp
        | none => t
      else t) := by
  unfold meta_rewriteVal
  rw [h]

theorem rewrite_attributeVal_cases (t : Tag) (a ty : Str) :
    rewrite_attributeVal t a ty = t ∨ ∃ w, rewrite_attributeVal t a ty = setAttr t a w := by
  rcases hg : getAttr t a with _ | v
  · exact Or.inl (rewrite_attributeVal_none hg ty)
  · rw [rewrite_attributeVal_some hg ty]
    by_cases hv : v = []
    · rw [if_pos hv]
      exact Or.inl rfl
    · rw [if_neg hv]
      by_cases hw : is_webflow_asset_urlVal (normalize_asset_url v) = true
      · rw [if_pos hw]
        rcases local_asset_pathVal ty (normalize_asset_url v) with _ | lp
        · exact Or.inl rfl
        · exact Or.inr ⟨lp, rfl⟩
      · rw [if_neg hw]
        exact Or.inl rfl

theorem rewrite_srcset_attributeVal_cases (t : Tag) (a ty : Str) :
    rewrite_srcset_attributeVal t a ty = t ∨
      ∃ w, rewrite_srcset_attributeVal t a ty = setAttr t a w := by
  rcases hg : getAttr t a with _ | v
  · exact Or.inl (rewrite_srcset_attributeVal_none hg ty)
  · rw [rewrite_srcset_attributeVal_some hg ty]
    by_cases hv : v = []
    · rw [if_pos hv]
      exact Or.inl rfl
    · rw [if_neg hv]
      by_cases hr : rewrite_srcsetVal v ty = []
      · rw [if_pos hr]
        exact Or.inl rfl
      · rw [if_neg hr]
        exact Or.inr ⟨rewrite_srcsetVal v ty, rfl⟩

theorem meta_rewriteVal_cases (t : Tag) :
    meta_rewriteVal t = t ∨ ∃ w, meta_rewriteVal t = setAttr t ("content".data) w := by
  rcases hg : getAttr t ("content".data) with _ | v
  · exact Or.inl (meta_rewriteVal_none hg)
  · rw [meta_rewriteVal_some hg]
    by_cases hw : is_webflow_asset_urlVal (normalize_asset_url v) = true
    · rw [if_pos hw]
      rcases local_asset_pathVal ("images".data) (normalize_asset_url v) with _ | lp
      · exact Or.inl rfl
      · exact Or.inr ⟨lp, rfl⟩
    · rw [if_neg hw]
      exact Or.inl rfl

theorem getAttr_frame {t t' : Tag} {b : Str}
    (h : t' = t ∨ ∃ w, t' = setAttr t b w) {c : Str} (hne : ¬c = b) :
    getAttr t' c = getAttr t c := by
  rcases h with h | ⟨w, h⟩
  · rw [h]
  · rw [h, getAttr_setAttr_ne hne]

theorem name_frame {t t' : Tag} {b : Str}
    (h : t' = t ∨ ∃ w, t' = setAttr t b w) : t'.name = t.name := by
  rcases h with h | ⟨w, h⟩
  · rw [h]
  · rw [h, name_setAttr]

theorem parent_frame {t t' : Tag} {b : Str}
    (h : t' = t ∨ ∃ w, t' = setAttr t b w) : t'.parent = t.parent := by
  rcases h with h | ⟨w, h⟩
  · rw [h]
  · rw [h, parent_setAttr]

theorem hasAttr_frame {t t' : Tag} {b : Str}
    (h : t' = t ∨ ∃ w, t' = setAttr t b w) (c : Str) :
    hasAttr t' c = hasAttr t c := by
  rcases h with h | ⟨w, h⟩
  · rw [h]
  · rw [h, hasAttr_setAttr]

theorem attrValsEq_frame {t t' : Tag} {b : Str}
    (h : t' = t ∨ ∃ w, t' = setAttr t b w) {a v : Str} (hne : ¬a = b)
    (hv : attrValsEq t a v) : attrValsEq t' a v := by
  rcases h with h | ⟨w, h⟩
  · rw [h]
    exact hv
  · rw [h]
    exact attrValsEq_setAttr_ne hv hne w

/-- A value on which the URL rewrite takes no action: empty, not
classifiable as a platform asset, or classifiable but with an empty
basename (so no local mapping). The condition does not depend on the asset
category. -/
def noActVal (v : Str) : Prop :=
  v = [] ∨ is_webflow_asset_urlVal (normalize_asset_url v) = false ∨
    basenameStr (pyUrlParseVal (normalize_asset_url (normalize_asset_url v))).path = []

/-- An attribute on which the URL rewrite takes no action. -/
def attrNoAct (t : Tag) (a : Str) : Prop :=
  ∀ v, getAttr t a = some v → noActVal v

theorem attrNoAct_frame {t t' : Tag} {b : Str}
    (h : t' = t ∨ ∃ w, t' = setAttr t b w) {a : Str} (hne : ¬a = b)
    (hna : attrNoAct t a) : attrNoAct t' a := by
  intro v hv
  rw [getAttr_frame h hne] at hv
  exact hna v hv

theorem rewrite_attributeVal_noop {t : Tag} {a : Str} (h : attrNoAct t a) (ty : Str) :
    rewrite_attributeVal t a ty = t := by
  rcases hg : getAttr t a with _ | v
  · exact rewrite_attributeVal_none hg ty
  · rw [rewrite_attributeVal_some hg ty]
    by_cases hv0 : v = []
    · rw [if_pos hv0]
    · rw [if_neg hv0]
      rcases h v hg with hv | hv | hv
      · exact absurd hv hv0
      · rw [if_neg (by simp [hv])]
      · by_cases hw : is_webflow_asset_urlVal (normalize_asset_url v) = true
        · rw [if_pos hw,
            (local_asset_pathVal_none_iff ty (normalize_asset_url v)).mpr hv]
        · rw [if_neg hw]

theorem rewrite_attributeVal_post {ty : Str} (hty : GoodCat ty = true) (t : Tag) (a : Str) :
    attrNoAct (rewrite_attributeVal t a ty) a := by
  intro v' hg'
  rcases hg : getAttr t a with _ | v
  · rw [rewrite_attributeVal_none hg ty, hg] at hg'
    cases hg'
  · by_cases hv0 : v = []
    · rw [rewrite_attributeVal_some hg ty, if_pos hv0, hg] at hg'
      exact Or.inl (by rw [← Option.some.inj hg']; exact hv0)
    · by_cases hw : is_webflow_asset_urlVal (normalize_asset_url v) = true
      · rcases hlp : local_asset_pathVal ty (normalize_asset_url v) with _ | lp
        · rw [rewrite_attributeVal_some hg ty, if_neg hv0, if_pos hw, hlp, hg] at hg'
          have hvv := Option.some.inj hg'
          refine Or.inr (Or.inr ?_)
          rw [← hvv]
          exact (local_asset_pathVal_none_iff ty (normalize_asset_url v)).mp hlp
        · rw [rewrite_attributeVal_some hg ty, if_neg hv0, if_pos hw, hlp,
            getAttr_setAttr_eq, hg] at hg'
          have hlv : lp = v' := Option.some.inj hg'
          obtain ⟨fn, hfn, hfneq, hshape⟩ := local_asset_pathVal_some_shape hlp
          refine Or.inr (Or.inl ?_)
          rw [← hlv, hshape, normalize_cat_path hty fn]
          exact is_webflow_cat_path_false hty (pyRStrip fn)
      · rw [rewrite_attributeVal_some hg ty, if_neg hv0, if_neg hw, hg] at hg'
        have hvv := Option.some.inj hg'
        refine Or.inr (Or.inl ?_)
        rw [← hvv]
        exact Bool.not_eq_true _ ▸ hw

theorem meta_rewriteVal_noop {t : Tag} (h : attrNoAct t ("content".data)) :
    meta_rewriteVal t = t := by
  rcases hg : getAttr t ("content".data) with _ | v
  · exact meta_rewriteVal_none hg
  · rw [meta_rewriteVal_some hg]
    rcases h v hg with hv | hv | hv
    · rw [hv, if_neg (by decide)]
    · rw [if_neg (by simp [hv])]
    · by_cases hw : is_webflow_asset_urlVal (normalize_asset_url v) = true
      · rw [if_pos hw,
          (local_asset_pathVal_none_iff ("images".data) (normalize_asset_url v)).mpr hv]
      · rw [if_neg hw]

theorem meta_rewriteVal_post (t : Tag) : attrNoAct (meta_rewriteVal t) ("content".data) := by
  intro v' hg'
  rcases hg : getAttr t ("content".data) with _ | v
  · rw [meta_rewriteVal_none hg, hg] at hg'
    cases hg'
  · by_cases hw : is_webflow_asset_urlVal (normalize_asset_url v) = true
    · rcases hlp : local_asset_pathVal ("images".data) (normalize_asset_url v) with _ | lp
      · rw [meta_rewriteVal_some hg, if_pos hw, hlp, hg] at hg'
        have hvv := Option.some.inj hg'
        refine Or.inr (Or.inr ?_)
        rw [← hvv]
        exact (local_asset_pathVal_none_iff ("images".data) (normalize_asset_url v)).mp hlp
      · rw [meta_rewriteVal_some hg, if_pos hw, hlp, getAttr_setAttr_eq, hg] at hg'
        have hlv : lp = v' := Option.some.inj hg'
        obtain ⟨fn, hfn, hfneq, hshape⟩ := local_asset_pathVal_some_shape hlp
        refine Or.inr (Or.inl ?_)
        rw [← hlv, hshape, normalize_cat_path (by decide) fn]
        exact is_webflow_cat_path_false (by decide) (pyRStrip fn)
    · rw [meta_rewriteVal_some hg, if_neg hw, hg] at hg'
      have hvv := Option.some.inj hg'
      refine Or.inr (Or.inl ?_)
      rw [← hvv]
      exact Bool.not_eq_true _ ▸ hw

/-- An attribute whose current value the srcset rewrite maps to itself (or
never assigns), so a second srcset pass leaves the tag unchanged. -/
def srcsetDone (t : Tag) (a ty : Str) : Prop :=
  ∀ v, getAttr t a = some v →
    v = [] ∨ rewrite_srcsetVal v ty = [] ∨
      (rewrite_srcsetVal v ty = v ∧ attrValsEq t a v)

theorem srcsetDone_frame {t t' : Tag} {b : Str}
    (h : t' = t ∨ ∃ w, t' = setAttr t b w) {a ty : Str} (hne : ¬a = b)
    (hd : srcsetDone t a ty) : srcsetDone t' a ty := by
  intro v hv
  rw [getAttr_frame h hne] at hv
  rcases hd v hv with h1 | h1 | ⟨h1, h2⟩
  · exact Or.inl h1
  · exact Or.inr (Or.inl h1)
  · exact Or.inr (Or.inr ⟨h1, attrValsEq_frame h hne h2⟩)

theorem rewrite_srcset_attributeVal_noop {t : Tag} {a ty : Str} (h : srcsetDone t a ty) :
    rewrite_srcset_attributeVal t a ty = t := by
  rcases hg : getAttr t a with _ | v
  · exact rewrite_srcset_attributeVal_none hg ty
  · rw [rewrite_srcset_attributeVal_some hg ty]
    by_cases hv0 : v = []
    · rw [if_pos hv0]
    · rw [if_neg hv0]
      rcases h v hg with hv | hv | ⟨hfix, hvals⟩
      · exact absurd hv hv0
      · rw [if_pos hv]
      · by_cases hr0 : rewrite_srcsetVal v ty = []
        · rw [if_pos hr0]
        · rw [if_neg hr0, hfix]
          exact setAttr_eq_self_of_val hvals

theorem rewrite_srcset_attributeVal_post {ty : Str} (hty : ty ∈ assetCategories)
    {t : Tag} {a : Str} (hvt : ∀ v, getAttr t a = some v → stripSafe v = true) :
    srcsetDone (rewrite_srcset_attributeVal t a ty) a ty := by
  intro v' hg'
  rcases hg : getAttr t a with _ | v
  · rw [rewrite_srcset_attributeVal_none hg ty, hg] at hg'
    cases hg'
  · by_cases hv0 : v = []
    · rw [rewrite_srcset_attributeVal_some hg ty, if_pos hv0] at hg' ⊢
      rw [hg] at hg'
      exact Or.inl (by rw [← Option.some.inj hg']; exact hv0)
    · by_cases hr0 : rewrite_srcsetVal v ty = []
      · rw [rewrite_srcset_attributeVal_some hg ty, if_neg hv0, if_pos hr0] at hg' ⊢
        rw [hg] at hg'
        have hvv := Option.some.inj hg'
        exact Or.inr (Or.inl (by rw [← hvv]; exact hr0))
      · rw [rewrite_srcset_attributeVal_some hg ty, if_neg hv0, if_neg hr0] at hg' ⊢
        rw [getAttr_setAttr_eq, hg] at hg'
        have hrv : rewrite_srcsetVal v ty = v' := Option.some.inj hg'
        refine Or.inr (Or.inr ⟨?_, ?_⟩)
        · rw [← hrv, rewrite_srcsetVal_idem v ty hty (hvt v hg)]
        · rw [← hrv]
          exact attrValsEq_setAttr t a (rewrite_srcsetVal v ty)

/-- The four-rewrite body shared by the `img`, media and `source` passes
(src, srcset, data-src, data-srcset, in source order). -/
def quadRewrite (t : Tag) (ty : Str) : Tag :=
  rewrite_srcset_attributeVal
    (rewrite_attributeVal
      (rewrite_srcset_attributeVal
        (rewrite_attributeVal t ("src".data) ty)
        ("srcset".data) ty)
      ("data-src".data) ty)
    ("data-srcset".data) ty

theorem passImg_eq (t : Tag) :
    passImg t = if t.name = "img".data then quadRewrite t ("images".data) else t := rfl

theorem passMedia_eq (t : Tag) :
    passMedia t =
      if t.name = "video".data ∨ t.name = "audio".data then quadRewrite t ("media".data)
      else t := rfl

theorem passSource_eq (t : Tag) :
    passSource t =
      if t.name = "source".data then quadRewrite t (sourceBucket t) else t := rfl

theorem name_quadRewrite (t : Tag) (ty : Str) : (quadRewrite t ty).name = t.name := by
  unfold quadRewrite
  rw [name_frame (rewrite_srcset_attributeVal_cases _ _ _),
    name_frame (rewrite_attributeVal_cases _ _ _),
    name_frame (rewrite_srcset_attributeVal_cases _ _ _),
    name_frame (rewrite_attributeVal_cases _ _ _)]

theorem parent_quadRewrite (t : Tag) (ty : Str) : (quadRewrite t ty).parent = t.parent := by
  unfold quadRewrite
  rw [parent_frame (rewrite_srcset_attributeVal_cases _ _ _),
    parent_frame (rewrite_attributeVal_cases _ _ _),
    parent_frame (rewrite_srcset_attributeVal_cases _ _ _),
    parent_frame (rewrite_attributeVal_cases _ _ _)]

theorem quadRewrite_idem {ty : Str} (hty : ty ∈ assetCategories) (t : Tag)
    (hvt : TagStripSafe t) : quadRewrite (quadRewrite t ty) ty = quadRewrite t ty := by
  have hgc : GoodCat ty = true := goodCat_of_mem hty
  obtain ⟨t1, ht1⟩ : ∃ x, rewrite_attributeVal t ("src".data) ty = x := ⟨_, rfl⟩
  obtain ⟨t2, ht2⟩ : ∃ x, rewrite_srcset_attributeVal t1 ("srcset".data) ty = x := ⟨_, rfl⟩
  obtain ⟨t3, ht3⟩ : ∃ x, rewrite_attributeVal t2 ("data-src".data) ty = x := ⟨_, rfl⟩
  obtain ⟨t4, ht4⟩ : ∃ x, rewrite_srcset_attributeVal t3 ("data-srcset".data) ty = x := ⟨_, rfl⟩
  have hc10 := ht1 ▸ rewrite_attributeVal_cases t ("src".data) ty
  have hc21 := ht2 ▸ rewrite_srcset_attributeVal_cases t1 ("srcset".data) ty
  have hc32 := ht3 ▸ rewrite_attributeVal_cases t2 ("data-src".data) ty
  have hc43 := ht4 ▸ rewrite_srcset_attributeVal_cases t3 ("data-srcset".data) ty
  have hquad : quadRewrite t ty = t4 := by
    unfold quadRewrite
    rw [ht1, ht2, ht3, ht4]
  have hA1 : attrNoAct t1 ("src".data) :=
    ht1 ▸ rewrite_attributeVal_post hgc t ("src".data)
  have hS2 : srcsetDone t2 ("srcset".data) ty := by
    have hg1 : getAttr t1 ("srcset".data) = getAttr t ("srcset".data) :=
      getAttr_frame hc10 (by decide)
    exact ht2 ▸ rewrite_srcset_attributeVal_post hty
      (fun v (hv : getAttr t1 ("srcset".data) = some v) =>
        getAttr_stripSafe hvt (hg1 ▸ hv))
  have hA3 : attrNoAct t3 ("data-src".data) :=
    ht3 ▸ rewrite_attributeVal_post hgc t2 ("data-src".data)
  have hS4 : srcsetDone t4 ("data-srcset".data) ty := by
    have hg3 : getAttr t3 ("data-srcset".data) = getAttr t ("data-srcset".data) := by
      rw [getAttr_frame hc32 (by decide), getAttr_frame hc21 (by decide),
        getAttr_frame hc10 (by decide)]
    exact ht4 ▸ rewrite_srcset_attributeVal_post hty
      (fun v (hv : getAttr t3 ("data-srcset".data) = some v) =>
        getAttr_stripSafe hvt (hg3 ▸ hv))
  have hA1' : attrNoAct t4 ("src".data) :=
    attrNoAct_frame hc43 (by decide)
      (attrNoAct_frame hc32 (by decide) (attrNoAct_frame hc21 (by decide) hA1))
  have hS2' : srcsetDone t4 ("srcset".data) ty :=
    srcsetDone_frame hc43 (by decide) (srcsetDone_frame hc32 (by decide) hS2)
  have hA3' : attrNoAct t4 ("data-src".data) := attrNoAct_frame hc43 (by decide) hA3
  rw [hquad]
  unfold quadRewrite
  rw [rewrite_attributeVal_noop hA1' ty, rewrite_srcset_attributeVal_noop hS2',
    rewrite_attributeVal_noop hA3' ty, rewrite_srcset_attributeVal_noop hS4]

theorem passScript_of_ne {t : Tag} (h : ¬t.name = "script".data) : passScript t = t := by
  unfold passScript
  rw [if_neg h]

theorem passStylesheet_of_ne {t : Tag} (h : ¬t.name = "link".data) :
    passStylesheet t = t := by
  unfold passStylesheet
  rw [if_neg (fun hc => h hc.1)]

theorem passIcon_of_ne {t : Tag} (h : ¬t.name = "link".data) : passIcon t = t := by
  unfold passIcon
  rw [if_neg (fun hc => h hc.1)]

theorem passPreload_of_ne {t : Tag} (h : ¬t.name = "link".data) : passPreload t = t := by
  unfold passPreload
  rw [if_neg (fun hc => h hc.1)]

theorem passImg_of_ne {t : Tag} (h : ¬t.name = "img".data) : passImg t = t := by
  rw [passImg_eq, if_neg h]

theorem passMedia_of_ne {t : Tag}
    (h : ¬(t.name = "video".data ∨ t.name = "audio".data)) : passMedia t = t := by
  rw [passMedia_eq, if_neg h]

theorem passSource_of_ne {t : Tag} (h : ¬t.name = "source".data) : passSource t = t := by
  rw [passSource_eq, if_neg h]

theorem passMeta_of_ne {t : Tag} (h : ¬t.name = "meta".data) : passMeta t = t := by
  unfold passMeta
  rw [if_neg (fun hc => h hc.1)]

theorem name_passScript (t : Tag) : (passScript t).name = t.name := by
  unfold passScript
  by_cases h : t.name = "script".data
  · rw [if_pos h]
    exact name_frame (rewrite_attributeVal_cases _ _ _)
  · rw [if_neg h]

theorem name_passStylesheet (t : Tag) : (passStylesheet t).name = t.name := by
  unfold passStylesheet
  by_cases h : t.name = "link".data ∧ matchRel ("stylesheet".data) t = true
  · rw [if_pos h]
    exact name_frame (rewrite_attributeVal_cases _ _ _)
  · rw [if_neg h]

theorem name_passIcon (t : Tag) : (passIcon t).name = t.name := by
  unfold passIcon
  by_cases h : t.name = "link".data ∧
      (matchRel ("apple-touch-icon".data) t || matchRel ("shortcut icon".data) t) = true
  · rw [if_pos h]
    exact name_frame (rewrite_attributeVal_cases _ _ _)
  · rw [if_neg h]

theorem name_passPreload (t : Tag) : (passPreload t).name = t.name := by
  unfold passPreload
  by_cases h : t.name = "link".data ∧ hasAttr t ("href".data) = true ∧
      ("preload".data) ∈ (relTokens t).map lowerStr
  · rw [if_pos h]
    exact name_frame (rewrite_attributeVal_cases _ _ _)
  · rw [if_neg h]

theorem name_passImg (t : Tag) : (passImg t).name = t.name := by
  rw [passImg_eq]
  by_cases h : t.name = "img".data
  · rw [if_pos h, name_quadRewrite]
  · rw [if_neg h]

theorem name_passMedia (t : Tag) : (passMedia t).name = t.name := by
  rw [passMedia_eq]
  by_cases h : t.name = "video".data ∨ t.name = "audio".data
  · rw [if_pos h, name_quadRewrite]
  · rw [if_neg h]

theorem name_passSource (t : Tag) : (passSource t).name = t.name := by
  rw [passSource_eq]
  by_cases h : t.name = "source".data
  · rw [if_pos h, name_quadRewrite]
  · rw [if_neg h]

theorem name_passMeta (t : Tag) : (passMeta t).name = t.name := by
  unfold passMeta
  by_cases h : t.name = "meta".data ∧ hasAttr t ("content".data) = true
  · rw [if_pos h]
    exact name_frame (meta_rewriteVal_cases _)
  · rw [if_neg h]

theorem passStylesheet_noact {t : Tag} (h : attrNoAct t ("href".data)) :
    passStylesheet t = t := by
  unfold passStylesheet
  by_cases hg : t.name = "link".data ∧ matchRel ("stylesheet".data) t = true
  · rw [if_pos hg]
    exact rewrite_attributeVal_noop h _
  · rw [if_neg hg]

theorem passIcon_noact {t : Tag} (h : attrNoAct t ("href".data)) : passIcon t = t := by
  unfold passIcon
  by_cases hg : t.name = "link".data ∧
      (matchRel ("apple-touch-icon".data) t || matchRel ("shortcut icon".data) t) = true
  · rw [if_pos hg]
    exact rewrite_attributeVal_noop h _
  · rw [if_neg hg]

theorem passPreload_noact {t : Tag} (h : attrNoAct t ("href".data)) :
    passPreload t = t := by
  unfold passPreload
  by_cases hg : t.name = "link".data ∧ hasAttr t ("href".data) = true ∧
      ("preload".data) ∈ (relTokens t).map lowerStr
  · rw [if_pos hg]
    exact rewrite_attributeVal_noop h _
  · rw [if_neg hg]

theorem preloadBucket_good (t : Tag) : GoodCat (preloadBucket t) = true := by
  unfold preloadBucket
  by_cases h1 : preloadAs t = "style".data
  · rw [if_pos h1]
    decide
  · rw [if_neg h1]
    by_cases h2 : preloadAs t = "script".data
    · rw [if_pos h2]
      decide
    · rw [if_neg h2]
      by_cases h3 : preloadAs t = "font".data
      · rw [if_pos h3]
        decide
      · rw [if_neg h3]
        by_cases h4 : preloadAs t = "image".data
        · rw [if_pos h4]
          decide
        · rw [if_neg h4]
          decide

theorem passStylesheet_post_or (t : Tag) :
    passStylesheet t = t ∨ attrNoAct (passStylesheet t) ("href".data) := by
  unfold passStylesheet
  by_cases hg : t.name = "link".data ∧ matchRel ("stylesheet".data) t = true
  · rw [if_pos hg]
    exact Or.inr (rewrite_attributeVal_post (by decide) t _)
  · rw [if_neg hg]
    exact Or.inl rfl

theorem passIcon_post_or (t : Tag) :
    passIcon t = t ∨ attrNoAct (passIcon t) ("href".data) := by
  unfold passIcon
  by_cases hg : t.name = "link".data ∧
      (matchRel ("apple-touch-icon".data) t || matchRel ("shortcut icon".data) t) = true
  · rw [if_pos hg]
    exact Or.inr (rewrite_attributeVal_post (by decide) t _)
  · rw [if_neg hg]
    exact Or.inl rfl

theorem passPreload_post_or (t : Tag) :
    passPreload t = t ∨ attrNoAct (passPreload t) ("href".data) := by
  unfold passPreload
  by_cases hg : t.name = "link".data ∧ hasAttr t ("href".data) = true ∧
      ("preload".data) ∈ (relTokens t).map lowerStr
  · rw [if_pos hg]
    exact Or.inr (rewrite_attributeVal_post (preloadBucket_good t) t _)
  · rw [if_neg hg]
    exact Or.inl rfl

theorem linkChain_fix (t : Tag) :
    passPreload (passIcon (passStylesheet t)) = t ∨
      attrNoAct (passPreload (passIcon (passStylesheet t))) ("href".data) := by
  rcases passStylesheet_post_or t with h1 | h1
  · rw [h1]
    rcases passIcon_post_or t with h2 | h2
    · rw [h2]
      rcases passPreload_post_or t with h3 | h3
      · rw [h3]
        exact Or.inl rfl
      · exact Or.inr h3
    · rw [passPreload_noact h2]
      exact Or.inr h2
  · rw [passIcon_noact h1, passPreload_noact h1]
    exact Or.inr h1

theorem linkChain_idem (t : Tag) :
    passPreload (passIcon (passStylesheet
      (passPreload (passIcon (passStylesheet t))))) =
      passPreload (passIcon (passStylesheet t)) := by
  rcases linkChain_fix t with h | h
  · rw [h]
    exact h
  · rw [passStylesheet_noact h, passIcon_noact h, passPreload_noact h]

theorem passScript_idem (t : Tag) : passScript (passScript t) = passScript t := by
  by_cases h : t.name = "script".data
  · obtain ⟨t1, ht1⟩ : ∃ x, rewrite_attributeVal t ("src".data) ("js".data) = x := ⟨_, rfl⟩
    have hfire : passScript t = t1 := by
      unfold passScript
      rw [if_pos h, ht1]
    have hn1 : t1.name = "script".data := by
      rw [← hfire, name_passScript, h]
    have hA : attrNoAct t1 ("src".data) :=
      ht1 ▸ rewrite_attributeVal_post (by decide) t ("src".data)
    rw [hfire]
    unfold passScript
    rw [if_pos hn1]
    exact rewrite_attributeVal_noop hA _
  · have hskip := passScript_of_ne h
    rw [hskip]
    exact hskip

theorem passImg_idem (t : Tag) (hvt : TagStripSafe t) : passImg (passImg t) = passImg t := by
  by_cases h : t.name = "img".data
  · have hfire : passImg t = quadRewrite t ("images".data) := by
      rw [passImg_eq, if_pos h]
    have hn1 : (quadRewrite t ("images".data)).name = "img".data := by
      rw [name_quadRewrite, h]
    rw [hfire, passImg_eq, if_pos hn1]
    exact quadRewrite_idem (by decide) t hvt
  · have hskip := passImg_of_ne h
    rw [hskip]
    exact hskip

theorem passMedia_idem (t : Tag) (hvt : TagStripSafe t) :
    passMedia (passMedia t) = passMedia t := by
  by_cases h : t.name = "video".data ∨ t.name = "audio".data
  · have hfire : passMedia t = quadRewrite t ("media".data) := by
      rw [passMedia_eq, if_pos h]
    have hn1 : (quadRewrite t ("media".data)).name = "video".data ∨
        (quadRewrite t ("media".data)).name = "audio".data := by
      rw [name_quadRewrite]
      exact h
    rw [hfire, passMedia_eq, if_pos hn1]
    exact quadRewrite_idem (by decide) t hvt
  · have hskip := passMedia_of_ne h
    rw [hskip]
    exact hskip

theorem sourceBucket_mem (t : Tag) : sourceBucket t ∈ assetCategories := by
  unfold sourceBucket
  by_cases h : t.parent = "video".data ∨ t.parent = "audio".data
  · rw [if_pos h]
    decide
  · rw [if_neg h]
    decide

theorem passSource_idem (t : Tag) (hvt : TagStripSafe t) :
    passSource (passSource t) = passSource t := by
  by_cases h : t.name = "source".data
  · have hfire : passSource t = quadRewrite t (sourceBucket t) := by
      rw [passSource_eq, if_pos h]
    have hn1 : (quadRewrite t (sourceBucket t)).name = "source".data := by
      rw [name_quadRewrite, h]
    have hb : sourceBucket (quadRewrite t (sourceBucket t)) = sourceBucket t := by
      unfold sourceBucket
      rw [parent_quadRewrite]
    rw [hfire, passSource_eq, if_pos hn1, hb]
    exact quadRewrite_idem (sourceBucket_mem t) t hvt
  · have hskip := passSource_of_ne h
    rw [hskip]
    exact hskip

theorem passMeta_idem (t : Tag) : passMeta (passMeta t) = passMeta t := by
  by_cases h : t.name = "meta".data ∧ hasAttr t ("content".data) = true
  · have hfire : passMeta t = meta_rewriteVal t := by
      unfold passMeta
      rw [if_pos h]
    have hc := meta_rewriteVal_cases t
    have hn1 : (meta_rewriteVal t).name = "meta".data := by
      rw [name_frame hc]
      exact h.1
    have hh1 : hasAttr (meta_rewriteVal t) ("content".data) = true := by
      rw [hasAttr_frame hc]
      exact h.2
    rw [hfire]
    unfold passMeta
    rw [if_pos ⟨hn1, hh1⟩]
    exact meta_rewriteVal_noop (meta_rewriteVal_post t)
  · have hskip : passMeta t = t := by
      unfold passMeta
      rw [if_neg h]
    rw [hskip]
    exact hskip

theorem tagPass_eq_script {t : Tag} (h : t.name = "script".data) :
    tagPass t = passScript t := by
  unfold tagPass
  have h1 : (passScript t).name = "script".data := by
    rw [name_passScript, h]
  rw [passStylesheet_of_ne (by rw [h1]; decide), passIcon_of_ne (by rw [h1]; decide),
    passPreload_of_ne (by rw [h1]; decide), passImg_of_ne (by rw [h1]; decide),
    passMedia_of_ne (by rw [h1]; decide), passSource_of_ne (by rw [h1]; decide),
    passMeta_of_ne (by rw [h1]; decide)]

theorem tagPass_eq_link {t : Tag} (h : t.name = "link".data) :
    tagPass t = passPreload (passIcon (passStylesheet t)) := by
  unfold tagPass
  have h0 : (passStylesheet t).name = "link".data := by
    rw [name_passStylesheet, h]
  have h1 : (passIcon (passStylesheet t)).name = "link".data := by
    rw [name_passIcon, h0]
  have h2 : (passPreload (passIcon (passStylesheet t))).name = "link".data := by
    rw [name_passPreload, h1]
  rw [passScript_of_ne (by rw [h]; decide), passImg_of_ne (by rw [h2]; decide),
    passMedia_of_ne (by rw [h2]; decide), passSource_of_ne (by rw [h2]; decide),
    passMeta_of_ne (by rw [h2]; decide)]

theorem tagPass_eq_img {t : Tag} (h : t.name = "img".data) :
    tagPass t = passImg t := by
  unfold tagPass
  have h1 : (passImg t).name = "img".data := by
    rw [name_passImg, h]
  rw [passScript_of_ne (by rw [h]; decide), passStylesheet_of_ne (by rw [h]; decide),
    passIcon_of_ne (by rw [h]; decide), passPreload_of_ne (by rw [h]; decide),
    passMedia_of_ne (by rw [h1]; decide), passSource_of_ne (by rw [h1]; decide),
    passMeta_of_ne (by rw [h1]; decide)]

theorem tagPass_eq_media {t : Tag} (h : t.name = "video".data ∨ t.name = "audio".data) :
    tagPass t = passMedia t := by
  unfold tagPass
  have h1 : (passMedia t).name = "video".data ∨ (passMedia t).name = "audio".data := by
    rw [name_passMedia]
    exact h
  have hname : ∀ s : Str, t.name = s → s = "video".data ∨ s = "audio".data := by
    intro s hs
    rw [← hs]
    exact h
  rw [passScript_of_ne (by rcases h with h | h <;> rw [h] <;> decide),
    passStylesheet_of_ne (by rcases h with h | h <;> rw [h] <;> decide),
    passIcon_of_ne (by rcases h with h | h <;> rw [h] <;> decide),
    passPreload_of_ne (by rcases h with h | h <;> rw [h] <;> decide),
    passImg_of_ne (by rcases h with h | h <;> rw [h] <;> decide),
    passSource_of_ne (by rcases h1 with h1 | h1 <;> rw [h1] <;> decide),
    passMeta_of_ne (by rcases h1 with h1 | h1 <;> rw [h1] <;> decide)]

theorem tagPass_eq_source {t : Tag} (h : t.name = "source".data) :
    tagPass t = passSource t := by
  unfold tagPass
  have h1 : (passSource t).name = "source".data := by
    rw [name_passSource, h]
  rw [passScript_of_ne (by rw [h]; decide), passStylesheet_of_ne (by rw [h]; decide),
    passIcon_of_ne (by rw [h]; decide), passPreload_of_ne (by rw [h]; decide),
    passImg_of_ne (by rw [h]; decide), passMedia_of_ne (by rw [h]; decide),
    passMeta_of_ne (by rw [h1]; decide)]

theorem tagPass_eq_meta {t : Tag} (h : t.name = "meta".data) :
    tagPass t = passMeta t := by
  unfold tagPass
  rw [passScript_of_ne (by rw [h]; decide), passStylesheet_of_ne (by rw [h]; decide),
    passIcon_of_ne (by rw [h]; decide), passPreload_of_ne (by rw [h]; decide),
    passImg_of_ne (by rw [h]; decide), passMedia_of_ne (by rw [h]; decide),
    passSource_of_ne (by rw [h]; decide)]

theorem tagPass_eq_other {t : Tag} (h1 : ¬t.name = "script".data)
    (h2 : ¬t.name = "link".data) (h3 : ¬t.name = "img".data)
    (h4 : ¬t.name = "video".data) (h5 : ¬t.name = "audio".data)
    (h6 : ¬t.name = "source".data) (h7 : ¬t.name = "meta".data) : tagPass t = t := by
  unfold tagPass
  rw [passScript_of_ne h1, passStylesheet_of_ne h2, passIcon_of_ne h2,
    passPreload_of_ne h2, passImg_of_ne h3,
    passMedia_of_ne (by
      intro hc
      rcases hc with hc | hc
      · exact h4 hc
      · exact h5 hc),
    passSource_of_ne h6, passMeta_of_ne h7]

theorem tagPass_idem (t : Tag) (hvt : TagStripSafe t) : tagPass (tagPass t) = tagPass t := by
  by_cases h1 : t.name = "script".data
  · rw [tagPass_eq_script h1, tagPass_eq_script (by rw [name_passScript, h1])]
    exact passScript_idem t
  by_cases h2 : t.name = "link".data
  · rw [tagPass_eq_link h2]
    rw [tagPass_eq_link (by rw [name_passPreload, name_passIcon, name_passStylesheet, h2])]
    exact linkChain_idem t
  by_cases h3 : t.name = "img".data
  · rw [tagPass_eq_img h3, tagPass_eq_img (by rw [name_passImg, h3])]
    exact passImg_idem t hvt
  by_cases h4 : t.name = "video".data ∨ t.name = "audio".data
  · rw [tagPass_eq_media h4, tagPass_eq_media (by rw [name_passMedia]; exact h4)]
    exact passMedia_idem t hvt
  by_cases h6 : t.name = "source".data
  · rw [tagPass_eq_source h6, tagPass_eq_source (by rw [name_passSource, h6])]
    exact passSource_idem t hvt
  by_cases h7 : t.name = "meta".data
  · rw [tagPass_eq_meta h7, tagPass_eq_meta (by rw [name_passMeta, h7])]
    exact passMeta_idem t
  · have hother := tagPass_eq_other h1 h2 h3 (fun hc => h4 (Or.inl hc))
      (fun hc => h4 (Or.inr hc)) h6 h7
    rw [hother]
    exact hother

/-- The per-value idempotence core: on strip-safe documents a second run
of the total rewrite is the identity. -/
theorem process_htmlVal_idem (doc : List Tag) (hvt : ∀ t ∈ doc, TagStripSafe t) :
    process_htmlVal (process_htmlVal doc) = process_htmlVal doc := by
  rw [process_htmlVal_eq_map doc, process_htmlVal_eq_map (doc.map tagPass)]
  induction doc with
  | nil => rfl
  | cons t ts ih =>
    rw [List.map_cons, List.map_cons,
      tagPass_idem t (hvt t (by simp)),
      ih (fun x hx => hvt x (List.mem_cons_of_mem t hx))]

/-! ## `process_html` with the `urlparse` error surface

Each rewrite helper parses attribute values with `urlparse`, which can
raise; a raise aborts the whole `process_html` call, so the passes
sequence through `PyRes`.  As before, an `ok` outcome carries the total
(`Val`) result, because the second parse a successful branch performs is
of the same cleaned string as the first. -/

/-- `rewrite_attribute` (cli.py lines 602-610) with the error surface. -/
def rewrite_attribute (t : Tag) (a asset_type : Str) : PyRes Tag :=
  match getAttr t a with
  | none => .ok t
  | some value =>
    if value = [] then .ok t
    else (is_webflow_asset_url (normalize_asset_url value)).bind
      (fun _ => PyRes.ok (rewrite_attributeVal t a asset_type))

/-- `rewrite_srcset_attribute` (cli.py lines 612-618) with the error
surface. -/
def rewrite_srcset_attribute (t : Tag) (a asset_type : Str) : PyRes Tag :=
  match getAttr t a with
  | none => .ok t
  | some value =>
    if value = [] then .ok t
    else (rewrite_srcset value asset_type).bind
      (fun _ => PyRes.ok (rewrite_srcset_attributeVal t a asset_type))

/-- The meta pass body (cli.py lines 670-676) with the error surface. -/
def meta_rewrite (t : Tag) : PyRes Tag :=
  match getAttr t ("content".data) with
  | none => .ok t
  | some content_value =>
    (is_webflow_asset_url (normalize_asset_url content_value)).bind
      (fun _ => PyRes.ok (meta_rewriteVal t))

def passScriptE (t : Tag) : PyRes Tag :=
  if t.name = "script".data then rewrite_attribute t ("src".data) ("js".data)
  else .ok t

def passStylesheetE (t : Tag) : PyRes Tag :=
  if t.name = "link".data ∧ matchRel ("stylesheet".data) t = true then
    rewrite_attribute t ("href".data) ("css".data)
  else .ok t

def passIconE (t : Tag) : PyRes Tag :=
  if t.name = "link".data ∧
      (matchRel ("apple-touch-icon".data) t || matchRel ("shortcut icon".data) t) = true then
    rewrite_attribute t ("href".data) ("images".data)
  else .ok t

def passPreloadE (t : Tag) : PyRes Tag :=
  if t.name = "link".data ∧ hasAttr t ("href".data) = true ∧
      ("preload".data) ∈ (relTokens t).map lowerStr then
    rewrite_attribute t ("href".data) (preloadBucket t)
  else .ok t

def passImgE (t : Tag) : PyRes Tag :=
  if t.name = "img".data then
    (rewrite_attribute t ("src".data) ("images".data)).bind (fun t1 =>
      (rewrite_srcset_attribute t1 ("srcset".data) ("images".data)).bind (fun t2 =>
        (rewrite_attribute t2 ("data-src".data) ("images".data)).bind (fun t3 =>
          rewrite_srcset_attribute t3 ("data-srcset".data) ("images".data))))
  else .ok t

def passMediaE (t : Tag) : PyRes Tag :=
  if t.name = "video".data ∨ t.name = "audio".data then
    (rewrite_attribute t ("src".data) ("media".data)).bind (fun t1 =>
      (rewrite_srcset_attribute t1 ("srcset".data) ("media".data)).bind (fun t2 =>
        (rewrite_attribute t2 ("data-src".data) ("media".data)).bind (fun t3 =>
          rewrite_srcset_attribute t3 ("data-srcset".data) ("media".data))))
  else .ok t

def passSourceE (t : Tag) : PyRes Tag :=
  if t.name = "source".data then
    (rewrite_attribute t ("src".data) (sourceBucket t)).bind (fun t1 =>
      (rewrite_srcset_attribute t1 ("srcset".data) (sourceBucket t)).bind (fun t2 =>
        (rewrite_attribute t2 ("data-src".data) (sourceBucket t)).bind (fun t3 =>
          rewrite_srcset_attribute t3 ("data-srcset".data) (sourceBucket t))))
  else .ok t

def passMetaE (t : Tag) : PyRes Tag :=
  if t.name = "meta".data ∧ hasAttr t ("content".data) = true then meta_rewrite t
  else .ok t

/-- One `find_all` loop with the error surface: the first raising tag
aborts, later tags are not processed. -/
def mapTagsE (f : Tag → PyRes Tag) : List Tag → PyRes (List Tag)
  | [] => .ok []
  | t :: ts =>
    (f t).bind (fun u => (mapTagsE f ts).bind (fun us => PyRes.ok (u :: us)))

/-- `process_html`'s attribute rewriting (cli.py lines 596-676) with the
`urlparse` error surface, passes in source order. -/
def process_html (doc : List Tag) : PyRes (List Tag) :=
  (mapTagsE passScriptE doc).bind (fun d1 =>
    (mapTagsE passStylesheetE d1).bind (fun d2 =>
      (mapTagsE passIconE d2).bind (fun d3 =>
        (mapTagsE passPreloadE d3).bind (fun d4 =>
          (mapTagsE passImgE d4).bind (fun d5 =>
            (mapTagsE passMediaE d5).bind (fun d6 =>
              (mapTagsE passSourceE d6).bind (fun d7 =>
                mapTagsE passMetaE d7)))))))

/-- All attribute values of a tag are tame. -/
def TagTame (t : Tag) : Prop := ∀ pr ∈ t.attrs, tame pr.2 = true

instance (t : Tag) : Decidable (TagTame t) :=
  inferInstanceAs (Decidable (∀ pr ∈ t.attrs, tame pr.2 = true))

theorem getAttr_tame {t : Tag} (h : TagTame t) {a v : Str}
    (hg : getAttr t a = some v) : tame v = true := by
  unfold getAttr at hg
  rcases hf : t.attrs.find? (fun pr => pr.1 = a) with _ | pr
  · rw [hf] at hg
    cases hg
  · rw [hf] at hg
    have hv : pr.2 = v := Option.some.inj hg
    rw [← hv]
    exact h pr (List.mem_of_find?_eq_some hf)

theorem tagStripSafe_of_tame {t : Tag} (h : TagTame t) : TagStripSafe t :=
  fun pr hpr => tame_stripSafe (h pr hpr)

theorem mem_intercalate (sep : Str) :
    ∀ (l : List Str) (c : Char), c ∈ List.intercalate sep l →
      c ∈ sep ∨ ∃ x ∈ l, c ∈ x := by
  intro l
  induction l with
  | nil =>
    intro c h
    rw [intercalate_nil] at h
    cases h
  | cons x xs ih =>
    intro c h
    rcases xs with _ | ⟨y, t⟩
    · rw [intercalate_single] at h
      exact Or.inr ⟨x, by simp, h⟩
    · rw [intercalate_cons₂] at h
      rcases List.mem_append.mp h with h1 | h1
      · rcases List.mem_append.mp h1 with h2 | h2
        · exact Or.inr ⟨x, by simp, h2⟩
        · exact Or.inl h2
      · rcases ih c h1 with h2 | ⟨z, hz, hcz⟩
        · exact Or.inl h2
        · exact Or.inr ⟨z, List.mem_cons_of_mem x hz, hcz⟩

/-- Every character of a substituted URL comes from the input, the
category, the path separator or the `https:` prefix. -/
theorem mem_rewriteUrlPart {ty u : Str} {c : Char} (hc : c ∈ rewriteUrlPart ty u) :
    c ∈ u ∨ c ∈ ty ∨ c = '/' ∨ c ∈ "https:".data := by
  rcases rewriteUrlPart_cases ty u with h | h
  · rw [h] at hc
    exact Or.inl hc
  · obtain ⟨fn, hfn, hfneq, hshape⟩ := local_asset_pathVal_some_shape h.2
    rw [hshape] at hc
    rcases List.mem_append.mp hc with h1 | h1
    · exact Or.inr (Or.inl h1)
    · rcases List.mem_cons.mp h1 with h1 | h1
      · exact Or.inr (Or.inr (Or.inl h1))
      · rw [hfneq] at h1
        have h2 := (pyUrlParseVal_path_sublist _).mem ((basenameStr_sublist _).mem h1)
        rcases mem_normalize h2 with h4 | h4
        · rcases mem_normalize h4 with h5 | h5
          · exact Or.inl h5
          · exact Or.inr (Or.inr (Or.inr h5))
        · exact Or.inr (Or.inr (Or.inr h4))

theorem assetCategories_tame : ∀ ty ∈ assetCategories, ∀ c ∈ ty, tameChar c = true := by
  decide

theorem tame_rewriteUrlPart {ty u : Str} (hty : ∀ c ∈ ty, tameChar c = true)
    (h : tame u = true) : tame (rewriteUrlPart ty u) = true := by
  apply List.all_eq_true.mpr
  intro c hc
  rcases mem_rewriteUrlPart hc with h1 | h1 | h1 | h1
  · exact List.all_eq_true.mp h c h1
  · exact hty c h1
  · subst h1
    decide
  · fin_cases h1 <;> decide

theorem tame_rewritePiece {ty p : Str} (hty : ∀ c ∈ ty, tameChar c = true)
    (h : tame p = true) : tame (rewritePiece ty p) = true := by
  apply List.all_eq_true.mpr
  intro c hc
  have hw : tame (rewriteUrlPart ty (split1Space p).1) = true :=
    tame_rewriteUrlPart hty (tame_mono (split1Space_url_sublist p) h)
  have hd : tame (split1Space p).2 = true := tame_mono (split1Space_desc_sublist p) h
  unfold rewritePiece at hc
  by_cases h2 : (split1Space p).2 = []
  · rw [if_pos h2] at hc
    exact List.all_eq_true.mp hw c hc
  · rw [if_neg h2] at hc
    rcases List.mem_append.mp hc with h1 | h1
    · exact List.all_eq_true.mp hw c h1
    · rcases List.mem_cons.mp h1 with h1 | h1
      · subst h1
        decide
      · exact List.all_eq_true.mp hd c h1

theorem tame_rewrite_srcsetVal {v ty : Str} (hty : ∀ c ∈ ty, tameChar c = true)
    (h : tame v = true) : tame (rewrite_srcsetVal v ty) = true := by
  by_cases h0 : v = []
  · subst h0
    rfl
  · rw [rewrite_srcsetVal_eq_join v ty h0]
    apply List.all_eq_true.mpr
    intro c hc
    rcases mem_intercalate _ _ c hc with h1 | ⟨x, hx, hcx⟩
    · have h1' : c ∈ [',', ' '] := h1
      rcases List.mem_cons.mp h1' with h2 | h2
      · subst h2
        decide
      · rcases List.mem_cons.mp h2 with h3 | h3
        · subst h3
          decide
        · cases h3
    · obtain ⟨p, hp, hpx⟩ := List.mem_map.mp hx
      rw [← hpx] at hcx
      have hpt : tame p = true :=
        List.all_eq_true.mpr (fun d hd =>
          List.all_eq_true.mp h d (mem_srcsetPieces_chars hp d hd))
      exact List.all_eq_true.mp (tame_rewritePiece hty hpt) c hcx

/-! Tame attribute values are preserved by every rewrite, so on tame
documents the error-aware passes stay on the `ok` path and agree with the
total ones -- including on a rewrite's own output, which is what the
idempotence claim needs. -/

theorem tagTame_setAttr {t : Tag} (h : TagTame t) {a w : Str}
    (hw : tame w = true) : TagTame (setAttr t a w) := by
  intro pr hpr
  have hpr' : pr ∈ t.attrs.map (fun q => if q.1 = a then (a, w) else q) := hpr
  obtain ⟨q, hq, hfq⟩ := List.mem_map.mp hpr'
  by_cases hqa : q.1 = a
  · rw [if_pos hqa] at hfq
    rw [← hfq]
    exact hw
  · rw [if_neg hqa] at hfq
    rw [← hfq]
    exact h q hq

theorem tagTame_RA {t : Tag} {a ty : Str} (hty : ∀ c ∈ ty, tameChar c = true)
    (h : TagTame t) : TagTame (rewrite_attributeVal t a ty) := by
  rcases hg : getAttr t a with _ | v
  · rw [rewrite_attributeVal_none hg]
    exact h
  · rw [rewrite_attributeVal_some hg]
    by_cases hv0 : v = []
    · rw [if_pos hv0]
      exact h
    · rw [if_neg hv0]
      by_cases hw : is_webflow_asset_urlVal (normalize_asset_url v) = true
      · rw [if_pos hw]
        rcases hlp : local_asset_pathVal ty (normalize_asset_url v) with _ | lp
        · exact h
        · show TagTame (setAttr t a lp)
          have hrw : rewriteUrlPart ty v = lp := by
            unfold rewriteUrlPart
            rw [if_pos hw, hlp]
          exact tagTame_setAttr h
            (hrw ▸ tame_rewriteUrlPart hty (getAttr_tame h hg))
      · rw [if_neg hw]
        exact h

theorem tagTame_RSA {t : Tag} {a ty : Str} (hty : ∀ c ∈ ty, tameChar c = true)
    (h : TagTame t) : TagTame (rewrite_srcset_attributeVal t a ty) := by
  rcases hg : getAttr t a with _ | v
  · rw [rewrite_srcset_attributeVal_none hg]
    exact h
  · rw [rewrite_srcset_attributeVal_some hg]
    by_cases hv0 : v = []
    · rw [if_pos hv0]
      exact h
    · rw [if_neg hv0]
      by_cases hz : rewrite_srcsetVal v ty = []
      · rw [if_pos hz]
        exact h
      · rw [if_neg hz]
        exact tagTame_setAttr h (tame_rewrite_srcsetVal hty (getAttr_tame h hg))

theorem tagTame_metaRW {t : Tag} (h : TagTame t) : TagTame (meta_rewriteVal t) := by
  rcases hg : getAttr t ("content".data) with _ | v
  · rw [meta_rewriteVal_none hg]
    exact h
  · rw [meta_rewriteVal_some hg]
    by_cases hw : is_webflow_asset_urlVal (normalize_asset_url v) = true
    · rw [if_pos hw]
      rcases hlp : local_asset_pathVal ("images".data) (normalize_asset_url v) with _ | lp
      · exact h
      · show TagTame (setAttr t ("content".data) lp)
        have hrw : rewriteUrlPart ("images".data) v = lp := by
          unfold rewriteUrlPart
          rw [if_pos hw, hlp]
        exact tagTame_setAttr h
          (hrw ▸ tame_rewriteUrlPart (by decide) (getAttr_tame h hg))
    · rw [if_neg hw]
      exact h

theorem tagTame_quadRewrite {ty : Str} (hty : ∀ c ∈ ty, tameChar c = true)
    {t : Tag} (h : TagTame t) : TagTame (quadRewrite t ty) :=
  tagTame_RSA hty (tagTame_RA hty (tagTame_RSA hty (tagTame_RA hty h)))

theorem preloadBucket_mem (t : Tag) : preloadBucket t ∈ assetCategories := by
  unfold preloadBucket
  by_cases h1 : preloadAs t = "style".data
  · rw [if_pos h1]
    decide
  · rw [if_neg h1]
    by_cases h2 : preloadAs t = "script".data
    · rw [if_pos h2]
      decide
    · rw [if_neg h2]
      by_cases h3 : preloadAs t = "font".data
      · rw [if_pos h3]
        decide
      · rw [if_neg h3]
        by_cases h4 : preloadAs t = "image".data
        · rw [if_pos h4]
          decide
        · rw [if_neg h4]
          decide

theorem tagTame_passScript {t : Tag} (h : TagTame t) : TagTame (passScript t) := by
  unfold passScript
  by_cases hn : t.name = "script".data
  · rw [if_pos hn]
    exact tagTame_RA (by decide) h
  · rw [if_neg hn]
    exact h

theorem tagTame_passStylesheet {t : Tag} (h : TagTame t) :
    TagTame (passStylesheet t) := by
  unfold passStylesheet
  by_cases hn : t.name = "link".data ∧ matchRel ("stylesheet".data) t = true
  · rw [if_pos hn]
    exact tagTame_RA (by decide) h
  · rw [if_neg hn]
    exact h

theorem tagTame_passIcon {t : Tag} (h : TagTame t) : TagTame (passIcon t) := by
  unfold passIcon
  by_cases hn : t.name = "link".data ∧
      (matchRel ("apple-touch-icon".data) t || matchRel ("shortcut icon".data) t) = true
  · rw [if_pos hn]
    exact tagTame_RA (by decide) h
  · rw [if_neg hn]
    exact h

theorem tagTame_passPreload {t : Tag} (h : TagTame t) : TagTame (passPreload t) := by
  unfold passPreload
  by_cases hn : t.name = "link".data ∧ hasAttr t ("href".data) = true ∧
      ("preload".data) ∈ (relTokens t).map lowerStr
  · rw [if_pos hn]
    exact tagTame_RA (assetCategories_tame _ (preloadBucket_mem t)) h
  · rw [if_neg hn]
    exact h

theorem tagTame_passImg {t : Tag} (h : TagTame t) : TagTame (passImg t) := by
  rw [passImg_eq]
  by_cases hn : t.name = "img".data
  · rw [if_pos hn]
    exact tagTame_quadRewrite (by decide) h
  · rw [if_neg hn]
    exact h

theorem tagTame_passMedia {t : Tag} (h : TagTame t) : TagTame (passMedia t) := by
  rw [passMedia_eq]
  by_cases hn : t.name = "video".data ∨ t.name = "audio".data
  · rw [if_pos hn]
    exact tagTame_quadRewrite (by decide) h
  · rw [if_neg hn]
    exact h

theorem tagTame_passSource {t : Tag} (h : TagTame t) : TagTame (passSource t) := by
  rw [passSource_eq]
  by_cases hn : t.name = "source".data
  · rw [if_pos hn]
    exact tagTame_quadRewrite (assetCategories_tame _ (sourceBucket_mem t)) h
  · rw [if_neg hn]
    exact h

theorem tagTame_passMeta {t : Tag} (h : TagTame t) : TagTame (passMeta t) := by
  unfold passMeta
  by_cases hn : t.name = "meta".data ∧ hasAttr t ("content".data) = true
  · rw [if_pos hn]
    exact tagTame_metaRW h
  · rw [if_neg hn]
    exact h

theorem tagTame_tagPass {t : Tag} (h : TagTame t) : TagTame (tagPass t) :=
  tagTame_passMeta (tagTame_passSource (tagTame_passMedia (tagTame_passImg
    (tagTame_passPreload (tagTame_passIcon (tagTame_passStylesheet
      (tagTame_passScript h)))))))

theorem rewrite_attribute_none {t : Tag} {a : Str} (h : getAttr t a = none) (ty : Str) :
    rewrite_attribute t a ty = PyRes.ok t := by
  unfold rewrite_attribute
  rw [h]

theorem rewrite_attribute_some {t : Tag} {a v : Str} (h : getAttr t a = some v) (ty : Str) :
    rewrite_attribute t a ty =
      (if v = [] then PyRes.ok t
       else (is_webflow_asset_url (normalize_asset_url v)).bind
         (fun _ => PyRes.ok (rewrite_attributeVal t a ty))) := by
  unfold rewrite_attribute
  rw [h]

theorem rewrite_srcset_attribute_none {t : Tag} {a : Str} (h : getAttr t a = none)
    (ty : Str) : rewrite_srcset_attribute t a ty = PyRes.ok t := by
  unfold rewrite_srcset_attribute
  rw [h]

theorem rewrite_srcset_attribute_some {t : Tag} {a v : Str} (h : getAttr t a = some v)
    (ty : Str) :
    rewrite_srcset_attribute t a ty =
      (if v = [] then PyRes.ok t
       else (rewrite_srcset v ty).bind
         (fun _ => PyRes.ok (rewrite_srcset_attributeVal t a ty))) := by
  unfold rewrite_srcset_attribute
  rw [h]

theorem meta_rewrite_none {t : Tag} (h : getAttr t ("content".data) = none) :
    meta_rewrite t = PyRes.ok t := by
  unfold meta_rewrite
  rw [h]

theorem meta_rewrite_some {t : Tag} {v : Str} (h : getAttr t ("content".data) = some v) :
    meta_rewrite t =
      (is_webflow_asset_url (normalize_asset_url v)).bind
        (fun _ => PyRes.ok (meta_rewriteVal t)) := by
  unfold meta_rewrite
  rw [h]

theorem rewrite_attribute_ok {t : Tag} (h : TagTame t) (a ty : Str) :
    rewrite_attribute t a ty = PyRes.ok (rewrite_attributeVal t a ty) := by
  rcases hg : getAttr t a with _ | v
  · rw [rewrite_attribute_none hg, rewrite_attributeVal_none hg]
  · rw [rewrite_attribute_some hg]
    by_cases hv0 : v = []
    · rw [if_pos hv0, rewrite_attributeVal_some hg, if_pos hv0]
    · rw [if_neg hv0,
        is_webflow_asset_url_ok_of_tame (tame_normalize (getAttr_tame h hg))]
      rfl

theorem rewrite_srcset_attribute_ok {t : Tag} (h : TagTame t) (a ty : Str) :
    rewrite_srcset_attribute t a ty = PyRes.ok (rewrite_srcset_attributeVal t a ty) := by
  rcases hg : getAttr t a with _ | v
  · rw [rewrite_srcset_attribute_none hg, rewrite_srcset_attributeVal_none hg]
  · rw [rewrite_srcset_attribute_some hg]
    by_cases hv0 : v = []
    · rw [if_pos hv0, rewrite_srcset_attributeVal_some hg, if_pos hv0]
    · rw [if_neg hv0, rewrite_srcset_ok_of_tame (getAttr_tame h hg)]
      rfl

theorem meta_rewrite_ok {t : Tag} (h : TagTame t) :
    meta_rewrite t = PyRes.ok (meta_rewriteVal t) := by
  rcases hg : getAttr t ("content".data) with _ | v
  · rw [meta_rewrite_none hg, meta_rewriteVal_none hg]
  · rw [meta_rewrite_some hg,
      is_webflow_asset_url_ok_of_tame (tame_normalize (getAttr_tame h hg))]
    rfl

theorem passScriptE_ok {t : Tag} (h : TagTame t) : passScriptE t = PyRes.ok (passScript t) := by
  unfold passScriptE passScript
  by_cases hn : t.name = "script".data
  · rw [if_pos hn, if_pos hn]
    exact rewrite_attribute_ok h _ _
  · rw [if_neg hn, if_neg hn]

theorem passStylesheetE_ok {t : Tag} (h : TagTame t) :
    passStylesheetE t = PyRes.ok (passStylesheet t) := by
  unfold passStylesheetE passStylesheet
  by_cases hn : t.name = "link".data ∧ matchRel ("stylesheet".data) t = true
  · rw [if_pos hn, if_pos hn]
    exact rewrite_attribute_ok h _ _
  · rw [if_neg hn, if_neg hn]

theorem passIconE_ok {t : Tag} (h : TagTame t) : passIconE t = PyRes.ok (passIcon t) := by
  unfold passIconE passIcon
  by_cases hn : t.name = "link".data ∧
      (matchRel ("apple-touch-icon".data) t || matchRel ("shortcut icon".data) t) = true
  · rw [if_pos hn, if_pos hn]
    exact rewrite_attribute_ok h _ _
  · rw [if_neg hn, if_neg hn]

theorem passPreloadE_ok {t : Tag} (h : TagTame t) :
    passPreloadE t = PyRes.ok (passPreload t) := by
  unfold passPreloadE passPreload
  by_cases hn : t.name = "link".data ∧ hasAttr t ("href".data) = true ∧
      ("preload".data) ∈ (relTokens t).map lowerStr
  · rw [if_pos hn, if_pos hn]
    exact rewrite_attribute_ok h _ _
  · rw [if_neg hn, if_neg hn]

theorem passImgE_ok {t : Tag} (h : TagTame t) : passImgE t = PyRes.ok (passImg t) := by
  have h1 : TagTame (rewrite_attributeVal t ("src".data) ("images".data)) :=
    tagTame_RA (by decide) h
  have h2 : TagTame (rewrite_srcset_attributeVal
      (rewrite_attributeVal t ("src".data) ("images".data))
      ("srcset".data) ("images".data)) :=
    tagTame_RSA (by decide) h1
  have h3 : TagTame (rewrite_attributeVal (rewrite_srcset_attributeVal
      (rewrite_attributeVal t ("src".data) ("images".data))
      ("srcset".data) ("images".data)) ("data-src".data) ("images".data)) :=
    tagTame_RA (by decide) h2
  unfold passImgE
  rw [passImg_eq]
  by_cases hn : t.name = "img".data
  · rw [if_pos hn, if_pos hn, rewrite_attribute_ok h _ _]
    simp only [PyRes.bind]
    rw [rewrite_srcset_attribute_ok h1 _ _]
    simp only [PyRes.bind]
    rw [rewrite_attribute_ok h2 _ _]
    simp only [PyRes.bind]
    rw [rewrite_srcset_attribute_ok h3 _ _]
    rfl
  · rw [if_neg hn, if_neg hn]

theorem passMediaE_ok {t : Tag} (h : TagTame t) : passMediaE t = PyRes.ok (passMedia t) := by
  have h1 : TagTame (rewrite_attributeVal t ("src".data) ("media".data)) :=
    tagTame_RA (by decide) h
  have h2 : TagTame (rewrite_srcset_attributeVal
      (rewrite_attributeVal t ("src".data) ("media".data))
      ("srcset".data) ("media".data)) :=
    tagTame_RSA (by decide) h1
  have h3 : TagTame (rewrite_attributeVal (rewrite_srcset_attributeVal
      (rewrite_attributeVal t ("src".data) ("media".data))
      ("srcset".data) ("media".data)) ("data-src".data) ("media".data)) :=
    tagTame_RA (by decide) h2
  unfold passMediaE
  rw [passMedia_eq]
  by_cases hn : t.name = "video".data ∨ t.name = "audio".data
  · rw [if_pos hn, if_pos hn, rewrite_attribute_ok h _ _]
    simp only [PyRes.bind]
    rw [rewrite_srcset_attribute_ok h1 _ _]
    simp only [PyRes.bind]
    rw [rewrite_attribute_ok h2 _ _]
    simp only [PyRes.bind]
    rw [rewrite_srcset_attribute_ok h3 _ _]
    rfl
  · rw [if_neg hn, if_neg hn]

theorem passSourceE_ok {t : Tag} (h : TagTame t) : passSourceE t = PyRes.ok (passSource t) := by
  have hb : ∀ c ∈ sourceBucket t, tameChar c = true :=
    assetCategories_tame _ (sourceBucket_mem t)
  have h1 : TagTame (rewrite_attributeVal t ("src".data) (sourceBucket t)) :=
    tagTame_RA hb h
  have h2 : TagTame (rewrite_srcset_attributeVal
      (rewrite_attributeVal t ("src".data) (sourceBucket t))
      ("srcset".data) (sourceBucket t)) :=
    tagTame_RSA hb h1
  have h3 : TagTame (rewrite_attributeVal (rewrite_srcset_attributeVal
      (rewrite_attributeVal t ("src".data) (sourceBucket t))
      ("srcset".data) (sourceBucket t)) ("data-src".data) (sourceBucket t)) :=
    tagTame_RA hb h2
  unfold passSourceE
  rw [passSource_eq]
  by_cases hn : t.name = "source".data
  · rw [if_pos hn, if_pos hn, rewrite_attribute_ok h _ _]
    simp only [PyRes.bind]
    rw [rewrite_srcset_attribute_ok h1 _ _]
    simp only [PyRes.bind]
    rw [rewrite_attribute_ok h2 _ _]
    simp only [PyRes.bind]
    rw [rewrite_srcset_attribute_ok h3 _ _]
    rfl
  · rw [if_neg hn, if_neg hn]

theorem passMetaE_ok {t : Tag} (h : TagTame t) : passMetaE t = PyRes.ok (passMeta t) := by
  unfold passMetaE passMeta
  by_cases hn : t.name = "meta".data ∧ hasAttr t ("content".data) = true
  · rw [if_pos hn, if_pos hn]
    exact meta_rewrite_ok h
  · rw [if_neg hn, if_neg hn]

theorem mapTagsE_ok {fE : Tag → PyRes Tag} {fV : Tag → Tag} :
    ∀ l : List Tag, (∀ t ∈ l, fE t = PyRes.ok (fV t)) →
      mapTagsE fE l = PyRes.ok (l.map fV) := by
  intro l
  induction l with
  | nil => intro _; rfl
  | cons t ts ih =>
    intro h
    unfold mapTagsE
    rw [h t (by simp), List.map_cons]
    simp only [PyRes.bind]
    rw [ih (fun x hx => h x (List.mem_cons_of_mem t hx))]

theorem docTame_map {f : Tag → Tag} (hf : ∀ t, TagTame t → TagTame (f t))
    {l : List Tag} (h : ∀ t ∈ l, TagTame t) : ∀ t ∈ l.map f, TagTame t := by
  intro t ht
  obtain ⟨q, hq, hfq⟩ := List.mem_map.mp ht
  rw [← hfq]
  exact hf q (h q hq)

theorem process_html_ok_of_tame {doc : List Tag} (h : ∀ t ∈ doc, TagTame t) :
    process_html doc = PyRes.ok (process_htmlVal doc) := by
  have h1 := docTame_map (fun t ht => tagTame_passScript ht) h
  have h2 := docTame_map (fun t ht => tagTame_passStylesheet ht) h1
  have h3 := docTame_map (fun t ht => tagTame_passIcon ht) h2
  have h4 := docTame_map (fun t ht => tagTame_passPreload ht) h3
  have h5 := docTame_map (fun t ht => tagTame_passImg ht) h4
  have h6 := docTame_map (fun t ht => tagTame_passMedia ht) h5
  have h7 := docTame_map (fun t ht => tagTame_passSource ht) h6
  unfold process_html
  rw [mapTagsE_ok _ (fun t ht => passScriptE_ok (h t ht))]
  simp only [PyRes.bind]
  rw [mapTagsE_ok _ (fun t ht => passStylesheetE_ok (h1 t ht))]
  simp only [PyRes.bind]
  rw [mapTagsE_ok _ (fun t ht => passIconE_ok (h2 t ht))]
  simp only [PyRes.bind]
  rw [mapTagsE_ok _ (fun t ht => passPreloadE_ok (h3 t ht))]
  simp only [PyRes.bind]
  rw [mapTagsE_ok _ (fun t ht => passImgE_ok (h4 t ht))]
  simp only [PyRes.bind]
  rw [mapTagsE_ok _ (fun t ht => passMediaE_ok (h5 t ht))]
  simp only [PyRes.bind]
  rw [mapTagsE_ok _ (fun t ht => passSourceE_ok (h6 t ht))]
  simp only [PyRes.bind]
  rw [mapTagsE_ok _ (fun t ht => passMetaE_ok (h7 t ht))]
  rfl

/-- A one-tag document whose `img` `srcset` URL carries a vertical tab just
before the query string: `urlsplit` does not delete `\x0b` (only tab, CR,
LF), so the tab survives into the local path's basename, and the second
pass's `item.strip()` then removes it. -/
def c9CounterDoc : List Tag :=
  [⟨"img".data, [], [("srcset".data, "https://webflow.com/a\x0b?q".data)]⟩]

/-- What the rewriter makes of `c9CounterDoc` on the first application. -/
def c9MidDoc : List Tag :=
  [⟨"img".data, [], [("srcset".data, "images/a\x0b".data)]⟩]

/-- What a second application makes of `c9MidDoc`: the stray `\x0b` is
stripped, so the document changes again. -/
def c9FinalDoc : List Tag :=
  [⟨"img".data, [], [("srcset".data, "images/a".data)]⟩]

/-- An ordinary one-tag document for the witness: an `img` with a `src` and
a two-entry `srcset`, both pointing at platform assets. -/
def c9WitnessDoc : List Tag :=
  [⟨"img".data, [], [("src".data, "https://webflow.com/x.png".data),
    ("srcset".data, "https://webflow.com/a.png 2x, https://webflow.com/b.png".data)]⟩]

/-- C9 as amended: on every document whose attribute values are tame
(ASCII, bracket-free, and free of the whitespace characters that
`str.strip()` removes but `urlsplit` does not delete), the rewrite
completes without a `ValueError`, a second application returns the first
application's output unchanged, and that second run also raises nothing. -/
theorem claim_C9_rewriter_idempotent_amended (doc : List Tag)
    (hvt : ∀ t ∈ doc, TagTame t) :
    process_html doc = PyRes.ok (process_htmlVal doc) ∧
      process_htmlVal (process_htmlVal doc) = process_htmlVal doc ∧
      process_html (process_htmlVal doc) = PyRes.ok (process_htmlVal doc) := by
  have hpres : ∀ t ∈ process_htmlVal doc, TagTame t := by
    rw [process_htmlVal_eq_map]
    exact docTame_map (fun t ht => tagTame_tagPass ht) hvt
  have hidem := process_htmlVal_idem doc (fun t ht => tagStripSafe_of_tame (hvt t ht))
  refine ⟨process_html_ok_of_tame hvt, hidem, ?_⟩
  rw [process_html_ok_of_tame hpres, hidem]

/-- The amended C9 at a concrete document. -/
theorem claim_C9_rewriter_idempotent_amended_witness :
    (∀ t ∈ c9WitnessDoc, TagTame t) ∧
      (process_html c9WitnessDoc = PyRes.ok (process_htmlVal c9WitnessDoc) ∧
        process_htmlVal (process_htmlVal c9WitnessDoc) = process_htmlVal c9WitnessDoc ∧
        process_html (process_htmlVal c9WitnessDoc) = PyRes.ok (process_htmlVal c9WitnessDoc)) :=
  ⟨by decide, claim_C9_rewriter_idempotent_amended c9WitnessDoc (by decide)⟩

/-- C9 as claimed is false: on the vertical-tab document both runs succeed,
the first pass rewrites the srcset entry to `images/a\x0b`, and the second
pass strips the trailing `\x0b`, so the second application changes the
attribute value. -/
theorem claim_C9_counterexample :
    process_html c9CounterDoc = PyRes.ok c9MidDoc ∧
      process_html c9MidDoc = PyRes.ok c9FinalDoc ∧ c9FinalDoc ≠ c9MidDoc := by
  decide

end Webexp
